import Mathlib

/-!
# Lab4Sem3: dining philosophers and synchronisation primitives

A verification development over `lab4/ex3/philosophers.cpp` and
`lab4/primitives.cpp`.

The threads of the program are modelled by an interleaving semantics: a state
holds, for every thread, the location it has reached in its function (the next
statement it will execute) and its private variables, together with the shared
objects. One step executes one statement of one thread; a statement that blocks
(`lock()` on a held mutex, `join()` on a running thread) has no step.

Console output and the `printMutex` that serialises it are left out of the
state: the mutex is taken and released inside a single output statement and no
thread blocks on anything else while it holds it.
-/

namespace Philosophers

/-- The constant `NUM_PHILOSOPHERS` of `runPhilosophersTest` and `main`. -/
def NUM_PHILOSOPHERS : Nat := 5

/-- The constant `MAX_EATING` of `runPhilosophersTest`. -/
def MAX_EATING : Int := 2

/-- Index of the fork bound to `leftFork` of philosopher `i`: `forks[i]`. -/
def leftFork (i : Fin 5) : Fin 5 := i

/-- Index of the fork bound to `rightFork` of philosopher `i`:
`forks[(i + 1) % NUM_PHILOSOPHERS]`. -/
def rightFork (i : Fin 5) : Fin 5 :=
  ⟨(i.val + 1) % NUM_PHILOSOPHERS, Nat.mod_lt _ (by decide)⟩

/-- The six `dineWith*` member functions, selected by `version` 1..6. -/
inductive Policy
  | deadlockRisk
  | stdLock
  | timeout
  | semaphore
  | ordering
  | conditionVariable
  deriving DecidableEq, Repr

/-- The `switch (version)` of `runPhilosophersTest`. -/
def Policy.ofVersion : Nat → Option Policy
  | 1 => some .deadlockRisk
  | 2 => some .stdLock
  | 3 => some .timeout
  | 4 => some .semaphore
  | 5 => some .ordering
  | 6 => some .conditionVariable
  | _ => none

/-- Locations inside the `dineWith*` functions: the statement a philosopher
thread executes next. -/
inductive PC
  /-- The loop test `while (!stopFlag)`. -/
  | loopTest
  /-- The call `think()`. -/
  | think
  /-- The call `leftFork.lock()`. -/
  | lockLeft
  /-- The call `rightFork.lock()`. -/
  | lockRight
  /-- Inside `eat()`: from the call until `mealsEaten++` has run. -/
  | eat
  /-- The call `rightFork.unlock()`, also the destructor of `lockRight`. -/
  | unlockRight
  /-- The call `leftFork.unlock()`, also the destructor of `lockLeft`. -/
  | unlockLeft
  /-- The loop has ended and the thread function has returned. -/
  | done
  /-- Inside `std::lock(leftFork, rightFork)`. -/
  | stdLock
  /-- The loop test `while (!gotForks && !stopFlag && attempts < 3)`. -/
  | attemptTest
  /-- The call `leftFork.try_lock_for(100ms)`. -/
  | tryLeft
  /-- The call `rightFork.try_lock_for(100ms)`. -/
  | tryRight
  /-- The call `leftFork.unlock()` in the `else` branch of the failed right try-lock. -/
  | giveBackLeft
  /-- The statement `if (!gotForks)` that runs `attempts++`. -/
  | countFailure
  /-- The call `sleep_for(100ms)` between two attempts. -/
  | backoff
  /-- The test `if (gotForks)` after the attempt loop. -/
  | afterAttempts
  /-- The `else` branch that prints the starvation message. -/
  | starved
  /-- The call `tableMutex.lock()`. -/
  | lockTable
  /-- The call `tableMutex.unlock()`. -/
  | unlockTable
  /-- The declaration `std::unique_lock<std::mutex> lock(cv_mutex)`. -/
  | cvLock
  /-- The predicate `eatingCount < maxEating` of `cv.wait`, evaluated with
  `cv_mutex` held. -/
  | cvTest
  /-- Blocked inside `cv.wait` with `cv_mutex` released. -/
  | cvWait
  /-- The statement `eatingCount++`. -/
  | cvIncr
  /-- End of the block: the `unique_lock` releases `cv_mutex`. -/
  | cvUnlock
  /-- The declaration `std::lock_guard<std::mutex> lock(cv_mutex)` after eating. -/
  | cvLockAgain
  /-- The statement `eatingCount--`. -/
  | cvDecr
  /-- The call `cv.notify_all()` and the end of the block, which releases `cv_mutex`. -/
  | cvNotifyUnlock
  deriving DecidableEq, Repr

/-- Locations of the driver `runPhilosophersTest` once the threads exist. -/
inductive Driver
  /-- The call `sleep_for(seconds(durationSeconds))`, then `stopFlag = true`. -/
  | sleeping
  /-- The call `thread.join()` on `threads[k]` in the loop over `threads`. -/
  | joining (k : Nat)
  /-- The statistics block. -/
  | reporting
  /-- The function has returned. -/
  | returned
  deriving DecidableEq, Repr

/-- A state of one run of `runPhilosophersTest`. -/
structure State where
  /-- Location of each philosopher thread. -/
  pc : Fin 5 → PC
  /-- The field `Philosopher::mealsEaten`. -/
  mealsEaten : Fin 5 → Nat
  /-- Local `attempts` of `dineWithTimeout`. -/
  attempts : Fin 5 → Nat
  /-- Local `gotForks` of `dineWithTimeout`. -/
  gotForks : Fin 5 → Bool
  /-- Owner of each `std::timed_mutex` in `forks`, `none` when unlocked. -/
  forks : Fin 5 → Option (Fin 5)
  /-- Owner of `tableMutex`. -/
  tableMutex : Option (Fin 5)
  /-- Owner of `cv_mutex`. -/
  cv_mutex : Option (Fin 5)
  /-- The atomic `eatingCount`. -/
  eatingCount : Int
  /-- The atomic `stopFlag`. -/
  stopFlag : Bool
  /-- Location of the driver. -/
  driver : Driver

/-- The state after the threads have been created: every philosopher is at the
top of its loop with `mealsEaten(0)`, every mutex is unlocked,
`eatingCount(0)`, `stopFlag(false)`. -/
def State.init : State where
  pc := fun _ => .loopTest
  mealsEaten := fun _ => 0
  attempts := fun _ => 0
  gotForks := fun _ => false
  forks := fun _ => none
  tableMutex := none
  cv_mutex := none
  eatingCount := 0
  stopFlag := false
  driver := .sleeping

/-- Which of the possible outcomes of a statement is taken, where the statement
has more than one. -/
inductive Choice
  /-- The statement runs to its end (for a try-lock: it obtains the mutex;
  for `std::lock`: it returns). -/
  | run
  /-- The call to `try_lock_for` returns `false`. -/
  | timedOut
  /-- Inside `std::lock`: lock the left fork. -/
  | takeLeft
  /-- Inside `std::lock`: lock the right fork. -/
  | takeRight
  /-- Inside `std::lock`: back off, unlocking the left fork. -/
  | dropLeft
  /-- Inside `std::lock`: back off, unlocking the right fork. -/
  | dropRight
  deriving DecidableEq, Repr

/-- Move philosopher `i` to location `p`. -/
def State.goto (s : State) (i : Fin 5) (p : PC) : State :=
  { s with pc := Function.update s.pc i p }

/-- The call `forks[f].lock()` by philosopher `i`: blocks while the mutex is owned. -/
def State.lockFork (s : State) (i f : Fin 5) (next : PC) : Option State :=
  if s.forks f = none then
    some { s with forks := Function.update s.forks f (some i),
                  pc := Function.update s.pc i next }
  else none

/-- The call `forks[f].unlock()` by philosopher `i`: the mutex becomes unlocked. -/
def State.unlockFork (s : State) (i f : Fin 5) (next : PC) : State :=
  { s with forks := Function.update s.forks f none,
           pc := Function.update s.pc i next }

/-- The body of `Philosopher::eat`: sleeps, then `mealsEaten++`. -/
def State.eat (s : State) (i : Fin 5) (next : PC) : State :=
  { s with mealsEaten := Function.update s.mealsEaten i (s.mealsEaten i + 1),
           pc := Function.update s.pc i next }

/-- The test `while (!stopFlag)` at the top of every `dineWith*` loop. -/
def State.loopTest (s : State) (i : Fin 5) : State :=
  s.goto i (if s.stopFlag then .done else .think)

/-- The call `std::lock(leftFork, rightFork)`: an unspecified series of `lock`,
`try_lock` and `unlock` calls on the two mutexes that returns once both are
owned by the caller. -/
def State.stdLock (s : State) (i : Fin 5) (c : Choice) (next : PC) : Option State :=
  match c with
  | .takeLeft => s.lockFork i (leftFork i) .stdLock
  | .takeRight => s.lockFork i (rightFork i) .stdLock
  | .dropLeft =>
      if s.forks (leftFork i) = some i then some (s.unlockFork i (leftFork i) .stdLock) else none
  | .dropRight =>
      if s.forks (rightFork i) = some i then some (s.unlockFork i (rightFork i) .stdLock) else none
  | .run =>
      if s.forks (leftFork i) = some i ∧ s.forks (rightFork i) = some i then some (s.goto i next)
      else none
  | .timedOut => none

/-- One step of `Philosopher::dineWithDeadlockRisk` (version 1). -/
def dineWithDeadlockRisk (s : State) (i : Fin 5) : Option State :=
  match s.pc i with
  | .loopTest => some (s.loopTest i)
  | .think => some (s.goto i .lockLeft)
  | .lockLeft => s.lockFork i (leftFork i) .lockRight
  | .lockRight => s.lockFork i (rightFork i) .eat
  | .eat => some (s.eat i .unlockRight)
  | .unlockRight => some (s.unlockFork i (rightFork i) .unlockLeft)
  | .unlockLeft => some (s.unlockFork i (leftFork i) .loopTest)
  | _ => none

/-- One step of `Philosopher::dineWithStdLock` (version 2). The two
`lock_guard`s adopt the forks and release them at the end of the loop body,
`lockRight` first. -/
def dineWithStdLock (s : State) (i : Fin 5) (c : Choice) : Option State :=
  match s.pc i with
  | .loopTest => some (s.loopTest i)
  | .think => some (s.goto i .stdLock)
  | .stdLock => s.stdLock i c .eat
  | .eat => some (s.eat i .unlockRight)
  | .unlockRight => some (s.unlockFork i (rightFork i) .unlockLeft)
  | .unlockLeft => some (s.unlockFork i (leftFork i) .loopTest)
  | _ => none

/-- The call `forks[f].try_lock_for(100ms)` by philosopher `i`: obtains the mutex
(possible only when it is unlocked) or gives up and returns `false`. -/
def State.tryLockFor (s : State) (i f : Fin 5) (c : Choice) (ok fail : State → State) :
    Option State :=
  match c with
  | .run =>
      if s.forks f = none then
        some (ok { s with forks := Function.update s.forks f (some i) })
      else none
  | .timedOut => some (fail s)
  | _ => none

/-- One step of `Philosopher::dineWithTimeout` (version 3). -/
def dineWithTimeout (s : State) (i : Fin 5) (c : Choice) : Option State :=
  match s.pc i with
  | .loopTest => some (s.loopTest i)
  | .think =>
      some { s with gotForks := Function.update s.gotForks i false,
                    attempts := Function.update s.attempts i 0,
                    pc := Function.update s.pc i .attemptTest }
  | .attemptTest =>
      if !s.gotForks i && !s.stopFlag && decide (s.attempts i < 3) then some (s.goto i .tryLeft)
      else some (s.goto i .afterAttempts)
  | .tryLeft =>
      s.tryLockFor i (leftFork i) c (fun t => t.goto i .tryRight) (fun t => t.goto i .countFailure)
  | .tryRight =>
      s.tryLockFor i (rightFork i) c
        (fun t => { t with gotForks := Function.update t.gotForks i true,
                           pc := Function.update t.pc i .attemptTest })
        (fun t => t.goto i .giveBackLeft)
  | .giveBackLeft => some (s.unlockFork i (leftFork i) .countFailure)
  | .countFailure =>
      some { s with attempts := Function.update s.attempts i (s.attempts i + 1),
                    pc := Function.update s.pc i
                      (if s.attempts i + 1 < 3 then .backoff else .attemptTest) }
  | .backoff => some (s.goto i .attemptTest)
  | .afterAttempts => some (s.goto i (if s.gotForks i then .eat else .starved))
  | .eat => some (s.eat i .unlockRight)
  | .unlockRight => some (s.unlockFork i (rightFork i) .unlockLeft)
  | .unlockLeft => some (s.unlockFork i (leftFork i) .loopTest)
  | .starved => some (s.goto i .loopTest)
  | _ => none

/-- One step of `Philosopher::dineWithSemaphore` (version 4). -/
def dineWithSemaphore (s : State) (i : Fin 5) : Option State :=
  match s.pc i with
  | .loopTest => some (s.loopTest i)
  | .think => some (s.goto i .lockTable)
  | .lockTable =>
      if s.tableMutex = none then some { s with tableMutex := some i,
                                                pc := Function.update s.pc i .lockLeft }
      else none
  | .lockLeft => s.lockFork i (leftFork i) .lockRight
  | .lockRight => s.lockFork i (rightFork i) .eat
  | .eat => some (s.eat i .unlockRight)
  | .unlockRight => some (s.unlockFork i (rightFork i) .unlockLeft)
  | .unlockLeft => some (s.unlockFork i (leftFork i) .unlockTable)
  | .unlockTable => some { s with tableMutex := none, pc := Function.update s.pc i .loopTest }
  | _ => none

/-- One step of `Philosopher::dineWithOrdering` (version 5): `id % 2 == 0`
takes left then right and puts down right then left, the others the reverse. -/
def dineWithOrdering (s : State) (i : Fin 5) : Option State :=
  match s.pc i with
  | .loopTest => some (s.loopTest i)
  | .think => some (s.goto i (if i.val % 2 = 0 then .lockLeft else .lockRight))
  | .lockLeft => s.lockFork i (leftFork i) (if i.val % 2 = 0 then .lockRight else .eat)
  | .lockRight => s.lockFork i (rightFork i) (if i.val % 2 = 0 then .eat else .lockLeft)
  | .eat => some (s.eat i (if i.val % 2 = 0 then .unlockRight else .unlockLeft))
  | .unlockRight =>
      some (s.unlockFork i (rightFork i) (if i.val % 2 = 0 then .unlockLeft else .loopTest))
  | .unlockLeft =>
      some (s.unlockFork i (leftFork i) (if i.val % 2 = 0 then .loopTest else .unlockRight))
  | _ => none

/-- One step of `Philosopher::dineWithConditionVariable` (version 6) with
`maxEating` as passed by the driver. `cv.wait(lock, pred)` is
`while (!pred()) wait(lock)`; a waiting thread may wake at any time (wake-ups
may be spurious) and then takes `cv_mutex` again before it re-tests the
predicate. The two `lock_guard`s over the forks live to the end of the loop
body, so the forks are put down after the block that decrements
`eatingCount`. -/
def dineWithConditionVariable (maxEating : Int) (s : State) (i : Fin 5) (c : Choice) :
    Option State :=
  match s.pc i with
  | .loopTest => some (s.loopTest i)
  | .think => some (s.goto i .cvLock)
  | .cvLock =>
      if s.cv_mutex = none then some { s with cv_mutex := some i,
                                              pc := Function.update s.pc i .cvTest }
      else none
  | .cvTest =>
      if s.eatingCount < maxEating then some (s.goto i .cvIncr)
      else some { s with cv_mutex := none, pc := Function.update s.pc i .cvWait }
  | .cvWait =>
      if s.cv_mutex = none then some { s with cv_mutex := some i,
                                              pc := Function.update s.pc i .cvTest }
      else none
  | .cvIncr =>
      some { s with eatingCount := s.eatingCount + 1, pc := Function.update s.pc i .cvUnlock }
  | .cvUnlock => some { s with cv_mutex := none, pc := Function.update s.pc i .stdLock }
  | .stdLock => s.stdLock i c .eat
  | .eat => some (s.eat i .cvLockAgain)
  | .cvLockAgain =>
      if s.cv_mutex = none then some { s with cv_mutex := some i,
                                              pc := Function.update s.pc i .cvDecr }
      else none
  | .cvDecr =>
      some { s with eatingCount := s.eatingCount - 1,
                    pc := Function.update s.pc i .cvNotifyUnlock }
  | .cvNotifyUnlock => some { s with cv_mutex := none, pc := Function.update s.pc i .unlockRight }
  | .unlockRight => some (s.unlockFork i (rightFork i) .unlockLeft)
  | .unlockLeft => some (s.unlockFork i (leftFork i) .loopTest)
  | _ => none

/-- Locations whose statement has more than one outcome. -/
def PC.hasOutcomes : PC → Bool
  | .stdLock => true
  | .tryLeft => true
  | .tryRight => true
  | _ => false

/-- One step of philosopher `i` under the given policy. A statement with a
single outcome accepts only `Choice.run`. -/
def agentStep (pol : Policy) (s : State) (i : Fin 5) (c : Choice) : Option State :=
  if c ≠ .run ∧ (s.pc i).hasOutcomes = false then none
  else
    match pol with
    | .deadlockRisk => dineWithDeadlockRisk s i
    | .stdLock => dineWithStdLock s i c
    | .timeout => dineWithTimeout s i c
    | .semaphore => dineWithSemaphore s i
    | .ordering => dineWithOrdering s i
    | .conditionVariable => dineWithConditionVariable MAX_EATING s i c

/-- One step of the driver `runPhilosophersTest` after the threads have been
started: `stopFlag = true`, then `thread.join()` on every thread in order
(each `join` returns only when that thread has finished), then the statistics
block. -/
def driverStep (s : State) : Option State :=
  match s.driver with
  | .sleeping => some { s with stopFlag := true, driver := .joining 0 }
  | .joining k =>
      if h : k < 5 then
        if s.pc ⟨k, h⟩ = .done then
          some { s with driver := if k + 1 < NUM_PHILOSOPHERS then .joining (k + 1) else .reporting }
        else none
      else none
  | .reporting => some { s with driver := .returned }
  | .returned => none

/-- Who moves: a philosopher thread, with the outcome of its statement, or the
driver. -/
inductive Move
  | agent (i : Fin 5) (c : Choice)
  | driver
  deriving DecidableEq, Repr

/-- The step relation of one run, as a function of the move. -/
def step (pol : Policy) (s : State) : Move → Option State
  | .agent i c => agentStep pol s i c
  | .driver => driverStep s

/-- Run a schedule (a list of moves) from a state; `none` when some move of
the schedule is not possible. -/
def exec (pol : Policy) (s : State) : List Move → Option State
  | [] => some s
  | m :: ms => (step pol s m).bind (fun t => exec pol t ms)

/-- States reachable from the initial state under a policy. -/
inductive Reachable (pol : Policy) : State → Prop
  | init : Reachable pol State.init
  | step {s t : State} (m : Move) : Reachable pol s → step pol s m = some t → Reachable pol t

/-- Philosopher `i` is inside `eat()`. -/
def State.eating (s : State) (i : Fin 5) : Prop := s.pc i = .eat

instance (s : State) (i : Fin 5) : Decidable (s.eating i) := by
  unfold State.eating; infer_instance

/-- The schedule in which every philosopher in turn passes the loop test,
thinks and locks its left fork. -/
def allTakeLeft : List Move :=
  (List.finRange 5).flatMap (fun i => [Move.agent i .run, Move.agent i .run, Move.agent i .run])

/-- The state of version 1 after `allTakeLeft`. -/
def leftForksTaken : State := (exec .deadlockRisk State.init allTakeLeft).getD State.init

/-- Every philosopher is at `rightFork.lock()` and every fork is owned. -/
def State.circularWait (s : State) : Prop :=
  (∀ i, s.pc i = .lockRight ∧ s.forks (leftFork i) = some i) ∧ ∀ f, s.forks f ≠ none


/-- Whether philosopher `i`, at location `p` of policy `pol` (with local
`gotForks = got`), has locked its left fork and not yet unlocked it. -/
def holdsLeftAt (pol : Policy) (i : Fin 5) (p : PC) (got : Bool) : Bool :=
  match pol, p with
  | _, .eat => true
  | .ordering, .lockRight => i.val % 2 = 0
  | .ordering, .unlockRight => i.val % 2 = 0
  | .ordering, .unlockLeft => true
  | .ordering, _ => false
  | .timeout, .tryRight => true
  | .timeout, .giveBackLeft => true
  | .timeout, .attemptTest => got
  | .timeout, .afterAttempts => got
  | .timeout, .unlockRight => true
  | .timeout, .unlockLeft => true
  | .timeout, _ => false
  | .conditionVariable, .cvLockAgain => true
  | .conditionVariable, .cvDecr => true
  | .conditionVariable, .cvNotifyUnlock => true
  | _, .lockRight => true
  | _, .unlockRight => true
  | _, .unlockLeft => true
  | _, _ => false

/-- Whether philosopher `i`, at location `p` of policy `pol`, has locked its
right fork and not yet unlocked it. -/
def holdsRightAt (pol : Policy) (i : Fin 5) (p : PC) (got : Bool) : Bool :=
  match pol, p with
  | _, .eat => true
  | .ordering, .lockLeft => i.val % 2 ≠ 0
  | .ordering, .unlockLeft => i.val % 2 ≠ 0
  | .ordering, .unlockRight => true
  | .ordering, _ => false
  | .timeout, .attemptTest => got
  | .timeout, .afterAttempts => got
  | .timeout, .unlockRight => true
  | .timeout, _ => false
  | .conditionVariable, .cvLockAgain => true
  | .conditionVariable, .cvDecr => true
  | .conditionVariable, .cvNotifyUnlock => true
  | _, .unlockRight => true
  | _, _ => false

/-- Locations of `dineWithTimeout` inside an attempt that has not obtained both
forks, where `gotForks` is still `false`. -/
def PC.beforeGotForks : PC → Bool
  | .tryLeft => true
  | .tryRight => true
  | .giveBackLeft => true
  | .countFailure => true
  | .backoff => true
  | .starved => true
  | _ => false

/-- Philosopher `i` owns the forks its location says it has locked. -/
def State.pairedAt (pol : Policy) (s : State) (i : Fin 5) : Prop :=
  (holdsLeftAt pol i (s.pc i) (s.gotForks i) = true → s.forks (leftFork i) = some i) ∧
  (holdsRightAt pol i (s.pc i) (s.gotForks i) = true → s.forks (rightFork i) = some i) ∧
  ((s.pc i).beforeGotForks = true → s.gotForks i = false)

/-- Every philosopher owns the forks its location says it has locked. -/
def State.paired (pol : Policy) (s : State) : Prop := ∀ i, s.pairedAt pol i

/-- A fork that is owned is owned by a philosopher whose left or right fork it
is, at a location where that philosopher may have locked it: a location where
it has locked it, or inside `std::lock`. -/
def State.owned (pol : Policy) (s : State) : Prop :=
  ∀ f j, s.forks f = some j →
    (f = leftFork j ∧
      (holdsLeftAt pol j (s.pc j) (s.gotForks j) = true ∨ s.pc j = .stdLock)) ∨
    (f = rightFork j ∧
      (holdsRightAt pol j (s.pc j) (s.gotForks j) = true ∨ s.pc j = .stdLock))

/-- The locations that occur in the `dineWith*` function of a policy. -/
def Policy.locations : Policy → PC → Bool
  | _, .loopTest => true
  | _, .think => true
  | _, .eat => true
  | _, .unlockRight => true
  | _, .unlockLeft => true
  | _, .done => true
  | .deadlockRisk, .lockLeft => true
  | .deadlockRisk, .lockRight => true
  | .stdLock, .stdLock => true
  | .timeout, .attemptTest => true
  | .timeout, .tryLeft => true
  | .timeout, .tryRight => true
  | .timeout, .giveBackLeft => true
  | .timeout, .countFailure => true
  | .timeout, .backoff => true
  | .timeout, .afterAttempts => true
  | .timeout, .starved => true
  | .semaphore, .lockTable => true
  | .semaphore, .lockLeft => true
  | .semaphore, .lockRight => true
  | .semaphore, .unlockTable => true
  | .ordering, .lockLeft => true
  | .ordering, .lockRight => true
  | .conditionVariable, .cvLock => true
  | .conditionVariable, .cvTest => true
  | .conditionVariable, .cvWait => true
  | .conditionVariable, .cvIncr => true
  | .conditionVariable, .cvUnlock => true
  | .conditionVariable, .stdLock => true
  | .conditionVariable, .cvLockAgain => true
  | .conditionVariable, .cvDecr => true
  | .conditionVariable, .cvNotifyUnlock => true
  | _, _ => false

/-- Every philosopher is at a location of the policy's function. -/
def State.wellPlaced (pol : Policy) (s : State) : Prop :=
  ∀ i, pol.locations (s.pc i) = true

/-- The fork `dineWithOrdering` locks first: the left one for `id % 2 == 0`,
the right one otherwise. -/
def firstFork (i : Fin 5) : Fin 5 := if i.val % 2 = 0 then leftFork i else rightFork i

/-- The fork `dineWithOrdering` locks second. -/
def secondFork (i : Fin 5) : Fin 5 := if i.val % 2 = 0 then rightFork i else leftFork i

/-- The fork philosopher `i` is trying to lock, when it is at a blocking
`lock()` call on a fork. -/
def State.waitsFor (s : State) (i : Fin 5) : Option (Fin 5) :=
  match s.pc i with
  | .lockLeft => some (leftFork i)
  | .lockRight => some (rightFork i)
  | _ => none

/-- Philosopher `i` is blocked on a fork that philosopher `j` owns. -/
def State.blockedOn (s : State) (i j : Fin 5) : Prop :=
  ∃ f, s.waitsFor i = some f ∧ s.forks f = some j

/-- A circular wait: a non-empty set of philosophers each of which is blocked
on a fork owned by another philosopher of the set. -/
def State.waitCycle (s : State) (S : Finset (Fin 5)) : Prop :=
  S.Nonempty ∧ ∀ i ∈ S, ∃ j ∈ S, j ≠ i ∧ s.blockedOn i j

/-- Number of philosophers that satisfy `q`. -/
def count5 (q : Fin 5 → Bool) : Nat :=
  (q 0).toNat + (q 1).toNat + (q 2).toNat + (q 3).toNat + (q 4).toNat

/-- Number of philosophers that are inside `eat()`. -/
def State.eatingNow (s : State) : Nat := count5 fun i => decide (s.pc i = .eat)

/-- Locations of `dineWithConditionVariable` between `eatingCount++` and
`eatingCount--`. -/
def PC.admitted : PC → Bool
  | .cvUnlock => true
  | .stdLock => true
  | .eat => true
  | .cvLockAgain => true
  | .cvDecr => true
  | _ => false

/-- Locations of `dineWithConditionVariable` at which the thread owns
`cv_mutex`. -/
def PC.holdsCv : PC → Bool
  | .cvTest => true
  | .cvIncr => true
  | .cvUnlock => true
  | .cvDecr => true
  | .cvNotifyUnlock => true
  | _ => false

/-- Invariant of version 6: `cv_mutex` is owned by the philosopher that is
inside one of the two blocks guarded by it, `eatingCount` is the number of
philosophers between their increment and their decrement, it never exceeds
`MAX_EATING`, and it is below `MAX_EATING` when a philosopher is about to
increment it. -/
def State.cvOk (s : State) : Prop :=
  (∀ i, (s.pc i).holdsCv = true → s.cv_mutex = some i) ∧
  s.eatingCount = ((count5 fun i => (s.pc i).admitted : Nat) : Int) ∧
  s.eatingCount ≤ MAX_EATING ∧
  (∀ i, s.pc i = .cvIncr → s.eatingCount < MAX_EATING)

/-- A schedule of version 6 in which philosophers 0 and 2 are admitted and
reach `eat()`, and philosopher 4 then finds the table full and waits. -/
def twoAdmitted : List Move :=
  (List.replicate 6 (Move.agent 0 .run) ++
    [Move.agent 0 .takeLeft, Move.agent 0 .takeRight, Move.agent 0 .run]) ++
  (List.replicate 6 (Move.agent 2 .run) ++
    [Move.agent 2 .takeRight, Move.agent 2 .takeLeft, Move.agent 2 .run]) ++
  List.replicate 4 (Move.agent 4 .run)

/-- The state of version 6 after `twoAdmitted`. -/
def cvDemo : State := (exec .conditionVariable State.init twoAdmitted).getD State.init

/-- Locations of `dineWithSemaphore` between `tableMutex.lock()` and
`tableMutex.unlock()`. -/
def PC.holdsTable : PC → Bool
  | .lockLeft => true
  | .lockRight => true
  | .eat => true
  | .unlockRight => true
  | .unlockLeft => true
  | .unlockTable => true
  | _ => false

/-- Invariant of version 4: `tableMutex` is owned by the philosopher that is
between its `lock()` and its `unlock()`. -/
def State.tableOk (s : State) : Prop :=
  ∀ i, (s.pc i).holdsTable = true → s.tableMutex = some i

/-- A schedule of version 4 in which philosopher 0 sits down and reaches
`eat()` and philosopher 1 arrives at `tableMutex.lock()`. -/
def oneAtTable : List Move :=
  List.replicate 5 (Move.agent 0 .run) ++ List.replicate 2 (Move.agent 1 .run)

/-- The state of version 4 after `oneAtTable`. -/
def semaphoreDemo : State := (exec .semaphore State.init oneAtTable).getD State.init

/-- Philosophers `i` and `j` sit next to each other in the ring: one is the
other's successor modulo `NUM_PHILOSOPHERS`. -/
def adjacent (i j : Fin 5) : Prop :=
  j.val = (i.val + 1) % NUM_PHILOSOPHERS ∨ i.val = (j.val + 1) % NUM_PHILOSOPHERS

/-- A schedule in which philosopher 0 runs alone up to `eat()` and then
philosopher 2 does the same. -/
def zeroAndTwoEat : List Move :=
  List.replicate 4 (Move.agent 0 .run) ++ List.replicate 4 (Move.agent 2 .run)

/-- The state of version 5 after `zeroAndTwoEat`. -/
def orderingDemo : State := (exec .ordering State.init zeroAndTwoEat).getD State.init

/-- A schedule of version 5 in which every philosopher passes the loop test
and thinks, and then philosophers 0, 1 and 3 lock the fork they take first. -/
def firstForksTaken : List Move :=
  (List.finRange 5).flatMap (fun i => [Move.agent i .run, Move.agent i .run]) ++
    [Move.agent 0 .run, Move.agent 1 .run, Move.agent 3 .run]

/-- The state of version 5 after `firstForksTaken`: philosophers 2 and 4 are
blocked on forks that philosophers 1 and 3 own. -/
def orderingContended : State := (exec .ordering State.init firstForksTaken).getD State.init

end Philosophers

/-! ## One cycle of `dineWithTimeout`, seen from the thread itself -/

namespace Philosophers

/-- What a philosopher thread does during one pass through the body of the
outer loop of `dineWithTimeout`, in program order. -/
inductive Event
  /-- The call `think()`. -/
  | think
  /-- The message announcing attempt number `n` (`attempts + 1`). -/
  | attemptMsg (n : Nat)
  /-- The call `leftFork.try_lock_for(100ms)` and what it returned. -/
  | tryLeft (ok : Bool)
  /-- The call `rightFork.try_lock_for(100ms)` and what it returned. -/
  | tryRight (ok : Bool)
  /-- The call `leftFork.unlock()`. -/
  | unlockLeft
  /-- The call `rightFork.unlock()`. -/
  | unlockRight
  /-- The message that the forks could not be taken and the thread waits. -/
  | waitMsg
  /-- The call `sleep_for(100ms)` between two attempts. -/
  | backoffSleep
  /-- The call `eat()`. -/
  | eat
  /-- The message that the forks have been put down. -/
  | putDownMsg
  /-- The message that the philosopher starves. -/
  | starvedMsg
  deriving DecidableEq, Repr

/-- What the rest of the program lets the thread observe during one cycle:
`left k` and `right k` are the results of the two timed try-locks in the pass
of the inner loop that starts with `attempts = k` (the right one is only asked
for when the left one succeeded), and `stop k` is the value of `stopFlag` read
by the inner loop test before that pass. -/
structure Env where
  /-- Result of `leftFork.try_lock_for` when `attempts = k`. -/
  left : Nat → Bool
  /-- Result of `rightFork.try_lock_for` when `attempts = k`. -/
  right : Nat → Bool
  /-- Value of `stopFlag` at the inner loop test when `attempts = k`. -/
  stop : Nat → Bool

/-- The variables of one cycle, and the events so far. -/
structure Locals where
  /-- Local `gotForks`. -/
  gotForks : Bool
  /-- Local `attempts`. -/
  attempts : Nat
  /-- The field `mealsEaten`. -/
  mealsEaten : Nat
  /-- Events of the cycle so far, oldest first. -/
  trace : List Event

/-- The body of the inner `while` loop of `dineWithTimeout`. -/
def attemptBody (env : Env) (c : Locals) : Locals :=
  let c1 : Locals := { c with trace := c.trace ++ [.attemptMsg (c.attempts + 1)] }
  let c2 : Locals :=
    if env.left c.attempts then
      if env.right c.attempts then
        { c1 with gotForks := true, trace := c1.trace ++ [.tryLeft true, .tryRight true] }
      else
        { c1 with trace := c1.trace ++ [.tryLeft true, .tryRight false, .unlockLeft] }
    else
      { c1 with trace := c1.trace ++ [.tryLeft false] }
  if !c2.gotForks then
    let c3 : Locals := { c2 with attempts := c2.attempts + 1 }
    if c3.attempts < 3 then { c3 with trace := c3.trace ++ [.waitMsg, .backoffSleep] } else c3
  else c2

/-- The inner loop `while (!gotForks && !stopFlag && attempts < 3)`, run for at
most `fuel` passes; `none` when the loop has not ended by then. -/
def attemptLoop (env : Env) : Nat → Locals → Option Locals
  | 0, c =>
      if !c.gotForks && !env.stop c.attempts && decide (c.attempts < 3) then none else some c
  | fuel + 1, c =>
      if !c.gotForks && !env.stop c.attempts && decide (c.attempts < 3) then
        attemptLoop env fuel (attemptBody env c)
      else some c

/-- One pass through the body of the outer loop of `dineWithTimeout`, for a
philosopher that has eaten `meals` times so far. -/
def timeoutCycle (env : Env) (fuel : Nat) (meals : Nat) : Option Locals :=
  (attemptLoop env fuel
      { gotForks := false, attempts := 0, mealsEaten := meals, trace := [.think] }).map
    fun c =>
      if c.gotForks then
        { c with mealsEaten := c.mealsEaten + 1,
                 trace := c.trace ++ [.eat, .unlockRight, .unlockLeft, .putDownMsg] }
      else
        { c with trace := c.trace ++ [.starvedMsg] }

/-- Number of acquisition attempts announced in a trace. -/
def attemptsMade (tr : List Event) : Nat :=
  tr.countP fun e => match e with
    | .attemptMsg _ => true
    | _ => false

/-- Number of timed try-locks in a trace. -/
def tryLocks (tr : List Event) : Nat :=
  tr.countP fun e => match e with
    | .tryLeft _ => true
    | .tryRight _ => true
    | _ => false

/-- Number of backoff sleeps in a trace. -/
def backoffSleeps (tr : List Event) : Nat := tr.count .backoffSleep

/-- Both try-locks succeed in the pass that starts with `attempts = k`. -/
def Env.both (env : Env) (k : Nat) : Bool := env.left k && env.right k

/-- What the events between the announcement of an attempt and its failure can
be: a failed left try-lock, or a successful left try-lock, a failed right
try-lock and the unlock of the left fork. -/
def failedTry (mid : List Event) : Prop :=
  mid = [.tryLeft false] ∨ mid = [.tryLeft true, .tryRight false, .unlockLeft]

/-- Loop invariant of the inner loop of `dineWithTimeout` while no attempt has
obtained both forks: the locals and the trace after `j` failed attempts of a
philosopher that had eaten `m` times. -/
structure FailedSoFar (m j : Nat) (c : Locals) : Prop where
  got : c.gotForks = false
  att : c.attempts = j
  meals : c.mealsEaten = m
  made : attemptsMade c.trace = j
  tries : tryLocks c.trace ≤ 2 * j
  sleeps : backoffSleeps c.trace = min j 2
  noEat : c.trace.count .eat = 0
  noStarved : c.trace.count .starvedMsg = 0
  third : j = 3 → ∃ pre mid, c.trace = pre ++ .attemptMsg 3 :: mid ∧ failedTry mid

/-- An environment in which the first attempt fails on the right fork, the
second on the left fork and the third obtains both forks. -/
def thirdTimeLucky : Env where
  left := fun k => k != 1
  right := fun k => k == 2
  stop := fun _ => false

/-- An environment in which no attempt obtains both forks. -/
def neverBoth : Env where
  left := fun k => k == 1
  right := fun _ => false
  stop := fun _ => false

end Philosophers

/-! ## The drivers: joining the threads, the statistics, the liveness probe -/

namespace Philosophers

/-- The statistics loop of `runPhilosophersTest`:
`totalMeals += philosophers[i].getMealsEaten()` for `i = 0 .. 4`, from 0. -/
def totalMeals (s : State) : Nat :=
  (List.finRange 5).foldl (fun total i => total + s.mealsEaten i) 0

/-- Whether a move is the return of philosopher `i` from `eat()`: a move of
`i` made at the location `eat`. -/
def completesEat (s : State) (i : Fin 5) : Move → Bool
  | .agent j _ => decide (j = i) && decide (s.pc i = .eat)
  | .driver => false

/-- Number of `eat()` calls that philosopher `i` completes along a schedule
run from state `s`. -/
def eatsCompleted (pol : Policy) (i : Fin 5) : State → List Move → Nat
  | _, [] => 0
  | s, m :: ms =>
      match step pol s m with
      | none => 0
      | some t => (completesEat s i m).toNat + eatsCompleted pol i t ms

/-- A run of version 4 in which philosopher 0 eats once, the driver then sets
`stopFlag`, every philosopher leaves its loop, and the driver joins the five
threads and prints the statistics. -/
def oneMealRun : List Move :=
  List.replicate 9 (Move.agent 0 .run) ++ [Move.driver] ++
    (List.finRange 5).map (fun i => Move.agent i .run) ++ List.replicate 6 Move.driver

/-- The state of version 4 after `oneMealRun`. -/
def oneMealEnd : State := (exec .semaphore State.init oneMealRun).getD State.init

/-- The state of version 1 after every philosopher has locked its left fork
and the driver has set `stopFlag`. -/
def stoppedInDeadlock : State :=
  (exec .deadlockRisk State.init (allTakeLeft ++ [Move.driver])).getD State.init

/-- A `std::thread` object of `threads` together with the fate of the thread
it started. -/
structure ThreadObj where
  /-- The number of the poll of the probe by which the thread function has
  returned (0: before the first poll), `none` if it never returns. -/
  finishedBy : Option Nat
  /-- Whether `join()` has returned on this object. -/
  joined : Bool

/-- The library call `std::thread::joinable()`: `true` as long as the object
is associated with a thread, that is until it has been joined; a thread whose
function has returned but that has not been joined is still joinable. -/
def ThreadObj.joinable (t : ThreadObj) : Bool := !t.joined

/-- How the process ends. -/
inductive Exit
  /-- The process ends with this exit code. -/
  | code (n : Nat)
  /-- The process never ends: it is blocked in a `join()`. -/
  | blocked
  deriving DecidableEq, Repr

/-- The inner loop of the probe: `allFinished = true`, then for each thread
`if (thread.joinable()) { allFinished = false; break; }`. -/
def scanThreads : List ThreadObj → Bool
  | [] => true
  | t :: ts => if t.joinable then false else scanThreads ts

/-- The loop `for (int i = 0; i < 20; ++i)` of the probe with `polls`
iterations left: scan, leave the loop when `allFinished`, else sleep 100 ms. -/
def probeLoop (threads : List ThreadObj) : Nat → Bool → Bool
  | 0, allFinished => allFinished
  | polls + 1, _ => if scanThreads threads then true else probeLoop threads polls false

/-- The `else` branch after the probe: `join()` on every joinable thread;
a `join()` on a thread that never returns blocks for ever. -/
def joinAll : List ThreadObj → Exit
  | [] => .code 0
  | t :: ts =>
      if t.joinable then
        match t.finishedBy with
        | some _ => joinAll ts
        | none => .blocked
      else joinAll ts

/-- The end of `main`, from `bool allFinished = true;` on. -/
def mainProbe (threads : List ThreadObj) : Exit :=
  if !probeLoop threads 20 true then .code 1 else joinAll threads

/-- The vector `threads` of `main` when the probe starts: five objects created
by `emplace_back` with a thread function, none of them joined. -/
def spawned (finishedBy : Fin 5 → Option Nat) : List ThreadObj :=
  (List.finRange 5).map fun i => { finishedBy := finishedBy i, joined := false }

end Philosophers

/-! ## `primitives.cpp`: eight workers appending to one buffer -/

namespace Primitives

/-- The constant `THREAD_COUNT`. -/
def THREAD_COUNT : Nat := 8

/-- The constant `ITERATIONS`. -/
def ITERATIONS : Nat := 100000

/-- The constant `BARRIER_ITERATIONS`. -/
def BARRIER_ITERATIONS : Nat := 1000

/-- The six worker functions, in the order in which `main` measures them. -/
inductive Worker
  | spinlock
  | spinwait
  | mutex
  | semaphore
  | monitor
  | barrier
  deriving DecidableEq, Repr

/-- Locations inside the worker functions: the statement a worker thread
executes next. -/
inductive Loc
  /-- The loop test `i < iters`. -/
  | loopTest
  /-- The declaration `lock_guard<mutex> lock(buffer_mutex)`. -/
  | lockMutex
  /-- End of the loop body of `mutex_worker`: the guard unlocks; then `++i`. -/
  | unlockMutex
  /-- The call `sem.acquire()`. -/
  | semAcquire
  /-- The call `sem.release()`; then `++i`. -/
  | semRelease
  /-- The test `spinlock.test_and_set(memory_order_acquire)` of the spin loop. -/
  | spinTest
  /-- The call `spinlock.clear(memory_order_release)`; then `++i`. -/
  | spinClear
  /-- The test `busy_flag.exchange(true, memory_order_acquire)` of the spin loop. -/
  | waitTest
  /-- The call `busy_flag.store(false, memory_order_release)`; then `++i`. -/
  | waitStore
  /-- The declaration `unique_lock<mutex> lock(monitor_mtx)`. -/
  | monLock
  /-- The predicate `resource_free` of `monitor_cv.wait`, evaluated with
  `monitor_mtx` held. -/
  | monTest
  /-- Blocked inside `monitor_cv.wait` with `monitor_mtx` released. -/
  | monWait
  /-- The statement `resource_free = false`. -/
  | monTake
  /-- The call `lock.unlock()`. -/
  | monUnlock
  /-- The call `lock.lock()`. -/
  | monRelock
  /-- The statement `resource_free = true`. -/
  | monFree
  /-- The call `monitor_cv.notify_one()` and the end of the loop body, where the
  `unique_lock` unlocks; then `++i`. -/
  | monNotify
  /-- The declaration `lock_guard<mutex> lock(barrier_mutex_internal)`. -/
  | barLock
  /-- End of the inner block of `barrier_worker`: the guard unlocks. -/
  | barUnlock
  /-- The arrival part of `sync_barrier.arrive_and_wait()`. -/
  | barArrive
  /-- The waiting part of `sync_barrier.arrive_and_wait()`; then `++i`. -/
  | barWait
  /-- First half of `shared_buffer.push_back(c)`: read the current size. -/
  | pushRead
  /-- Second half of `shared_buffer.push_back(c)`: store the element at the
  position read and set the size to that position plus one. -/
  | pushWrite
  /-- The loop has ended and the worker function has returned. -/
  | done
  deriving DecidableEq, Repr

/-- A state of one call of `run_and_measure` after the threads have been
created. Of `shared_buffer` only the size is kept: the elements are random
characters that nothing reads. -/
structure Bench where
  /-- Location of each worker thread. -/
  pc : Fin 8 → Loc
  /-- Loop counter `i` of each worker. -/
  i : Fin 8 → Nat
  /-- Size of the buffer read by each worker in the first half of `push_back`. -/
  pos : Fin 8 → Nat
  /-- The value of `shared_buffer.size()`. -/
  bufferSize : Nat
  /-- Owner of `buffer_mutex`. -/
  buffer_mutex : Option (Fin 8)
  /-- Counter of the `counting_semaphore` `sem`. -/
  sem : Nat
  /-- The `atomic_flag` `spinlock`. -/
  spinlock : Bool
  /-- The atomic `busy_flag`. -/
  busy_flag : Bool
  /-- Owner of `monitor_mtx`. -/
  monitor_mtx : Option (Fin 8)
  /-- The variable `resource_free`. -/
  resource_free : Bool
  /-- Owner of `barrier_mutex_internal`. -/
  barrier_mutex_internal : Option (Fin 8)
  /-- Number of workers that have arrived at `sync_barrier` in the current phase. -/
  arrived : Nat
  /-- Number of completed phases of `sync_barrier`. -/
  phase : Nat
  /-- The phase in which each worker arrived at the barrier. -/
  arrivedIn : Fin 8 → Nat

/-- The state when the eight threads have been created: `shared_buffer.clear()`
has run, every worker is at its loop test with `i = 0`, and the
synchronisation objects have their initial values (`sem(1)`,
`ATOMIC_FLAG_INIT`, `busy_flag{false}`, `resource_free = true`,
`sync_barrier(THREAD_COUNT)`). -/
def Bench.init : Bench where
  pc := fun _ => .loopTest
  i := fun _ => 0
  pos := fun _ => 0
  bufferSize := 0
  buffer_mutex := none
  sem := 1
  spinlock := false
  busy_flag := false
  monitor_mtx := none
  resource_free := true
  barrier_mutex_internal := none
  arrived := 0
  phase := 0
  arrivedIn := fun _ => 0

/-- Move worker `w` to location `p`. -/
def Bench.goto (s : Bench) (w : Fin 8) (p : Loc) : Bench :=
  { s with pc := Function.update s.pc w p }

/-- The increment `++i` at the end of the loop body; the worker returns to the
loop test. -/
def Bench.nextIter (s : Bench) (w : Fin 8) : Bench :=
  { s with i := Function.update s.i w (s.i w + 1), pc := Function.update s.pc w .loopTest }

/-- The loop test `i < iters`. -/
def Bench.loopTest (s : Bench) (w : Fin 8) (iters : Nat) (body : Loc) : Bench :=
  s.goto w (if s.i w < iters then body else .done)

/-- First half of `push_back`: the worker reads the size of the buffer. -/
def Bench.pushRead (s : Bench) (w : Fin 8) : Bench :=
  { s with pos := Function.update s.pos w s.bufferSize,
           pc := Function.update s.pc w .pushWrite }

/-- Second half of `push_back`: the element is stored at the position read
and the size becomes that position plus one. -/
def Bench.pushWrite (s : Bench) (w : Fin 8) (next : Loc) : Bench :=
  { s with bufferSize := s.pos w + 1, pc := Function.update s.pc w next }

/-- One step of `mutex_worker`. -/
def mutex_worker (iters : Nat) (s : Bench) (w : Fin 8) : Option Bench :=
  match s.pc w with
  | .loopTest => some (s.loopTest w iters .lockMutex)
  | .lockMutex =>
      if s.buffer_mutex = none then
        some { s with buffer_mutex := some w, pc := Function.update s.pc w .pushRead }
      else none
  | .pushRead => some (s.pushRead w)
  | .pushWrite => some (s.pushWrite w .unlockMutex)
  | .unlockMutex => some { s.nextIter w with buffer_mutex := none }
  | _ => none

/-- One step of `semaphore_worker`. -/
def semaphore_worker (iters : Nat) (s : Bench) (w : Fin 8) : Option Bench :=
  match s.pc w with
  | .loopTest => some (s.loopTest w iters .semAcquire)
  | .semAcquire =>
      if 0 < s.sem then
        some { s with sem := s.sem - 1, pc := Function.update s.pc w .pushRead }
      else none
  | .pushRead => some (s.pushRead w)
  | .pushWrite => some (s.pushWrite w .semRelease)
  | .semRelease => some { s.nextIter w with sem := s.sem + 1 }
  | _ => none

/-- One step of `spinlock_worker`. While `test_and_set` returns `true` the
worker yields and tests again. -/
def spinlock_worker (iters : Nat) (s : Bench) (w : Fin 8) : Option Bench :=
  match s.pc w with
  | .loopTest => some (s.loopTest w iters .spinTest)
  | .spinTest =>
      if s.spinlock then some s
      else some { s with spinlock := true, pc := Function.update s.pc w .pushRead }
  | .pushRead => some (s.pushRead w)
  | .pushWrite => some (s.pushWrite w .spinClear)
  | .spinClear => some { s.nextIter w with spinlock := false }
  | _ => none

/-- One step of `spinwait_worker`. While `exchange(true)` returns `true` the
worker yields and tests again. -/
def spinwait_worker (iters : Nat) (s : Bench) (w : Fin 8) : Option Bench :=
  match s.pc w with
  | .loopTest => some (s.loopTest w iters .waitTest)
  | .waitTest =>
      if s.busy_flag then some s
      else some { s with busy_flag := true, pc := Function.update s.pc w .pushRead }
  | .pushRead => some (s.pushRead w)
  | .pushWrite => some (s.pushWrite w .waitStore)
  | .waitStore => some { s.nextIter w with busy_flag := false }
  | _ => none

/-- One step of `monitor_worker`. `monitor_cv.wait(lock, pred)` is
`while (!pred()) wait(lock)`; a waiting thread may wake at any time (wake-ups
may be spurious) and then takes `monitor_mtx` again before it re-tests the
predicate. -/
def monitor_worker (iters : Nat) (s : Bench) (w : Fin 8) : Option Bench :=
  match s.pc w with
  | .loopTest => some (s.loopTest w iters .monLock)
  | .monLock =>
      if s.monitor_mtx = none then
        some { s with monitor_mtx := some w, pc := Function.update s.pc w .monTest }
      else none
  | .monTest =>
      if s.resource_free then some (s.goto w .monTake)
      else some { s with monitor_mtx := none, pc := Function.update s.pc w .monWait }
  | .monWait =>
      if s.monitor_mtx = none then
        some { s with monitor_mtx := some w, pc := Function.update s.pc w .monTest }
      else none
  | .monTake => some { s with resource_free := false, pc := Function.update s.pc w .monUnlock }
  | .monUnlock => some { s with monitor_mtx := none, pc := Function.update s.pc w .pushRead }
  | .pushRead => some (s.pushRead w)
  | .pushWrite => some (s.pushWrite w .monRelock)
  | .monRelock =>
      if s.monitor_mtx = none then
        some { s with monitor_mtx := some w, pc := Function.update s.pc w .monFree }
      else none
  | .monFree => some { s with resource_free := true, pc := Function.update s.pc w .monNotify }
  | .monNotify => some { s.nextIter w with monitor_mtx := none }
  | _ => none

/-- One step of `barrier_worker`. The last of the `THREAD_COUNT` workers to
arrive completes the phase and goes on; the others wait until the phase in
which they arrived is complete. -/
def barrier_worker (iters : Nat) (s : Bench) (w : Fin 8) : Option Bench :=
  match s.pc w with
  | .loopTest => some (s.loopTest w iters .barLock)
  | .barLock =>
      if s.barrier_mutex_internal = none then
        some { s with barrier_mutex_internal := some w,
                      pc := Function.update s.pc w .pushRead }
      else none
  | .pushRead => some (s.pushRead w)
  | .pushWrite => some (s.pushWrite w .barUnlock)
  | .barUnlock =>
      some { s with barrier_mutex_internal := none, pc := Function.update s.pc w .barArrive }
  | .barArrive =>
      if s.arrived + 1 = THREAD_COUNT then
        some { s.nextIter w with arrived := 0, phase := s.phase + 1 }
      else
        some { s with arrived := s.arrived + 1,
                      arrivedIn := Function.update s.arrivedIn w s.phase,
                      pc := Function.update s.pc w .barWait }
  | .barWait => if s.phase ≠ s.arrivedIn w then some (s.nextIter w) else none
  | _ => none

/-- One step of worker thread `w` of a run of `run_and_measure(func, name,
iters)`. -/
def workerStep (func : Worker) (iters : Nat) (s : Bench) (w : Fin 8) : Option Bench :=
  match func with
  | .spinlock => spinlock_worker iters s w
  | .spinwait => spinwait_worker iters s w
  | .mutex => mutex_worker iters s w
  | .semaphore => semaphore_worker iters s w
  | .monitor => monitor_worker iters s w
  | .barrier => barrier_worker iters s w

/-- Run a schedule (the list of the workers that move, in order). -/
def runSchedule (func : Worker) (iters : Nat) (s : Bench) : List (Fin 8) → Option Bench
  | [] => some s
  | w :: ws => (workerStep func iters s w).bind (fun t => runSchedule func iters t ws)

/-- States reachable in a run of `run_and_measure(func, name, iters)`. -/
inductive Reached (func : Worker) (iters : Nat) : Bench → Prop
  | init : Reached func iters Bench.init
  | step {s t : Bench} (w : Fin 8) :
      Reached func iters s → workerStep func iters s w = some t → Reached func iters t

/-- All eight threads have been joined: every worker function has returned. -/
def Bench.joined (s : Bench) : Prop := ∀ w, s.pc w = .done

/-- Sum over the eight workers. -/
def sum8 (f : Fin 8 → Nat) : Nat := f 0 + f 1 + f 2 + f 3 + f 4 + f 5 + f 6 + f 7

/-- Locations between the append and the `++i` of the same iteration. -/
def Loc.afterPush : Loc → Bool
  | .unlockMutex => true
  | .semRelease => true
  | .spinClear => true
  | .waitStore => true
  | .monRelock => true
  | .monFree => true
  | .monNotify => true
  | .barUnlock => true
  | .barArrive => true
  | .barWait => true
  | _ => false

/-- Number of elements worker `w` has appended so far. -/
def Bench.appended (s : Bench) (w : Fin 8) : Nat := s.i w + (s.pc w).afterPush.toNat

/-- Locations at which the worker has exclusive access to the buffer: from
after the acquisition of the primitive up to and including its release. -/
def Loc.exclusive : Loc → Bool
  | .pushRead => true
  | .pushWrite => true
  | .unlockMutex => true
  | .semRelease => true
  | .spinClear => true
  | .waitStore => true
  | .monUnlock => true
  | .monRelock => true
  | .monFree => true
  | .barUnlock => true
  | _ => false

/-- Whether the primitive of the run is free: 1 if a worker can acquire it,
0 if it is taken. -/
def Bench.free (func : Worker) (s : Bench) : Nat :=
  match func with
  | .spinlock => (!s.spinlock).toNat
  | .spinwait => (!s.busy_flag).toNat
  | .mutex => if s.buffer_mutex = none then 1 else 0
  | .semaphore => s.sem
  | .monitor => s.resource_free.toNat
  | .barrier => if s.barrier_mutex_internal = none then 1 else 0

/-- Locations of `monitor_worker` at which the worker owns `monitor_mtx`. -/
def Loc.holdsMtx : Loc → Bool
  | .monTest => true
  | .monTake => true
  | .monUnlock => true
  | .monFree => true
  | .monNotify => true
  | _ => false

/-- Invariant of a run: the primitive is taken exactly when one worker has
exclusive access, a worker about to write has read the current size, the size
is the number of elements appended, a worker inside the loop body has run
fewer than `iters` iterations and one that has returned exactly `iters`, and in the monitor run `monitor_mtx` is owned by the worker inside
one of the blocks it guards, with `resource_free` true when a worker is about
to take the resource. -/
structure Bench.ok (func : Worker) (iters : Nat) (s : Bench) : Prop where
  excl : s.free func + sum8 (fun w => (s.pc w).exclusive.toNat) = 1
  pos : ∀ w, s.pc w = .pushWrite → s.pos w = s.bufferSize
  size : s.bufferSize = sum8 (fun w => s.appended w)
  iter : ∀ w, (s.pc w = .loopTest → s.i w ≤ iters) ∧ (s.pc w = .done → s.i w = iters) ∧
    (s.pc w ≠ .loopTest → s.pc w ≠ .done → s.i w < iters)
  mtx : ∀ w, (s.pc w).holdsMtx = true → s.monitor_mtx = some w
  take : ∀ w, s.pc w = .monTake → s.resource_free = true

/-- Every synchronisation object has its initial value. -/
def Bench.idle (s : Bench) : Prop :=
  s.buffer_mutex = none ∧ s.sem = 1 ∧ s.spinlock = false ∧ s.busy_flag = false ∧
  s.monitor_mtx = none ∧ s.resource_free = true ∧ s.barrier_mutex_internal = none

/-- Number of steps of one pass through the loop body, for the workers that do
not use the barrier. -/
def Worker.bodySteps : Worker → Nat
  | .monitor => 10
  | _ => 5

/-- The barrier run between two phases, seen while the workers arrive: all
workers have run `k` iterations, `p` phases are complete, the first `j`
workers wait at the barrier and the others are at their loop test. -/
def Bench.arriving (k p j : Nat) (s : Bench) : Prop :=
  s.idle ∧ s.arrived = j ∧ s.phase = p ∧
  ∀ w : Fin 8, s.i w = k ∧ (w.val < j → s.pc w = .barWait ∧ s.arrivedIn w = p) ∧
    (j ≤ w.val → s.pc w = .loopTest)

/-- The barrier run after the last worker has completed phase `p`, seen while
the waiting workers leave the barrier: the last worker and the first `j`
workers have run `k + 1` iterations and are at their loop test, the others
still wait. -/
def Bench.leaving (k p j : Nat) (s : Bench) : Prop :=
  s.idle ∧ s.arrived = 0 ∧ s.phase = p + 1 ∧
  ∀ w : Fin 8, (w.val < j ∨ w.val = 7 → s.pc w = .loopTest ∧ s.i w = k + 1) ∧
    (j ≤ w.val → w.val < 7 → s.pc w = .barWait ∧ s.arrivedIn w = p ∧ s.i w = k)

end Primitives

/-! ## The ring, fork operations, admission and the stop flag -/

namespace Philosophers

/-- Index in `forks` of the fork bound to `leftFork` by the wiring loop
`philosophers.emplace_back(i, forks[i], forks[(i + 1) % N], ...)`, for a ring
of `N` forks. -/
def leftIndex (_N i : Nat) : Nat := i

/-- Index in `forks` of the fork bound to `rightFork` by the wiring loop, for
a ring of `N` forks. -/
def rightIndex (N i : Nat) : Nat := (i + 1) % N

/-- The wiring loop `for (int i = 0; i < N; ++i)`: the triples (id, index of
the left fork, index of the right fork) in the order of `philosophers`. -/
def wiring (N : Nat) : List (Nat × Nat × Nat) :=
  (List.range N).map fun i => (i, leftIndex N i, rightIndex N i)

/-- The philosopher before `f` in a ring of `N`. -/
def ringPred (N f : Nat) : Nat := (f + N - 1) % N

/-- The two forks of a philosopher. -/
inductive Side
  | left
  | right
  deriving DecidableEq, Repr

/-- A call on one of the two forks. -/
inductive ForkCall
  /-- A call `lock()` on the fork of that side. -/
  | lock (side : Side)
  /-- A call `unlock()` on the fork of that side. -/
  | unlock (side : Side)
  deriving DecidableEq, Repr

/-- The call a location makes on a fork, for the locations that are one
`lock()` or `unlock()` call. -/
def PC.forkCall : PC → Option ForkCall
  | .lockLeft => some (.lock .left)
  | .lockRight => some (.lock .right)
  | .unlockRight => some (.unlock .right)
  | .unlockLeft => some (.unlock .left)
  | .giveBackLeft => some (.unlock .left)
  | _ => none

/-- The fork call that philosopher `i` completes with a move made in state `s`. -/
def callBy (s : State) (i : Fin 5) : Move → List ForkCall
  | .agent j _ => if j = i then (s.pc i).forkCall.toList else []
  | .driver => []

/-- The fork calls that philosopher `i` completes along a schedule run from
state `s`, in the order in which it makes them. -/
def forkCalls (pol : Policy) (i : Fin 5) : State → List Move → List ForkCall
  | _, [] => []
  | s, m :: ms =>
      match step pol s m with
      | none => []
      | some t => callBy s i m ++ forkCalls pol i t ms

/-- A schedule of version 5 in which philosopher 1 runs through one pass of
its loop and into the next one up to `eat()`. -/
def oddPassAndHalf : List Move :=
  List.replicate 11 (Move.agent 1 .run)

/-- The state of version 5 after `oddPassAndHalf`. -/
def oddPassEnd : State := (exec .ordering State.init oddPassAndHalf).getD State.init

/-- A schedule of version 6 in which philosopher 0 is admitted, takes both
forks, eats and takes `cv_mutex` for the block that decrements `eatingCount`. -/
def eatThenLock : List Move :=
  List.replicate 6 (Move.agent 0 .run) ++
    [Move.agent 0 .takeLeft, Move.agent 0 .takeRight, Move.agent 0 .run] ++
    List.replicate 2 (Move.agent 0 .run)

/-- The state of version 6 after `eatThenLock`: philosopher 0 is at
`eatingCount--`. -/
def beforeDecrement : State := (exec .conditionVariable State.init eatThenLock).getD State.init

/-- The state after philosopher 0 has run `eatingCount--` in `beforeDecrement`. -/
def afterDecrement : State :=
  (step .conditionVariable beforeDecrement (.agent 0 .run)).getD State.init

/-- Whether a move ends a pass of philosopher `i` through the loop body of
`dineWithTimeout` that gave up: a move of `i` made at the `else` branch that
prints the starvation message. -/
def endsStarved (s : State) (i : Fin 5) : Move → Bool
  | .agent j _ => decide (j = i) && decide (s.pc i = .starved)
  | .driver => false

/-- Number of passes that philosopher `i` gives up along a schedule run from
state `s`. -/
def starvedCycles (pol : Policy) (i : Fin 5) : State → List Move → Nat
  | _, [] => 0
  | s, m :: ms =>
      match step pol s m with
      | none => 0
      | some t => (endsStarved s i m).toNat + starvedCycles pol i t ms

/-- The moves of one pass of philosopher `i` through the loop body of
`dineWithTimeout` in which `leftFork.try_lock_for` returns `false` in each of
the three attempts. -/
def starvedCycle (i : Fin 5) : List Move :=
  [.agent i .run, .agent i .run] ++
  [.agent i .run, .agent i .timedOut, .agent i .run, .agent i .run] ++
  [.agent i .run, .agent i .timedOut, .agent i .run, .agent i .run] ++
  [.agent i .run, .agent i .timedOut, .agent i .run] ++
  [.agent i .run, .agent i .run, .agent i .run]

/-- The moves by which philosopher 4 gets both its forks (the second one is
fork 0) and starts to eat under version 3. -/
def neighbourEats : List Move :=
  List.replicate 7 (Move.agent 4 .run)

/-- The moves by which philosopher 4 ends its meal and puts down its forks. -/
def neighbourLeaves : List Move :=
  List.replicate 3 (Move.agent 4 .run)

/-- The end of a run: the driver sets `stopFlag`, every philosopher leaves its
loop, and the driver joins the five threads and prints the statistics. -/
def shutdown : List Move :=
  [Move.driver] ++ (List.finRange 5).map (fun i => Move.agent i .run) ++
    List.replicate 6 Move.driver

/-- A run of version 3 in which philosopher 0 gives up one pass while
philosopher 4 eats. -/
def starvedOnceRun : List Move :=
  neighbourEats ++ starvedCycle 0 ++ neighbourLeaves ++ shutdown

/-- A run of version 3 in which philosopher 0 gives up two passes while
philosopher 4 eats. -/
def starvedTwiceRun : List Move :=
  neighbourEats ++ starvedCycle 0 ++ starvedCycle 0 ++ neighbourLeaves ++ shutdown

/-- The state of version 3 after `starvedOnceRun`. -/
def starvedOnceEnd : State := (exec .timeout State.init starvedOnceRun).getD State.init

/-- The state of version 3 after `starvedTwiceRun`. -/
def starvedTwiceEnd : State := (exec .timeout State.init starvedTwiceRun).getD State.init

/-- The state of version 3 in which philosopher 0 is about to end a pass that
gave up. -/
def aboutToStarve : State :=
  (exec .timeout State.init (neighbourEats ++ (starvedCycle 0).take 15)).getD State.init

/-- The mutex `tableMutex` is owned only under version 4, and then by a
philosopher that is between its `lock()` and its `unlock()`. -/
def State.tableOwned (pol : Policy) (s : State) : Prop :=
  ∀ j, s.tableMutex = some j → pol = .semaphore ∧ (s.pc j).holdsTable = true

/-- The mutex `cv_mutex` is owned only under version 6, and then by a
philosopher that is inside one of the two blocks guarded by it. -/
def State.cvOwned (pol : Policy) (s : State) : Prop :=
  ∀ j, s.cv_mutex = some j → pol = .conditionVariable ∧ (s.pc j).holdsCv = true

/-- A schedule of version 3 in which philosopher 1 gets both forks and eats,
and philosopher 0 then gets its left fork and fails to get its right one. -/
def failedRightTry : List Move :=
  List.replicate 7 (Move.agent 1 .run) ++
    [.agent 0 .run, .agent 0 .run, .agent 0 .run, .agent 0 .run, .agent 0 .timedOut]

/-- The state of version 3 after `failedRightTry`: philosopher 0 is at the
`leftFork.unlock()` of the failed attempt. -/
def holdingLeftOnly : State := (exec .timeout State.init failedRightTry).getD State.init

/-- The number of `eat()` calls that a philosopher at location `p` can still
complete without passing the loop test `while (!stopFlag)` again: one from
`think()` up to the end of `eat()`, none from there to the loop test. -/
def PC.mealBudget : PC → Nat
  | .loopTest => 0
  | .done => 0
  | .unlockRight => 0
  | .unlockLeft => 0
  | .starved => 0
  | .unlockTable => 0
  | .cvLockAgain => 0
  | .cvDecr => 0
  | .cvNotifyUnlock => 0
  | _ => 1

/-- A schedule of version 4 in which philosopher 0 passes the loop test and
thinks and the driver then sets `stopFlag`. -/
def stopWhileHungry : List Move :=
  [.agent 0 .run, .agent 0 .run, .driver]

/-- The state of version 4 after `stopWhileHungry`. -/
def stoppedHungry : State := (exec .semaphore State.init stopWhileHungry).getD State.init

/-- The moves by which philosopher 0 completes its pass under version 4 and
leaves its loop. -/
def lastMeal : List Move :=
  List.replicate 8 (Move.agent 0 .run)

/-- The state of version 4 after `lastMeal` run from `stoppedHungry`. -/
def lastMealEnd : State := (exec .semaphore stoppedHungry lastMeal).getD State.init

end Philosophers

/-! ## The ranking of `main` in `src/lab4/primitives.cpp`

A `double` is modelled by a rational number. The model is exact as long as
the values are whole numbers of magnitude at most `2 ^ 53`, which binary64
represents without rounding. -/

namespace Primitives

/-- Whether the whole number `n` is a binary64 value for certain: its
magnitude is at most `2 ^ 53`. -/
def exactInDouble (n : Int) : Bool :=
  decide (n.natAbs ≤ 2 ^ 53)

/-- The local `projected_barrier = barrier_time *
(static_cast<double>(ITERATIONS) / BARRIER_ITERATIONS)` of `main`. -/
def projected_barrier (barrier_time : ℚ) : ℚ :=
  barrier_time * ((ITERATIONS : ℚ) / (BARRIER_ITERATIONS : ℚ))

/-- The vector `results` of `main` before the sort; the arguments are the six
values returned by `run_and_measure`, in the order of the calls. -/
def results (spinlock spinwait mutex semaphore monitor barrier_time : ℚ) :
    List (String × ℚ) :=
  [("SpinLock", spinlock), ("SpinWait", spinwait), ("Mutex", mutex),
   ("Semaphore", semaphore), ("Monitor", monitor),
   ("Barrier (est)", projected_barrier barrier_time)]

/-- The comparator `[](const auto& a, const auto& b) { return a.second < b.second; }`. -/
def before (a b : String × ℚ) : Bool :=
  decide (a.2 < b.2)

/-- The contract of `sort(results.begin(), results.end(), before)`: the
vector after the call is a rearrangement of the vector before, and no later
element goes before an earlier one. The order of elements that tie is
left open, as `std::sort` leaves it. -/
def Ranked (input output : List (String × ℚ)) : Prop :=
  output.Perm input ∧ output.Pairwise fun a b => before b a = false

instance (input output : List (String × ℚ)) : Decidable (Ranked input output) :=
  inferInstanceAs (Decidable (_ ∧ _))

/-- One sort that meets the contract: insertion of each element after the
elements that do not go after it. -/
def sortResults (input : List (String × ℚ)) : List (String × ℚ) :=
  input.insertionSort fun a b => before b a = false

/-- The print loop of `main` over the sorted vector: for each entry the name,
the time, and whether ` (Winner)` is printed, `name == results[0].first`. -/
def printed (sorted : List (String × ℚ)) : List (String × ℚ × Bool) :=
  sorted.map fun entry =>
    (entry.1, entry.2,
      match sorted with
      | [] => false
      | first :: _ => decide (entry.1 = first.1))

/-- The number of lines printed with ` (Winner)`. -/
def winners (sorted : List (String × ℚ)) : Nat :=
  (printed sorted).countP fun line => line.2.2

/-- A ranking in which the two fastest entries tie. -/
def tieRanking : List (String × ℚ) :=
  [("SpinLock", 5), ("SpinWait", 5), ("Mutex", 6), ("Semaphore", 7), ("Monitor", 8),
   ("Barrier (est)", 100)]

/-- The names entered in `results`, in the order of the calls. -/
def names : List String :=
  ["SpinLock", "SpinWait", "Mutex", "Semaphore", "Monitor", "Barrier (est)"]

end Primitives

/-! ## Recruit filtering (`src/lab4/ex2/ex20.cpp`, `src/lab4/ex2/ex22.cpp`)

Sizes and indices are natural numbers; the `int` variables of the source hold
them exactly as long as the number of recruits is below `2 ^ 31`. -/

namespace Recruits

/-- The struct `Recruit`; a doctor record is the pair (specialty, category). -/
structure Recruit where
  /-- Field `name`. -/
  name : String
  /-- Field `birthDate`. -/
  birthDate : String
  /-- Field `doctorRecords`. -/
  doctorRecords : List (String × String)
deriving DecidableEq, Repr

/-- The loop `for (const auto& record : doctorRecords)` of `isFitForService`
on the records not yet visited: `return true` at the first record whose
`second` equals `"A"`, `return false` after the loop. -/
def fitLoop : List (String × String) → Bool
  | [] => false
  | record :: rest => if record.2 = "A" then true else fitLoop rest

/-- The method `Recruit::isFitForService` (the same text in both files). -/
def Recruit.isFitForService (r : Recruit) : Bool :=
  fitLoop r.doctorRecords

/-- The loop of `filterRecruitsSingleThread`: `suitable` so far and the
recruits not yet visited. -/
def singleLoop (suitable : List Recruit) : List Recruit → List Recruit
  | [] => suitable
  | recruit :: rest =>
    if recruit.isFitForService then singleLoop (suitable ++ [recruit]) rest
    else singleLoop suitable rest

/-- The function `filterRecruitsSingleThread` (in `ex22.cpp` the fit recruits
are moved instead of copied, which gives the same result vector). -/
def filterRecruitsSingleThread (recruits : List Recruit) : List Recruit :=
  singleLoop [] recruits

/-- The local `chunkSize = recruits.size() / numThreads`. -/
def chunkSize (size numThreads : Nat) : Nat :=
  size / numThreads

/-- The local `start = i * chunkSize` of thread `i`. -/
def chunkStart (size numThreads i : Nat) : Nat :=
  i * chunkSize size numThreads

/-- The local `end = (i == numThreads - 1) ? recruits.size() : (i + 1) * chunkSize`
of thread `i`. -/
def chunkEnd (size numThreads i : Nat) : Nat :=
  if i = numThreads - 1 then size else (i + 1) * chunkSize size numThreads

/-- The loop `for (int i = start; i < end && i < allRecruits.size(); ++i)` of
`filterRecruitsRange` in `ex20.cpp`, from index `i` with `localSuitable`; the
first argument after `stop` bounds the number of passes. -/
def rangeLoop (allRecruits : List Recruit) (stop : Nat) :
    Nat → Nat → List Recruit → List Recruit
  | 0, _, localSuitable => localSuitable
  | fuel + 1, i, localSuitable =>
    if i < stop ∧ i < allRecruits.length then
      match allRecruits[i]? with
      | some recruit =>
        rangeLoop allRecruits stop fuel (i + 1)
          (if recruit.isFitForService then localSuitable ++ [recruit] else localSuitable)
      | none => localSuitable
    else localSuitable

/-- The vector `localSuitable` that `filterRecruitsRange(start, end)` appends
to `suitableRecruits`; `stop - start` passes are enough for the loop to end by
its own test. -/
def filterRecruitsRange (allRecruits : List Recruit) (start stop : Nat) : List Recruit :=
  rangeLoop allRecruits stop (stop - start) start []

/-- The function `filterRecruitsMultiThread` of `ex20.cpp`: `suitableRecruits`
is cleared, thread `i` runs `filterRecruitsRange` on its chunk, and the
threads append their `localSuitable` under `dataMutex` in the order `order`
in which they get the mutex. -/
def filterRecruitsMultiThread20 (recruits : List Recruit) (numThreads : Nat)
    (order : List Nat) : List Recruit :=
  order.foldl
    (fun suitableRecruits i =>
      suitableRecruits ++
        filterRecruitsRange recruits (chunkStart recruits.length numThreads i)
          (chunkEnd recruits.length numThreads i))
    []

/-- The loop `for (int i = start; i < end; ++i)` of a thread of `ex22.cpp`,
from index `i` with `result`; an index outside the vector ends the model. -/
def threadLoop (recruits : List Recruit) (stop : Nat) :
    Nat → Nat → List Recruit → List Recruit
  | 0, _, result => result
  | fuel + 1, i, result =>
    if i < stop then
      match recruits[i]? with
      | some recruit =>
        threadLoop recruits stop fuel (i + 1)
          (if recruit.isFitForService then result ++ [recruit] else result)
      | none => result
    else result

/-- The vector `threadResults[i]` of `ex22.cpp` after the join. -/
def threadResult (recruits : List Recruit) (numThreads i : Nat) : List Recruit :=
  threadLoop recruits (chunkEnd recruits.length numThreads i)
    (chunkEnd recruits.length numThreads i - chunkStart recruits.length numThreads i)
    (chunkStart recruits.length numThreads i) []

/-- The function `filterRecruitsMultiThread` of `ex22.cpp`: empty input
returns at once; else the `threadResults` are appended in index order. -/
def filterRecruitsMultiThread22 (recruits : List Recruit) (numThreads : Nat) : List Recruit :=
  if recruits.isEmpty then []
  else
    ((List.range numThreads).map (threadResult recruits numThreads)).foldl
      (fun suitable result => suitable ++ result) []

/-- The specification of the filter: the fit recruits in input order. -/
def fitRecruits (recruits : List Recruit) : List Recruit :=
  recruits.filter fun r => r.isFitForService

/-- The recruits of chunk `i`: the indices from `chunkStart` up to `chunkEnd`. -/
def chunk (l : List Recruit) (numThreads i : Nat) : List Recruit :=
  (l.drop (chunkStart l.length numThreads i)).take
    (chunkEnd l.length numThreads i - chunkStart l.length numThreads i)

/-- The lists `f i` for the `i` of `order`, appended in that order. -/
def gather (f : Nat → List Recruit) : List Nat → List Recruit
  | [] => []
  | i :: rest => f i ++ gather f rest

/-- A list of five recruits used to run the filters. -/
def sampleRecruits : List Recruit :=
  [⟨"a", "2000", [("eye", "B"), ("ear", "A")]⟩, ⟨"b", "2001", []⟩,
   ⟨"c", "2002", [("eye", "A")]⟩, ⟨"d", "2003", [("ear", "C")]⟩,
   ⟨"e", "2004", [("eye", "A"), ("ear", "A")]⟩]

end Recruits

/-! ## Who appends to the buffer -/

namespace Primitives

/-- Locations inside `shared_buffer.push_back(get_random_char())`. -/
def Loc.appending : Loc → Bool
  | .pushRead => true
  | .pushWrite => true
  | _ => false

/-- The mutexes have the owner the locations say: `monitor_mtx` is owned only
in the monitor run, by a worker inside one of the blocks it guards; in the
mutex run and in the barrier run the worker with exclusive access owns
`buffer_mutex`, or `barrier_mutex_internal`. -/
def Bench.owners (func : Worker) (s : Bench) : Prop :=
  (∀ v, s.monitor_mtx = some v → func = .monitor ∧ (s.pc v).holdsMtx = true) ∧
  (func = .mutex → ∀ w, (s.pc w).exclusive = true → s.buffer_mutex = some w) ∧
  (func = .barrier → ∀ w, (s.pc w).exclusive = true → s.barrier_mutex_internal = some w)

/-- A schedule of the monitor run in which worker 0 takes the resource and
starts to append, and worker 1 then finds the resource taken and waits. -/
def monitorContended : List (Fin 8) :=
  List.replicate 5 0 ++ List.replicate 3 1

/-- The state of the monitor run after `monitorContended`. -/
def monitorDemo : Bench := (runSchedule .monitor 1 Bench.init monitorContended).getD Bench.init

end Primitives

/-! ## Version 3: the stop flag inside a cycle -/

namespace Philosophers

/-- An environment in which both forks are free all the time and `stopFlag`
is true from the first test of the inner loop on. -/
def stoppedAtOnce : Env where
  left := fun _ => true
  right := fun _ => true
  stop := fun _ => true

/-- An environment in which no try-lock succeeds and `stopFlag` is false at
the first test of the inner loop and true from the second one on. -/
def stoppedAfterOne : Env where
  left := fun _ => false
  right := fun _ => false
  stop := fun k => k != 0

/-- A schedule of version 3 in which philosopher 0 passes the outer loop
test, the driver then sets `stopFlag`, and philosopher 0 thinks, tests the
inner loop condition and takes the `else` branch of `if (gotForks)`. -/
def stopDuringCycle : List Move :=
  [.agent 0 .run, .driver, .agent 0 .run, .agent 0 .run, .agent 0 .run]

/-- The state of version 3 after `stopDuringCycle`. -/
def starvedUntried : State := (exec .timeout State.init stopDuringCycle).getD State.init

/-- Locations of `dineWithTimeout` inside a pass of the inner loop, up to the
backoff sleep. -/
def PC.inAttempt : PC → Bool
  | .tryLeft => true
  | .tryRight => true
  | .giveBackLeft => true
  | .countFailure => true
  | .backoff => true
  | _ => false

/-- Invariant of version 3 on the local `attempts`: it never exceeds 3, it is
below 3 inside a pass of the inner loop, and the inner loop has been left
with both forks, after the third failure, or with `stopFlag` set. -/
def State.attemptsOk (s : State) : Prop :=
  ∀ i, s.attempts i ≤ 3 ∧
    ((s.pc i).inAttempt = true → s.attempts i < 3) ∧
    (s.pc i = .afterAttempts → s.gotForks i = true ∨ s.attempts i = 3 ∨ s.stopFlag = true) ∧
    (s.pc i = .starved → s.attempts i = 3 ∨ s.stopFlag = true)

end Philosophers

/-! ## Version 5: what the fork calls do to the forks -/

namespace Philosophers

/-- A change of the owner of a fork, seen from one philosopher. -/
inductive ForkEvent
  /-- The philosopher has become the owner of fork `f`. -/
  | acquired (f : Fin 5)
  /-- The philosopher has ceased to be the owner of fork `f`. -/
  | released (f : Fin 5)
  deriving DecidableEq, Repr

/-- What a step from `s` to `t` has done to the ownership of fork `f` by
philosopher `i`, read off the owner of the mutex before and after. -/
def ownerChange (s t : State) (i f : Fin 5) : List ForkEvent :=
  if s.forks f ≠ some i ∧ t.forks f = some i then [.acquired f]
  else if s.forks f = some i ∧ t.forks f ≠ some i then [.released f]
  else []

/-- What a step from `s` to `t` has done to the forks that philosopher `i`
owns, over all five forks. -/
def ownerChanges (s t : State) (i : Fin 5) : List ForkEvent :=
  ownerChange s t i 0 ++ ownerChange s t i 1 ++ ownerChange s t i 2 ++ ownerChange s t i 3 ++
    ownerChange s t i 4

/-- The forks that philosopher `i` acquires and releases along a schedule run
from state `s`, in order, whichever thread makes the move. -/
def forkEvents (pol : Policy) (i : Fin 5) : State → List Move → List ForkEvent
  | _, [] => []
  | s, m :: ms =>
      match step pol s m with
      | none => []
      | some t => ownerChanges s t i ++ forkEvents pol i t ms

end Philosophers
namespace Philosophers

/-! ## General facts about the step relation -/

theorem exec_invariant (pol : Policy) (P : State → Prop)
    (hstep : ∀ s m t, P s → step pol s m = some t → P t) :
    ∀ (ms : List Move) (s t : State), P s → exec pol s ms = some t → P t := by
  intro ms
  induction ms with
  | nil =>
      intro s t hs h
      simp only [exec, Option.some.injEq] at h
      exact h ▸ hs
  | cons m ms ih =>
      intro s t hs h
      simp only [exec] at h
      cases hm : step pol s m with
      | none => simp [hm] at h
      | some u =>
          rw [hm] at h
          exact ih u t (hstep s m u hs hm) h

theorem reachable_invariant (pol : Policy) (P : State → Prop) (h0 : P State.init)
    (hstep : ∀ s m t, P s → step pol s m = some t → P t) :
    ∀ s, Reachable pol s → P s := by
  intro s hs
  induction hs with
  | init => exact h0
  | step m _ hst ih => exact hstep _ m _ ih hst

theorem reachable_of_exec (pol : Policy) (ms : List Move) (s t : State)
    (hs : Reachable pol s) (h : exec pol s ms = some t) : Reachable pol t :=
  exec_invariant pol (Reachable pol) (fun _ m _ hu hm => Reachable.step m hu hm) ms s t hs h

theorem left_ne_right (i : Fin 5) : leftFork i ≠ rightFork i := by
  revert i; decide

theorem driverStep_frame (s t : State) (h : driverStep s = some t) :
    t.pc = s.pc ∧ t.forks = s.forks ∧ t.gotForks = s.gotForks ∧ t.mealsEaten = s.mealsEaten ∧
    t.attempts = s.attempts ∧ t.tableMutex = s.tableMutex ∧ t.cv_mutex = s.cv_mutex ∧
    t.eatingCount = s.eatingCount := by
  simp only [driverStep] at h
  split at h
  · simp only [Option.some.injEq] at h
    subst h
    simp
  · split at h
    · split at h
      · simp only [Option.some.injEq] at h
        subst h
        simp
      · simp at h
    · simp at h
  · simp only [Option.some.injEq] at h
    subst h
    simp
  · simp at h


theorem others_keep_take (fk : Fin 5 → Option (Fin 5)) (f j : Fin 5) (hf : fk f = none)
    (i g : Fin 5) (hg : fk g = some i) : Function.update fk f (some j) g = some i := by
  have : g ≠ f := by
    rintro rfl
    rw [hf] at hg
    cases hg
  rw [Function.update_noteq this]
  exact hg

theorem others_keep_drop (fk : Fin 5 → Option (Fin 5)) (f j : Fin 5) (hf : fk f = some j)
    (i g : Fin 5) (hij : i ≠ j) (hg : fk g = some i) : Function.update fk f none g = some i := by
  have : g ≠ f := by
    rintro rfl
    rw [hf] at hg
    exact hij (Option.some.inj hg).symm
  rw [Function.update_noteq this]
  exact hg

/-- Frame rule for `paired`: a step of philosopher `j` that leaves the other
philosophers at their locations and leaves them their forks preserves the
invariant as soon as it holds for `j` itself. -/
theorem paired_frame (pol : Policy) (s t : State) (j : Fin 5) (h : s.paired pol)
    (hpc : ∀ i, i ≠ j → t.pc i = s.pc i) (hgot : ∀ i, i ≠ j → t.gotForks i = s.gotForks i)
    (hfk : ∀ i g, i ≠ j → s.forks g = some i → t.forks g = some i)
    (hj : t.pairedAt pol j) : t.paired pol := by
  intro i
  by_cases hij : i = j
  · subst hij
    exact hj
  · unfold State.pairedAt
    rw [hpc i hij, hgot i hij]
    exact ⟨fun hl => hfk i _ hij ((h i).1 hl), fun hr => hfk i _ hij ((h i).2.1 hr), (h i).2.2⟩




theorem paired_step (pol : Policy) (s t : State) (m : Move) (h : s.paired pol)
    (hm : step pol s m = some t) : t.paired pol := by
  cases m with
  | driver =>
      obtain ⟨h1, h2, h3, -⟩ := driverStep_frame s t hm
      intro i
      unfold State.pairedAt
      rw [h1, h2, h3]
      exact h i
  | agent j c =>
      simp only [step, agentStep] at hm
      split at hm
      · simp at hm
      · have hj := h j
        unfold State.pairedAt at hj
        have hlr := left_ne_right j
        cases pol <;>
          simp only [dineWithDeadlockRisk, dineWithStdLock, dineWithTimeout, dineWithSemaphore,
            dineWithOrdering, dineWithConditionVariable] at hm <;>
          split at hm <;> rename_i hpc <;>
          (try simp only [State.loopTest, State.goto, State.lockFork, State.unlockFork,
            State.eat, State.stdLock, State.tryLockFor] at hm) <;>
          (try rw [hpc] at hj) <;>
          (repeat' split at hm) <;>
          cases hm <;>
          apply paired_frame _ s _ j h
        all_goals try (intro i hij; simp [Function.update_noteq hij])
        all_goals try (intro i g hij hg; first
          | exact hg
          | exact others_keep_take _ _ _ (by assumption) _ _ hg
          | exact others_keep_drop _ _ _ (by assumption) _ _ hij hg
          | exact others_keep_drop _ _ _ (by simp_all [holdsLeftAt, holdsRightAt]) _ _ hij hg)
        all_goals (
          unfold State.pairedAt
          simp [holdsLeftAt, holdsRightAt, PC.beforeGotForks, Function.update_apply,
            hlr, hlr.symm] at hj ⊢ <;>
          simp_all [holdsLeftAt, holdsRightAt, PC.beforeGotForks])

/-! ## Forks are owned where the code has locked them -/

theorem paired_init (pol : Policy) : State.init.paired pol := by
  intro i
  cases pol <;> simp [State.pairedAt, State.init, holdsLeftAt, holdsRightAt, PC.beforeGotForks]

theorem reachable_paired (pol : Policy) (s : State) (hs : Reachable pol s) : s.paired pol :=
  reachable_invariant pol (State.paired pol) (paired_init pol)
    (fun s m t h hm => paired_step pol s t m h hm) s hs

theorem adjacent_irrefl (i : Fin 5) : ¬ adjacent i i := by
  revert i
  unfold adjacent
  decide

theorem adjacent_shares_fork (i j : Fin 5) (h : adjacent i j) :
    rightFork i = leftFork j ∨ rightFork j = leftFork i := by
  revert i j
  unfold adjacent
  decide

/-- C1: in every reachable state of every version (in particular versions 2, 4,
5 and 6) a philosopher that is inside `eat()` owns both its left and its right
fork; hence two philosophers that sit next to each other in the ring are never
inside `eat()` in the same state. -/
theorem eating_holds_both_forks (pol : Policy) (s : State) (hs : Reachable pol s) :
    (∀ i, s.eating i → s.forks (leftFork i) = some i ∧ s.forks (rightFork i) = some i) ∧
    ∀ i j, adjacent i j → ¬ (s.eating i ∧ s.eating j) := by
  have hp := reachable_paired pol s hs
  have key : ∀ i, s.eating i →
      s.forks (leftFork i) = some i ∧ s.forks (rightFork i) = some i := by
    intro i hi
    have h := hp i
    unfold State.eating at hi
    unfold State.pairedAt at h
    rw [hi] at h
    exact ⟨h.1 (by cases pol <;> rfl), h.2.1 (by cases pol <;> rfl)⟩
  refine ⟨key, ?_⟩
  rintro i j hadj ⟨hi, hj⟩
  have hne : i ≠ j := by
    rintro rfl
    exact adjacent_irrefl i hadj
  rcases adjacent_shares_fork i j hadj with h | h
  · have h1 := (key i hi).2
    have h2 := (key j hj).1
    rw [h, h2] at h1
    exact hne (Option.some.inj h1).symm
  · have h1 := (key j hj).2
    have h2 := (key i hi).1
    rw [h, h2] at h1
    exact hne (Option.some.inj h1)

theorem eating_holds_both_forks_witness :
    Reachable .ordering orderingDemo ∧ orderingDemo.eating 0 ∧ orderingDemo.eating 2 ∧
    ((∀ i, orderingDemo.eating i →
        orderingDemo.forks (leftFork i) = some i ∧ orderingDemo.forks (rightFork i) = some i) ∧
      ∀ i j, adjacent i j → ¬ (orderingDemo.eating i ∧ orderingDemo.eating j)) :=
  have hr : Reachable .ordering orderingDemo :=
    reachable_of_exec .ordering zeroAndTwoEat State.init orderingDemo Reachable.init rfl
  ⟨hr, by decide, by decide, eating_holds_both_forks .ordering orderingDemo hr⟩

/-! ## Owned forks belong to a philosopher that has locked them -/

theorem others_from_take (fk : Fin 5 → Option (Fin 5)) (f j i g : Fin 5) (hij : i ≠ j)
    (hg : Function.update fk f (some j) g = some i) : fk g = some i := by
  by_cases hgf : g = f
  · subst hgf
    rw [Function.update_same] at hg
    exact absurd (Option.some.inj hg).symm hij
  · rwa [Function.update_noteq hgf] at hg

theorem others_from_drop (fk : Fin 5 → Option (Fin 5)) (f i g : Fin 5)
    (hg : Function.update fk f none g = some i) : fk g = some i := by
  by_cases hgf : g = f
  · subst hgf
    rw [Function.update_same] at hg
    cases hg
  · rwa [Function.update_noteq hgf] at hg

/-- Frame rule for `owned`. -/
theorem owned_frame (pol : Policy) (s t : State) (j : Fin 5) (h : s.owned pol)
    (hpc : ∀ i, i ≠ j → t.pc i = s.pc i) (hgot : ∀ i, i ≠ j → t.gotForks i = s.gotForks i)
    (hfk : ∀ i g, i ≠ j → t.forks g = some i → s.forks g = some i)
    (hj : ∀ g, t.forks g = some j →
      (g = leftFork j ∧
        (holdsLeftAt pol j (t.pc j) (t.gotForks j) = true ∨ t.pc j = .stdLock)) ∨
      (g = rightFork j ∧
        (holdsRightAt pol j (t.pc j) (t.gotForks j) = true ∨ t.pc j = .stdLock))) :
    t.owned pol := by
  intro g i hg
  by_cases hij : i = j
  · subst hij
    exact hj g hg
  · rw [hpc i hij, hgot i hij]
    exact h g i (hfk i g hij hg)

set_option maxHeartbeats 2000000 in
theorem owned_step (pol : Policy) (s t : State) (m : Move) (hp : s.paired pol)
    (h : s.owned pol) (hm : step pol s m = some t) : t.owned pol := by
  cases m with
  | driver =>
      obtain ⟨h1, h2, h3, -⟩ := driverStep_frame s t hm
      intro g i
      rw [h1, h2, h3]
      exact h g i
  | agent j c =>
      simp only [step, agentStep] at hm
      split at hm
      · simp at hm
      · have hj := hp j
        unfold State.pairedAt at hj
        have hlr := left_ne_right j
        cases pol <;>
          simp only [dineWithDeadlockRisk, dineWithStdLock, dineWithTimeout, dineWithSemaphore,
            dineWithOrdering, dineWithConditionVariable] at hm <;>
          split at hm <;> rename_i hpc <;>
          (try simp only [State.loopTest, State.goto, State.lockFork, State.unlockFork,
            State.eat, State.stdLock, State.tryLockFor] at hm) <;>
          (try rw [hpc] at hj) <;>
          (repeat' split at hm) <;>
          cases hm <;>
          apply owned_frame _ s _ j h
        all_goals try (intro i hij; simp [Function.update_noteq hij])
        all_goals try (intro i g hij hg; first
          | exact hg
          | exact others_from_take _ _ _ _ _ hij hg
          | exact others_from_drop _ _ _ _ hg)
        all_goals (
          intro g hg
          have hs := h g j
          rw [hpc] at hs
          simp [holdsLeftAt, holdsRightAt, PC.beforeGotForks, Function.update_apply,
            hlr, hlr.symm] at hj hs hg ⊢)
        all_goals first
          | tauto
          | (by_cases hl : g = leftFork j <;> by_cases hr : g = rightFork j <;> simp_all)

/-! ## Version 5: no circular wait -/

theorem wellPlaced_init (pol : Policy) : State.init.wellPlaced pol := by
  intro i
  cases pol <;> rfl

theorem wellPlaced_step (pol : Policy) (s t : State) (m : Move) (h : s.wellPlaced pol)
    (hm : step pol s m = some t) : t.wellPlaced pol := by
  cases m with
  | driver =>
      obtain ⟨h1, -⟩ := driverStep_frame s t hm
      intro i
      rw [h1]
      exact h i
  | agent j c =>
      simp only [step, agentStep] at hm
      split at hm
      · simp at hm
      · cases pol <;>
          simp only [dineWithDeadlockRisk, dineWithStdLock, dineWithTimeout, dineWithSemaphore,
            dineWithOrdering, dineWithConditionVariable] at hm <;>
          split at hm <;>
          (try simp only [State.loopTest, State.goto, State.lockFork, State.unlockFork,
            State.eat, State.stdLock, State.tryLockFor] at hm) <;>
          (repeat' split at hm) <;>
          cases hm <;>
          intro i <;>
          by_cases hij : i = j <;>
          first
            | (subst hij; simp [Policy.locations])
            | (have hi := h i; simp [Function.update_noteq hij, hi])

theorem reachable_wellPlaced (pol : Policy) (s : State) (hs : Reachable pol s) :
    s.wellPlaced pol :=
  reachable_invariant pol (State.wellPlaced pol) (wellPlaced_init pol)
    (fun s m t h hm => wellPlaced_step pol s t m h hm) s hs

theorem owned_init (pol : Policy) : State.init.owned pol := by
  intro f j h
  simp [State.init] at h

theorem reachable_paired_owned (pol : Policy) (s : State) (hs : Reachable pol s) :
    s.paired pol ∧ s.owned pol :=
  reachable_invariant pol (fun s => s.paired pol ∧ s.owned pol)
    ⟨paired_init pol, owned_init pol⟩
    (fun s m t h hm => ⟨paired_step pol s t m h.1 hm, owned_step pol s t m h.1 h.2 hm⟩) s hs

/-- Under version 5 a philosopher that owns a fork while it is at a `lock()`
call owns the fork it locks first and is waiting for the one it locks second. -/
theorem ordering_owner_at_lock (s : State) (h : s.owned .ordering) (f j g : Fin 5)
    (hf : s.forks f = some j) (hw : s.waitsFor j = some g) :
    f = firstFork j ∧ g = secondFork j := by
  have ho := h f j hf
  unfold State.waitsFor at hw
  unfold firstFork secondFork
  split at hw
  · rename_i hpc
    rw [hpc] at ho
    simp only [Option.some.injEq] at hw
    subst hw
    by_cases hp : j.val % 2 = 0 <;> simp [holdsLeftAt, holdsRightAt, hp] at ho ⊢ <;> exact ho
  · rename_i hpc
    rw [hpc] at ho
    simp only [Option.some.injEq] at hw
    subst hw
    by_cases hp : j.val % 2 = 0 <;> simp [holdsLeftAt, holdsRightAt, hp] at ho ⊢ <;> exact ho
  · cases hw

/-- The only philosopher whose second fork is another one's first fork is
philosopher 4, and the other one is philosopher 0. -/
theorem first_eq_second (j k : Fin 5) (h : firstFork k = secondFork j) : j = 4 ∧ k = 0 := by
  revert j k
  decide

theorem ordering_no_waitCycle (s : State) (h : s.owned .ordering) (S : Finset (Fin 5)) :
    ¬ s.waitCycle S := by
  rintro ⟨⟨i, hi⟩, hS⟩
  obtain ⟨j, hj, -, f, -, hf⟩ := hS i hi
  obtain ⟨k, hk, -, g, hwj, hg⟩ := hS j hj
  obtain ⟨l, hl, -, e, hwk, he⟩ := hS k hk
  obtain ⟨m, -, -, d, hwl, -⟩ := hS l hl
  have hA := ordering_owner_at_lock s h f j g hf hwj
  have hB := ordering_owner_at_lock s h g k e hg hwk
  have hC := ordering_owner_at_lock s h e l d he hwl
  have h1 := first_eq_second j k (hB.1.symm.trans hA.2)
  have h2 := first_eq_second k l (hC.1.symm.trans hB.2)
  rw [h1.2] at h2
  exact absurd h2.1 (by decide)

/-- C2: in every reachable state of version 5 there is no circular wait (no
non-empty set of philosophers each blocked on a fork owned by another
philosopher of the set), and if some philosopher has not finished then some
philosopher that has not finished has a step. -/
theorem ordering_no_circular_wait (s : State) (hs : Reachable .ordering s) :
    (∀ S : Finset (Fin 5), ¬ s.waitCycle S) ∧
    ((∃ i, s.pc i ≠ .done) →
      ∃ i, s.pc i ≠ .done ∧ (agentStep .ordering s i .run).isSome = true) := by
  obtain ⟨hp, ho⟩ := reachable_paired_owned .ordering s hs
  have hw := reachable_wellPlaced .ordering s hs
  refine ⟨ordering_no_waitCycle s ho, ?_⟩
  rintro ⟨i0, hi0⟩
  by_contra hno
  have hstuck : ∀ i, s.pc i ≠ .done → (agentStep .ordering s i .run).isSome = false := by
    intro i hi
    by_contra hsome
    exact hno ⟨i, hi, eq_true_of_ne_false hsome⟩
  have hlr := left_ne_right
  have hblocked : ∀ i, s.pc i ≠ .done → ∃ j, s.pc j ≠ .done ∧ j ≠ i ∧ s.blockedOn i j := by
    intro i hi
    have h1 := hstuck i hi
    have h2 := hw i
    have owner : ∀ f, s.waitsFor i = some f → s.forks f ≠ none →
        ∃ j, s.pc j ≠ .done ∧ j ≠ i ∧ s.blockedOn i j := by
      intro f hwf hne
      obtain ⟨j, hj⟩ := Option.ne_none_iff_exists'.mp hne
      have hoj := ho f j hj
      refine ⟨j, ?_, ?_, f, hwf, hj⟩
      · intro hd
        rw [hd] at hoj
        simp [holdsLeftAt, holdsRightAt] at hoj
      · rintro rfl
        have := ordering_owner_at_lock s ho f j f hj hwf
        have hfs : firstFork j ≠ secondFork j := by
          unfold firstFork secondFork
          split
          · exact hlr j
          · exact (hlr j).symm
        exact hfs (this.1.symm.trans this.2)
    simp only [agentStep, dineWithOrdering] at h1
    cases hpc : s.pc i <;> rw [hpc] at h1 h2 <;>
      simp [PC.hasOutcomes, Policy.locations, State.lockFork] at h1 h2
    · exact owner (leftFork i) (by simp [State.waitsFor, hpc]) h1
    · exact owner (rightFork i) (by simp [State.waitsFor, hpc]) h1
    · exact absurd hpc hi
  apply ordering_no_waitCycle s ho (Finset.univ.filter (fun i => s.pc i ≠ .done))
  refine ⟨⟨i0, by simpa using hi0⟩, ?_⟩
  intro i hi
  obtain ⟨j, hj, hji, hb⟩ := hblocked i (by simpa using hi)
  exact ⟨j, by simpa using hj, hji, hb⟩

theorem ordering_no_circular_wait_witness :
    Reachable .ordering orderingContended ∧
    orderingContended.blockedOn 2 1 ∧ orderingContended.blockedOn 4 3 ∧
    ((∀ S : Finset (Fin 5), ¬ orderingContended.waitCycle S) ∧
      ((∃ i, orderingContended.pc i ≠ .done) →
        ∃ i, orderingContended.pc i ≠ .done ∧
          (agentStep .ordering orderingContended i .run).isSome = true)) :=
  have hr : Reachable .ordering orderingContended :=
    reachable_of_exec .ordering firstForksTaken State.init orderingContended Reachable.init rfl
  ⟨hr, ⟨2, rfl, rfl⟩, ⟨4, rfl, rfl⟩, ordering_no_circular_wait orderingContended hr⟩

/-! ## Version 1: the circular wait -/

theorem circularWait_blocked (s : State) (h : s.circularWait) (i : Fin 5) (c : Choice) :
    agentStep .deadlockRisk s i c = none := by
  have h1 := (h.1 i).1
  have h2 := h.2 (rightFork i)
  simp [agentStep, dineWithDeadlockRisk, h1, State.lockFork, h2]

theorem circularWait_step (s t : State) (m : Move) (h : s.circularWait)
    (hm : step .deadlockRisk s m = some t) : t.circularWait := by
  cases m with
  | agent i c => simp [step, circularWait_blocked s h i c] at hm
  | driver =>
      simp only [step, driverStep] at hm
      split at hm
      · simp only [Option.some.injEq] at hm
        subst hm
        exact h
      · split at hm
        · split at hm
          · simp only [Option.some.injEq] at hm
            subst hm
            exact h
          · simp at hm
        · simp at hm
      · simp only [Option.some.injEq] at hm
        subst hm
        exact h
      · simp at hm

/-- C3: under version 1 the schedule in which every philosopher passes the
loop test, thinks and locks its left fork is an execution from the initial
state; in the state it reaches every philosopher owns its left fork and is at
`rightFork.lock()` with the right fork owned by its neighbour, so that the five
philosophers form a circular wait; in that state, in the state after the
driver has set `stopFlag`, and in every state reachable from it, no
philosopher has a step and every philosopher is still at `rightFork.lock()`. -/
theorem deadlockRisk_reaches_circular_wait :
    exec .deadlockRisk State.init allTakeLeft = some leftForksTaken ∧
    (∀ i, leftForksTaken.pc i = .lockRight ∧ leftForksTaken.forks (leftFork i) = some i ∧
          leftForksTaken.forks (rightFork i) = some (rightFork i)) ∧
    leftForksTaken.waitCycle Finset.univ ∧
    (∀ i c, agentStep .deadlockRisk leftForksTaken i c = none) ∧
    (∃ t, step .deadlockRisk leftForksTaken .driver = some t ∧ t.stopFlag = true ∧
          ∀ i c, agentStep .deadlockRisk t i c = none) ∧
    (∀ ms t, exec .deadlockRisk leftForksTaken ms = some t →
          (∀ i, t.pc i = .lockRight) ∧ ∀ i c, agentStep .deadlockRisk t i c = none) := by
  have hcw : leftForksTaken.circularWait := by
    constructor <;> decide
  have hall : ∀ i, leftForksTaken.pc i = .lockRight ∧
      leftForksTaken.forks (leftFork i) = some i ∧
      leftForksTaken.forks (rightFork i) = some (rightFork i) := by
    decide
  refine ⟨rfl, hall, ?_, fun i c => circularWait_blocked _ hcw i c, ⟨_, rfl, rfl, ?_⟩, ?_⟩
  · refine ⟨Finset.univ_nonempty, fun i _ => ⟨rightFork i, Finset.mem_univ _, ?_, ?_⟩⟩
    · exact (left_ne_right i).symm
    · exact ⟨rightFork i, by simp [State.waitsFor, (hall i).1], (hall i).2.2⟩
  · intro i c
    exact circularWait_blocked _ (circularWait_step _ _ .driver hcw rfl) i c
  · intro ms t h
    have ht := exec_invariant .deadlockRisk State.circularWait
      (fun s m t hs hm => circularWait_step s t m hs hm) ms _ t hcw h
    exact ⟨fun i => (ht.1 i).1, fun i c => circularWait_blocked t ht i c⟩

/-! ## Version 3: one cycle makes at most three attempts -/

theorem attemptLoop_continue (env : Env) (fuel : Nat) (c : Locals) (hg : c.gotForks = false)
    (hs : env.stop c.attempts = false) (ha : c.attempts < 3) :
    attemptLoop env (fuel + 1) c = attemptLoop env fuel (attemptBody env c) := by
  simp [attemptLoop, hg, hs, ha]

theorem attemptLoop_exit (env : Env) (fuel : Nat) (c : Locals)
    (h : c.gotForks = true ∨ env.stop c.attempts = true ∨ 3 ≤ c.attempts) :
    attemptLoop env fuel c = some c := by
  cases fuel <;> rcases h with h | h | h <;> simp [attemptLoop, h]

theorem attemptBody_both (env : Env) (c : Locals)
    (hb : env.both c.attempts = true) :
    attemptBody env c =
      { c with gotForks := true,
               trace := c.trace ++ [.attemptMsg (c.attempts + 1), .tryLeft true, .tryRight true] } := by
  simp only [Env.both, Bool.and_eq_true] at hb
  simp [attemptBody, hb.1, hb.2]

theorem attemptBody_fail (env : Env) (c : Locals) (hg : c.gotForks = false)
    (hb : env.both c.attempts = false) :
    ∃ mid, failedTry mid ∧
      attemptBody env c =
        { gotForks := false, attempts := c.attempts + 1, mealsEaten := c.mealsEaten,
          trace := c.trace ++ .attemptMsg (c.attempts + 1) :: mid ++
            (if c.attempts + 1 < 3 then [.waitMsg, .backoffSleep] else []) } := by
  cases hl : env.left c.attempts
  · refine ⟨_, Or.inl rfl, ?_⟩
    by_cases h3 : c.attempts + 1 < 3 <;> simp [attemptBody, hl, hg, h3]
  · have hr : env.right c.attempts = false := by simpa [Env.both, hl] using hb
    refine ⟨_, Or.inr rfl, ?_⟩
    by_cases h3 : c.attempts + 1 < 3 <;> simp [attemptBody, hl, hr, hg, h3]

theorem failedSoFar_start (m : Nat) :
    FailedSoFar m 0 { gotForks := false, attempts := 0, mealsEaten := m, trace := [.think] } := by
  constructor <;> simp [attemptsMade, tryLocks, backoffSleeps]

theorem failedSoFar_fail (env : Env) (m j : Nat) (c : Locals) (h : FailedSoFar m j c)
    (hj : j < 3) (hb : env.both j = false) : FailedSoFar m (j + 1) (attemptBody env c) := by
  obtain ⟨mid, hmid, hbody⟩ := attemptBody_fail env c h.got (h.att ▸ hb)
  rw [hbody, h.att]
  have h1 := h.made
  have h2 := h.tries
  have h3 := h.sleeps
  have h4 := h.noEat
  have h5 := h.noStarved
  have hmin : min j 2 + (if j + 1 < 3 then 1 else 0) = min (j + 1) 2 := by
    split <;> omega
  constructor
  · rfl
  · rfl
  · exact h.meals
  · rcases hmid with rfl | rfl <;> split <;>
      simp [attemptsMade, List.countP_cons] at h1 ⊢ <;> omega
  · rcases hmid with rfl | rfl <;> split <;>
      simp [tryLocks, List.countP_cons] at h2 ⊢ <;> omega
  · rcases hmid with rfl | rfl <;> split <;>
      simp [backoffSleeps, List.count_cons] at h3 hmin ⊢ <;> omega
  · rcases hmid with rfl | rfl <;> split <;> simp [List.count_cons, h4]
  · rcases hmid with rfl | rfl <;> split <;> simp [List.count_cons, h5]
  · intro h3j
    have hj2 : j = 2 := by omega
    subst hj2
    exact ⟨c.trace, mid, by simp, hmid⟩

theorem failedSoFar_success (env : Env) (m j : Nat) (c : Locals) (h : FailedSoFar m j c)
    (hj : j < 3) (hb : env.both j = true) :
    (attemptBody env c).gotForks = true ∧ (attemptBody env c).mealsEaten = m ∧
    attemptsMade (attemptBody env c).trace = j + 1 ∧
    tryLocks (attemptBody env c).trace ≤ 2 * (j + 1) ∧
    backoffSleeps (attemptBody env c).trace = j ∧
    (attemptBody env c).trace.count .eat = 0 ∧
    (attemptBody env c).trace.count .starvedMsg = 0 ∧
    (attemptBody env c).trace =
      c.trace ++ [.attemptMsg (j + 1), .tryLeft true, .tryRight true] := by
  rw [attemptBody_both env c (h.att ▸ hb), h.att]
  have h1 := h.made
  have h2 := h.tries
  have h3 := h.sleeps
  have h4 := h.noEat
  have h5 := h.noStarved
  refine ⟨rfl, h.meals, ?_, ?_, ?_, ?_, ?_, rfl⟩
  · simp [attemptsMade, List.countP_cons] at h1 ⊢
    omega
  · simp [tryLocks, List.countP_cons] at h2 ⊢
    omega
  · simp [backoffSleeps, List.count_cons] at h3 ⊢
    omega
  · simp [List.count_cons, h4]
  · simp [List.count_cons, h5]

/-- The inner loop ends within three passes: either some attempt `k < 3` is
the first to obtain both forks and the loop ends right after it, or three
attempts have failed. -/
theorem attemptLoop_result (env : Env) (hstop : ∀ k, env.stop k = false) (f m : Nat) :
    (∃ k c, k < 3 ∧ FailedSoFar m k c ∧ env.both k = true ∧ (∀ i, i < k → env.both i = false) ∧
      attemptLoop env (f + 3)
        { gotForks := false, attempts := 0, mealsEaten := m, trace := [.think] } =
        some (attemptBody env c)) ∨
    (∃ c, FailedSoFar m 3 c ∧ (∀ i, i < 3 → env.both i = false) ∧
      attemptLoop env (f + 3)
        { gotForks := false, attempts := 0, mealsEaten := m, trace := [.think] } = some c) := by
  have I0 := failedSoFar_start m
  have next : ∀ (j fuel : Nat) (c : Locals), FailedSoFar m j c → j < 3 →
      attemptLoop env (fuel + 1) c = attemptLoop env fuel (attemptBody env c) := by
    intro j fuel c h hj
    exact attemptLoop_continue env fuel c h.got (hstop _) (h.att ▸ hj)
  have stop : ∀ (j fuel : Nat) (c : Locals), FailedSoFar m j c → env.both j = true → j < 3 →
      attemptLoop env fuel (attemptBody env c) = some (attemptBody env c) := by
    intro j fuel c h hb hj
    exact attemptLoop_exit env fuel _ (Or.inl (failedSoFar_success env m j c h hj hb).1)
  cases hb0 : env.both 0
  · have I1 := failedSoFar_fail env m 0 _ I0 (by omega) hb0
    cases hb1 : env.both 1
    · have I2 := failedSoFar_fail env m 1 _ I1 (by omega) hb1
      cases hb2 : env.both 2
      · have I3 := failedSoFar_fail env m 2 _ I2 (by omega) hb2
        right
        refine ⟨_, I3, ?_, ?_⟩
        · intro i hi
          interval_cases i <;> assumption
        · rw [next 0 _ _ I0 (by omega), next 1 _ _ I1 (by omega), next 2 _ _ I2 (by omega)]
          exact attemptLoop_exit env f _ (Or.inr (Or.inr (by rw [I3.att])))
      · left
        refine ⟨2, _, by omega, I2, hb2, ?_, ?_⟩
        · intro i hi
          interval_cases i <;> assumption
        · rw [next 0 _ _ I0 (by omega), next 1 _ _ I1 (by omega), next 2 _ _ I2 (by omega)]
          exact stop 2 _ _ I2 hb2 (by omega)
    · left
      refine ⟨1, _, by omega, I1, hb1, ?_, ?_⟩
      · intro i hi
        interval_cases i
        assumption
      · rw [next 0 _ _ I0 (by omega), next 1 _ _ I1 (by omega)]
        exact stop 1 _ _ I1 hb1 (by omega)
  · left
    refine ⟨0, _, by omega, I0, hb0, ?_, ?_⟩
    · intro i hi
      omega
    · rw [next 0 _ _ I0 (by omega)]
      exact stop 0 _ _ I0 hb0 (by omega)

/-- C4: with the stop flag unset during the cycle, for every outcome of the
timed try-locks one cycle of `dineWithTimeout` ends (three passes of the inner
loop suffice) with at most 3 attempts, at most 6 try-locks and at most 2
backoff sleeps. If attempt `k + 1` is the first in which both try-locks
succeed, the cycle makes exactly `k + 1` attempts and then eats once, with
`mealsEaten` increased by exactly 1. If none of the three attempts obtains both
forks, the cycle ends with the starvation message, `mealsEaten` unchanged, and
nothing but the failed try-locks lies between the announcement of the third
attempt and the starvation message (no sleep after the third failure). -/
theorem timeoutCycle_bounded (env : Env) (hstop : ∀ k, env.stop k = false) (fuel : Nat)
    (hfuel : 3 ≤ fuel) (meals : Nat) :
    ∃ r, timeoutCycle env fuel meals = some r ∧
      attemptsMade r.trace ≤ 3 ∧ tryLocks r.trace ≤ 6 ∧ backoffSleeps r.trace ≤ 2 ∧
      (∀ k, k < 3 → env.both k = true → (∀ j, j < k → env.both j = false) →
        attemptsMade r.trace = k + 1 ∧ backoffSleeps r.trace = k ∧
        r.mealsEaten = meals + 1 ∧
        r.trace.count .eat = 1 ∧ r.trace.count .starvedMsg = 0 ∧
        ∃ pre, r.trace = pre ++ [.attemptMsg (k + 1), .tryLeft true, .tryRight true,
          .eat, .unlockRight, .unlockLeft, .putDownMsg]) ∧
      ((∀ k, k < 3 → env.both k = false) →
        attemptsMade r.trace = 3 ∧ backoffSleeps r.trace = 2 ∧
        r.mealsEaten = meals ∧
        r.trace.count .eat = 0 ∧ r.trace.count .starvedMsg = 1 ∧
        ∃ pre mid, r.trace = pre ++ .attemptMsg 3 :: mid ++ [.starvedMsg] ∧ failedTry mid) := by
  obtain ⟨f, rfl⟩ : ∃ f, fuel = f + 3 := ⟨fuel - 3, by omega⟩
  rcases attemptLoop_result env hstop f meals with ⟨k, c, hk, hI, hb, hmin, hloop⟩ | ⟨c, hI, hall, hloop⟩
  · obtain ⟨hg, hm, hmade, htries, hsleeps, heat, hstarved, htrace⟩ :=
      failedSoFar_success env meals k c hI hk hb
    refine ⟨_, by rw [timeoutCycle, hloop]; rfl, ?_⟩
    simp only [hg, if_true]
    have e1 : attemptsMade ((attemptBody env c).trace ++
        [.eat, .unlockRight, .unlockLeft, .putDownMsg]) = k + 1 := by
      simp [attemptsMade, List.countP_cons] at hmade ⊢
      omega
    have e2 : tryLocks ((attemptBody env c).trace ++
        [.eat, .unlockRight, .unlockLeft, .putDownMsg]) ≤ 2 * (k + 1) := by
      simp [tryLocks, List.countP_cons] at htries ⊢
      omega
    have e3 : backoffSleeps ((attemptBody env c).trace ++
        [.eat, .unlockRight, .unlockLeft, .putDownMsg]) = k := by
      simp [backoffSleeps, List.count_cons] at hsleeps ⊢
      omega
    refine ⟨by omega, by omega, by omega, ?_, ?_⟩
    · intro k2 hk2 hb2 hmin2
      have hkk : k2 = k := by
        rcases Nat.lt_trichotomy k2 k with h | h | h
        · rw [hmin k2 h] at hb2
          cases hb2
        · exact h
        · rw [hmin2 k h] at hb
          cases hb
      subst hkk
      refine ⟨e1, e3, by rw [hm], ?_, ?_, c.trace, ?_⟩
      · simp [List.count_cons, heat]
      · simp [List.count_cons, hstarved]
      · rw [htrace]
        simp
    · intro hnone
      rw [hnone k hk] at hb
      cases hb
  · refine ⟨_, by rw [timeoutCycle, hloop]; rfl, ?_⟩
    simp only [hI.got, Bool.false_eq_true, if_false]
    have h1 := hI.made
    have h2 := hI.tries
    have h3 := hI.sleeps
    have e1 : attemptsMade (c.trace ++ [.starvedMsg]) = 3 := by
      simp [attemptsMade, List.countP_cons] at h1 ⊢
      omega
    have e2 : tryLocks (c.trace ++ [.starvedMsg]) ≤ 6 := by
      simp [tryLocks, List.countP_cons] at h2 ⊢
      omega
    have e3 : backoffSleeps (c.trace ++ [.starvedMsg]) = 2 := by
      simp [backoffSleeps, List.count_cons] at h3 ⊢
      omega
    refine ⟨by omega, e2, by omega, ?_, ?_⟩
    · intro k hk hb
      rw [hall k hk] at hb
      cases hb
    · intro _
      obtain ⟨pre, mid, htr, hmid⟩ := hI.third rfl
      refine ⟨e1, e3, hI.meals, ?_, ?_, pre, mid, ?_, hmid⟩
      · simp [List.count_cons, hI.noEat]
      · simp [List.count_cons, hI.noStarved]
      · rw [htr]

theorem timeoutCycle_bounded_witness :
    (∀ k, thirdTimeLucky.stop k = false) ∧ 3 ≤ 3 ∧
    ∃ r, timeoutCycle thirdTimeLucky 3 7 = some r ∧
      attemptsMade r.trace ≤ 3 ∧ tryLocks r.trace ≤ 6 ∧ backoffSleeps r.trace ≤ 2 ∧
      (∀ k, k < 3 → thirdTimeLucky.both k = true → (∀ j, j < k → thirdTimeLucky.both j = false) →
        attemptsMade r.trace = k + 1 ∧ backoffSleeps r.trace = k ∧
        r.mealsEaten = 7 + 1 ∧
        r.trace.count .eat = 1 ∧ r.trace.count .starvedMsg = 0 ∧
        ∃ pre, r.trace = pre ++ [.attemptMsg (k + 1), .tryLeft true, .tryRight true,
          .eat, .unlockRight, .unlockLeft, .putDownMsg]) ∧
      ((∀ k, k < 3 → thirdTimeLucky.both k = false) →
        attemptsMade r.trace = 3 ∧ backoffSleeps r.trace = 2 ∧
        r.mealsEaten = 7 ∧
        r.trace.count .eat = 0 ∧ r.trace.count .starvedMsg = 1 ∧
        ∃ pre mid, r.trace = pre ++ .attemptMsg 3 :: mid ++ [.starvedMsg] ∧ failedTry mid) :=
  ⟨fun _ => rfl, by decide, timeoutCycle_bounded thirdTimeLucky (fun _ => rfl) 3 (by decide) 7⟩

/-! ## Version 6: at most two philosophers are admitted -/

theorem count5_update (q : PC → Bool) (pc : Fin 5 → PC) (j : Fin 5) (p : PC) :
    count5 (fun i => q (Function.update pc j p i)) + (q (pc j)).toNat =
      count5 (fun i => q (pc i)) + (q p).toNat := by
  fin_cases j <;> simp [count5, Function.update] <;> omega

theorem count5_le (q r : Fin 5 → Bool) (h : ∀ i, q i = true → r i = true) :
    count5 q ≤ count5 r := by
  have key : ∀ i, (q i).toNat ≤ (r i).toNat := by
    intro i
    cases hq : q i
    · simp
    · simp [h i hq]
  have h0 := key 0
  have h1 := key 1
  have h2 := key 2
  have h3 := key 3
  have h4 := key 4
  unfold count5
  omega

theorem admitted_update (pc : Fin 5 → PC) (j : Fin 5) (p : PC) :
    ((count5 fun i => (Function.update pc j p i).admitted : Nat) : Int) =
      ((count5 fun i => (pc i).admitted : Nat) : Int) + (p.admitted.toNat : Int) -
        ((pc j).admitted.toNat : Int) := by
  have := count5_update PC.admitted pc j p
  omega

theorem cvOk_init : State.init.cvOk := by
  refine ⟨?_, ?_, ?_, ?_⟩ <;> simp [State.init, PC.holdsCv, PC.admitted, count5, MAX_EATING]

theorem cvOk_step_mutex (s t : State) (j : Fin 5) (c : Choice) (h : s.cvOk)
    (hm : step .conditionVariable s (.agent j c) = some t) :
    ∀ i, (t.pc i).holdsCv = true → t.cv_mutex = some i := by
  obtain ⟨h1, h2, h3, h4⟩ := h
  simp only [step, agentStep] at hm
  split at hm
  · simp at hm
  · have hj := h1 j
    simp only [dineWithConditionVariable] at hm
    split at hm <;> rename_i hpc <;>
      (try simp only [State.loopTest, State.goto, State.lockFork, State.unlockFork,
        State.eat, State.stdLock, State.tryLockFor] at hm) <;>
      (try rw [hpc] at hj) <;>
      (repeat' split at hm) <;>
      cases hm <;>
      intro i hi <;>
      by_cases hij : i = j
    all_goals first
      | (subst hij
         simp_all [PC.holdsCv])
      | (simp only [Function.update_noteq hij] at hi
         have hi1 := h1 i hi
         simp_all [PC.holdsCv])

theorem cvOk_step_count (s t : State) (j : Fin 5) (c : Choice) (h : s.cvOk)
    (hm : step .conditionVariable s (.agent j c) = some t) :
    t.eatingCount = ((count5 fun i => (t.pc i).admitted : Nat) : Int) ∧
    t.eatingCount ≤ MAX_EATING := by
  obtain ⟨h1, h2, h3, h4⟩ := h
  simp only [step, agentStep] at hm
  split at hm
  · simp at hm
  · have hj4 := h4 j
    simp only [dineWithConditionVariable] at hm
    split at hm <;> rename_i hpc <;>
      (try simp only [State.loopTest, State.goto, State.lockFork, State.unlockFork,
        State.eat, State.stdLock, State.tryLockFor] at hm) <;>
      (try rw [hpc] at hj4) <;>
      (repeat' split at hm) <;>
      cases hm <;>
      simp only [admitted_update, hpc] <;>
      generalize (count5 fun i => (s.pc i).admitted) = n at h2 ⊢ <;>
      simp [PC.admitted, MAX_EATING] at * <;>
      omega

theorem cvOk_step_below (s t : State) (j : Fin 5) (c : Choice) (h : s.cvOk)
    (hm : step .conditionVariable s (.agent j c) = some t) :
    ∀ i, t.pc i = .cvIncr → t.eatingCount < MAX_EATING := by
  obtain ⟨h1, h2, h3, h4⟩ := h
  simp only [step, agentStep] at hm
  split at hm
  · simp at hm
  · have hj := h1 j
    simp only [dineWithConditionVariable] at hm
    split at hm <;> rename_i hpc <;>
      (try simp only [State.loopTest, State.goto, State.lockFork, State.unlockFork,
        State.eat, State.stdLock, State.tryLockFor] at hm) <;>
      (try rw [hpc] at hj) <;>
      (repeat' split at hm) <;>
      cases hm <;>
      intro i hi <;>
      by_cases hij : i = j
    all_goals first
      | (subst hij
         simp_all [PC.holdsCv])
      | (simp only [Function.update_noteq hij] at hi
         have hi4 := h4 i hi
         have hi1 := h1 i (by rw [hi]; rfl)
         simp_all [PC.holdsCv])

theorem cvOk_step (s t : State) (m : Move) (h : s.cvOk)
    (hm : step .conditionVariable s m = some t) : t.cvOk := by
  cases m with
  | driver =>
      obtain ⟨h1, h2, h3, h4⟩ := h
      obtain ⟨e1, -, -, -, -, -, e2, e3⟩ := driverStep_frame s t hm
      unfold State.cvOk
      rw [e1, e2, e3]
      exact ⟨h1, h2, h3, h4⟩
  | agent j c =>
      exact ⟨cvOk_step_mutex s t j c h hm, (cvOk_step_count s t j c h hm).1,
        (cvOk_step_count s t j c h hm).2, cvOk_step_below s t j c h hm⟩

theorem reachable_cvOk (s : State) (hs : Reachable .conditionVariable s) : s.cvOk :=
  reachable_invariant .conditionVariable State.cvOk cvOk_init
    (fun s m t h hm => cvOk_step s t m h hm) s hs

/-- C5: in every reachable state of version 6 (`maxEating = MAX_EATING = 2`)
the counter `eatingCount` is between 0 and 2 and the number of philosophers
inside `eat()` is at most `eatingCount`, hence at most 2. -/
theorem admission_bounded (s : State) (hs : Reachable .conditionVariable s) :
    0 ≤ s.eatingCount ∧ s.eatingCount ≤ 2 ∧ (s.eatingNow : Int) ≤ s.eatingCount ∧
    s.eatingNow ≤ 2 := by
  obtain ⟨-, h2, h3, -⟩ := reachable_cvOk s hs
  have hle : s.eatingNow ≤ count5 fun i => (s.pc i).admitted := by
    apply count5_le
    intro i hi
    have : s.pc i = .eat := by simpa using hi
    rw [this]
    rfl
  simp only [MAX_EATING] at h3
  omega

theorem admission_bounded_witness :
    Reachable .conditionVariable cvDemo ∧
    cvDemo.eatingNow = 2 ∧ cvDemo.pc 4 = .cvWait ∧
    (0 ≤ cvDemo.eatingCount ∧ cvDemo.eatingCount ≤ 2 ∧
      (cvDemo.eatingNow : Int) ≤ cvDemo.eatingCount ∧ cvDemo.eatingNow ≤ 2) :=
  have hr : Reachable .conditionVariable cvDemo :=
    reachable_of_exec .conditionVariable twoAdmitted State.init cvDemo Reachable.init rfl
  ⟨hr, by decide, by decide, admission_bounded cvDemo hr⟩


/-! ## Version 4: one philosopher at the table -/

theorem tableOk_init : State.init.tableOk := by
  intro i h
  simp [State.init, PC.holdsTable] at h

theorem tableOk_step (s t : State) (m : Move) (h : s.tableOk)
    (hm : step .semaphore s m = some t) : t.tableOk := by
  cases m with
  | driver =>
      obtain ⟨e1, -, -, -, -, e2, -⟩ := driverStep_frame s t hm
      unfold State.tableOk
      rw [e1, e2]
      exact h
  | agent j c =>
      simp only [step, agentStep] at hm
      split at hm
      · simp at hm
      · have hj := h j
        simp only [dineWithSemaphore] at hm
        split at hm <;> rename_i hpc <;>
          (try simp only [State.loopTest, State.goto, State.lockFork, State.unlockFork,
            State.eat] at hm) <;>
          (try rw [hpc] at hj) <;>
          (repeat' split at hm) <;>
          cases hm <;>
          intro i hi <;>
          by_cases hij : i = j
        all_goals first
          | (subst hij
             simp_all [PC.holdsTable])
          | (simp only [Function.update_noteq hij] at hi
             have hi1 := h i hi
             simp_all [PC.holdsTable])

theorem count5_le_one (q : Fin 5 → Bool) (h : ∀ i j, q i = true → q j = true → i = j) :
    count5 q ≤ 1 := by
  have key : ∀ i j : Fin 5, i ≠ j → ¬ (q i = true ∧ q j = true) :=
    fun i j hij hq => hij (h i j hq.1 hq.2)
  have h01 := key 0 1 (by decide)
  have h02 := key 0 2 (by decide)
  have h03 := key 0 3 (by decide)
  have h04 := key 0 4 (by decide)
  have h12 := key 1 2 (by decide)
  have h13 := key 1 3 (by decide)
  have h14 := key 1 4 (by decide)
  have h23 := key 2 3 (by decide)
  have h24 := key 2 4 (by decide)
  have h34 := key 3 4 (by decide)
  unfold count5
  generalize q 0 = a at *
  generalize q 1 = b at *
  generalize q 2 = c at *
  generalize q 3 = d at *
  generalize q 4 = e at *
  clear h key
  cases a <;> cases b <;> cases c <;> cases d <;> cases e <;> simp_all

/-- C6: in every reachable state of version 4 a fork is owned only by the
philosopher that owns `tableMutex`; at most one philosopher is inside `eat()`;
when the philosopher at the table is at `leftFork.lock()` or
`rightFork.lock()` that fork is unlocked, so the call does not block; and
after `eat()` the philosopher is at `rightFork.unlock()` owning both forks and
the table, then at `leftFork.unlock()` owning the left fork and the table with
the right fork unlocked, then at `tableMutex.unlock()` owning the table with
both forks unlocked, and then back at the loop test. -/
theorem semaphore_serialises (s : State) (hs : Reachable .semaphore s) :
    (∀ f j, s.forks f = some j → s.tableMutex = some j) ∧
    (∀ i j, s.eating i → s.eating j → i = j) ∧ s.eatingNow ≤ 1 ∧
    (∀ i, (s.pc i = .lockLeft → s.forks (leftFork i) = none) ∧
          (s.pc i = .lockRight → s.forks (rightFork i) = none)) ∧
    (∀ i,
      (s.pc i = .eat →
        agentStep .semaphore s i .run = some (s.eat i .unlockRight)) ∧
      (s.pc i = .unlockRight →
        s.forks (leftFork i) = some i ∧ s.forks (rightFork i) = some i ∧
        s.tableMutex = some i ∧
        agentStep .semaphore s i .run = some (s.unlockFork i (rightFork i) .unlockLeft)) ∧
      (s.pc i = .unlockLeft →
        s.forks (leftFork i) = some i ∧ s.forks (rightFork i) = none ∧
        s.tableMutex = some i ∧
        agentStep .semaphore s i .run = some (s.unlockFork i (leftFork i) .unlockTable)) ∧
      (s.pc i = .unlockTable →
        s.forks (leftFork i) = none ∧ s.forks (rightFork i) = none ∧
        s.tableMutex = some i ∧
        agentStep .semaphore s i .run =
          some { s with tableMutex := none, pc := Function.update s.pc i .loopTest })) := by
  obtain ⟨hp, ho⟩ := reachable_paired_owned .semaphore s hs
  have ht : s.tableOk :=
    reachable_invariant .semaphore State.tableOk tableOk_init
      (fun s m t h hm => tableOk_step s t m h hm) s hs
  have hw := reachable_wellPlaced .semaphore s hs
  have hlr := left_ne_right
  have owner : ∀ f j, s.forks f = some j → s.tableMutex = some j := by
    intro f j hf
    apply ht j
    have := ho f j hf
    have hwj := hw j
    cases hpc : s.pc j <;> rw [hpc] at this hwj <;>
      simp [holdsLeftAt, holdsRightAt, PC.holdsTable, Policy.locations] at this hwj ⊢
  have free : ∀ i f, s.tableMutex = some i → s.forks f ≠ some i → s.forks f = none := by
    intro i f hti hne
    cases hf : s.forks f with
    | none => rfl
    | some k =>
        have hk := owner f k hf
        rw [hti] at hk
        have : i = k := Option.some.inj hk
        subst this
        exact absurd hf hne
  have uniq : ∀ i j, s.eating i → s.eating j → i = j := by
    intro i j hi hj
    unfold State.eating at hi hj
    have h1 := ht i (by rw [hi]; rfl)
    have h2 := ht j (by rw [hj]; rfl)
    rw [h1] at h2
    exact Option.some.inj h2
  refine ⟨owner, uniq, ?_, ?_, ?_⟩
  · apply count5_le_one
    intro i j hi hj
    exact uniq i j (by simpa using hi) (by simpa using hj)
  · intro i
    constructor
    · intro hpc
      apply free i _ (ht i (by rw [hpc]; rfl))
      intro hf
      have := ho _ i hf
      rw [hpc] at this
      simp [holdsLeftAt, holdsRightAt, (hlr i)] at this
    · intro hpc
      apply free i _ (ht i (by rw [hpc]; rfl))
      intro hf
      have := ho _ i hf
      rw [hpc] at this
      simp [holdsLeftAt, holdsRightAt, (hlr i).symm] at this
  · intro i
    have hpi := hp i
    unfold State.pairedAt at hpi
    refine ⟨?_, ?_, ?_, ?_⟩
    · intro hpc
      simp [agentStep, dineWithSemaphore, hpc, PC.hasOutcomes]
    · intro hpc
      rw [hpc] at hpi
      refine ⟨hpi.1 rfl, hpi.2.1 rfl, ht i (by rw [hpc]; rfl), ?_⟩
      simp [agentStep, dineWithSemaphore, hpc, PC.hasOutcomes]
    · intro hpc
      rw [hpc] at hpi
      have htab := ht i (by rw [hpc]; rfl)
      refine ⟨hpi.1 rfl, ?_, htab, ?_⟩
      · apply free i _ htab
        intro hf
        have := ho _ i hf
        rw [hpc] at this
        simp [holdsLeftAt, holdsRightAt, (hlr i).symm] at this
      · simp [agentStep, dineWithSemaphore, hpc, PC.hasOutcomes]
    · intro hpc
      have htab := ht i (by rw [hpc]; rfl)
      refine ⟨?_, ?_, htab, ?_⟩
      · apply free i _ htab
        intro hf
        have := ho _ i hf
        rw [hpc] at this
        simp [holdsLeftAt, holdsRightAt, (hlr i)] at this
      · apply free i _ htab
        intro hf
        have := ho _ i hf
        rw [hpc] at this
        simp [holdsLeftAt, holdsRightAt, (hlr i).symm] at this
      · simp [agentStep, dineWithSemaphore, hpc, PC.hasOutcomes]

theorem semaphore_serialises_witness :
    Reachable .semaphore semaphoreDemo ∧ semaphoreDemo.eating 0 ∧
    semaphoreDemo.pc 1 = .lockTable ∧
    ((∀ f j, semaphoreDemo.forks f = some j → semaphoreDemo.tableMutex = some j) ∧
    (∀ i j, semaphoreDemo.eating i → semaphoreDemo.eating j → i = j) ∧
    semaphoreDemo.eatingNow ≤ 1 ∧
    (∀ i, (semaphoreDemo.pc i = .lockLeft → semaphoreDemo.forks (leftFork i) = none) ∧
          (semaphoreDemo.pc i = .lockRight → semaphoreDemo.forks (rightFork i) = none)) ∧
    (∀ i,
      (semaphoreDemo.pc i = .eat →
        agentStep .semaphore semaphoreDemo i .run = some (semaphoreDemo.eat i .unlockRight)) ∧
      (semaphoreDemo.pc i = .unlockRight →
        semaphoreDemo.forks (leftFork i) = some i ∧ semaphoreDemo.forks (rightFork i) = some i ∧
        semaphoreDemo.tableMutex = some i ∧
        agentStep .semaphore semaphoreDemo i .run =
          some (semaphoreDemo.unlockFork i (rightFork i) .unlockLeft)) ∧
      (semaphoreDemo.pc i = .unlockLeft →
        semaphoreDemo.forks (leftFork i) = some i ∧ semaphoreDemo.forks (rightFork i) = none ∧
        semaphoreDemo.tableMutex = some i ∧
        agentStep .semaphore semaphoreDemo i .run =
          some (semaphoreDemo.unlockFork i (leftFork i) .unlockTable)) ∧
      (semaphoreDemo.pc i = .unlockTable →
        semaphoreDemo.forks (leftFork i) = none ∧ semaphoreDemo.forks (rightFork i) = none ∧
        semaphoreDemo.tableMutex = some i ∧
        agentStep .semaphore semaphoreDemo i .run =
          some { semaphoreDemo with
            tableMutex := none, pc := Function.update semaphoreDemo.pc i .loopTest }))) :=
  have hr : Reachable .semaphore semaphoreDemo :=
    reachable_of_exec .semaphore oneAtTable State.init semaphoreDemo Reachable.init rfl
  ⟨hr, by decide, by decide, semaphore_serialises semaphoreDemo hr⟩

/-! ## The liveness probe of `main` -/

theorem scanThreads_spawned (fin : Fin 5 → Option Nat) : scanThreads (spawned fin) = false := by
  simp [spawned, List.finRange, scanThreads, ThreadObj.joinable]

theorem probeLoop_spawned (fin : Fin 5 → Option Nat) (polls : Nat) (b : Bool) :
    probeLoop (spawned fin) (polls + 1) b = false := by
  induction polls generalizing b with
  | zero => simp [probeLoop, scanThreads_spawned]
  | succ n ih =>
      rw [probeLoop, scanThreads_spawned]
      exact ih false

/-- C7 (the code deviates): with the five threads of `main`, all of which have
returned before the first poll, the probe still ends with `allFinished = false`
and the process exits with code 1; indeed it does so whatever the threads have
done, because `joinable()` stays `true` until a thread has been joined. -/
theorem mainProbe_exits_one_though_all_finished :
    mainProbe (spawned fun _ => some 0) = .code 1 ∧
    ∀ fin : Fin 5 → Option Nat, mainProbe (spawned fin) = .code 1 := by
  have h : ∀ fin : Fin 5 → Option Nat, mainProbe (spawned fin) = .code 1 := by
    intro fin
    simp [mainProbe, probeLoop_spawned]
  exact ⟨h _, h⟩

/-! ## `runPhilosophersTest` joins without a probe -/

/-- C8 (the code deviates): under version 1, after every philosopher has locked
its left fork and the driver has set `stopFlag`, the driver is inside
`threads[0].join()`, no philosopher and not the driver has a step, and so in
every continuation the driver is still inside that `join()`: it neither
reports nor exits. -/
theorem runPhilosophersTest_blocks_in_join :
    exec .deadlockRisk State.init (allTakeLeft ++ [Move.driver]) = some stoppedInDeadlock ∧
    stoppedInDeadlock.stopFlag = true ∧ stoppedInDeadlock.driver = .joining 0 ∧
    (∀ m, step .deadlockRisk stoppedInDeadlock m = none) ∧
    ∀ ms t, exec .deadlockRisk stoppedInDeadlock ms = some t → t.driver = .joining 0 := by
  have hcw : stoppedInDeadlock.circularWait := by
    constructor <;> decide
  have hstuck : ∀ m, step .deadlockRisk stoppedInDeadlock m = none := by
    intro m
    cases m with
    | agent i c => exact circularWait_blocked _ hcw i c
    | driver => rfl
  refine ⟨rfl, rfl, rfl, hstuck, ?_⟩
  intro ms t h
  cases ms with
  | nil =>
      simp only [exec, Option.some.injEq] at h
      rw [← h]
      rfl
  | cons m ms =>
      simp [exec, hstuck m] at h

/-! ## Meal counts -/

theorem step_meals (pol : Policy) (s t : State) (m : Move) (i : Fin 5)
    (hm : step pol s m = some t) :
    t.mealsEaten i = s.mealsEaten i + (completesEat s i m).toNat := by
  cases m with
  | driver =>
      obtain ⟨-, -, -, h, -⟩ := driverStep_frame s t hm
      simp [h, completesEat]
  | agent j c =>
      simp only [step, agentStep] at hm
      split at hm
      · simp at hm
      · cases pol <;>
          simp only [dineWithDeadlockRisk, dineWithStdLock, dineWithTimeout, dineWithSemaphore,
            dineWithOrdering, dineWithConditionVariable] at hm <;>
          split at hm <;> rename_i hpc <;>
          (try simp only [State.loopTest, State.goto, State.lockFork, State.unlockFork,
            State.eat, State.stdLock, State.tryLockFor] at hm) <;>
          (repeat' split at hm) <;>
          cases hm <;>
          by_cases hij : j = i <;>
          first
            | (subst hij; simp [completesEat, hpc])
            | simp [completesEat, hij, Function.update_noteq (Ne.symm hij)]

theorem exec_meals (pol : Policy) (i : Fin 5) (ms : List Move) :
    ∀ s t, exec pol s ms = some t →
      t.mealsEaten i = s.mealsEaten i + eatsCompleted pol i s ms := by
  induction ms with
  | nil =>
      intro s t h
      simp only [exec, Option.some.injEq] at h
      simp [eatsCompleted, h]
  | cons m ms ih =>
      intro s t h
      simp only [exec] at h
      cases hm : step pol s m with
      | none => simp [hm] at h
      | some u =>
          rw [hm] at h
          have h1 := step_meals pol s u m i hm
          have h2 := ih u t h
          simp only [eatsCompleted, hm]
          omega

theorem totalMeals_eq (s : State) :
    totalMeals s =
      s.mealsEaten 0 + s.mealsEaten 1 + s.mealsEaten 2 + s.mealsEaten 3 + s.mealsEaten 4 := by
  simp only [totalMeals, List.finRange, List.ofFn, Fin.foldr, Fin.foldr.loop, List.foldl,
    Nat.zero_add]
  rfl

/-- C9: for every version and every run from the initial state, in the state
it reaches (in particular once all threads are joined and the statistics are
printed) `mealsEaten` of each philosopher is the number of `eat()` calls that
philosopher has completed in the run, and the total computed by the statistics
loop is the sum of the five meal counts, hence the number of `eat()` calls
completed in the run. -/
theorem meal_count_conservation (pol : Policy) (ms : List Move) (t : State)
    (h : exec pol State.init ms = some t) :
    (∀ i, t.mealsEaten i = eatsCompleted pol i State.init ms) ∧
    totalMeals t =
      t.mealsEaten 0 + t.mealsEaten 1 + t.mealsEaten 2 + t.mealsEaten 3 + t.mealsEaten 4 ∧
    totalMeals t =
      eatsCompleted pol 0 State.init ms + eatsCompleted pol 1 State.init ms +
        eatsCompleted pol 2 State.init ms + eatsCompleted pol 3 State.init ms +
        eatsCompleted pol 4 State.init ms := by
  have key : ∀ i, t.mealsEaten i = eatsCompleted pol i State.init ms := by
    intro i
    have := exec_meals pol i ms State.init t h
    simpa [State.init] using this
  refine ⟨key, totalMeals_eq t, ?_⟩
  rw [totalMeals_eq, key 0, key 1, key 2, key 3, key 4]

theorem meal_count_conservation_witness :
    exec .semaphore State.init oneMealRun = some oneMealEnd ∧ oneMealEnd.driver = .returned ∧
    (∀ i, oneMealEnd.pc i = .done) ∧ oneMealEnd.mealsEaten 0 = 1 ∧ totalMeals oneMealEnd = 1 ∧
    ((∀ i, oneMealEnd.mealsEaten i = eatsCompleted .semaphore i State.init oneMealRun) ∧
      totalMeals oneMealEnd =
        oneMealEnd.mealsEaten 0 + oneMealEnd.mealsEaten 1 + oneMealEnd.mealsEaten 2 +
          oneMealEnd.mealsEaten 3 + oneMealEnd.mealsEaten 4 ∧
      totalMeals oneMealEnd =
        eatsCompleted .semaphore 0 State.init oneMealRun +
          eatsCompleted .semaphore 1 State.init oneMealRun +
          eatsCompleted .semaphore 2 State.init oneMealRun +
          eatsCompleted .semaphore 3 State.init oneMealRun +
          eatsCompleted .semaphore 4 State.init oneMealRun) :=
  ⟨rfl, by decide, by decide, by decide, by decide,
    meal_count_conservation .semaphore oneMealRun oneMealEnd rfl⟩

end Philosophers

namespace Primitives

/-! ## `primitives.cpp`: the buffer holds one element per iteration -/

theorem sum8_except (f g : Fin 8 → Nat) (w : Fin 8) (h : ∀ v, v ≠ w → f v = g v) :
    sum8 f + g w = sum8 g + f w := by
  have h0 := h 0
  have h1 := h 1
  have h2 := h 2
  have h3 := h 3
  have h4 := h 4
  have h5 := h 5
  have h6 := h 6
  have h7 := h 7
  unfold sum8
  fin_cases w <;> simp at * <;> omega

theorem sum8_update (f : Loc → Nat) (pc : Fin 8 → Loc) (w : Fin 8) (p : Loc) :
    sum8 (fun v => f (Function.update pc w p v)) + f (pc w) = sum8 (fun v => f (pc v)) + f p := by
  have := sum8_except (fun v => f (Function.update pc w p v)) (fun v => f (pc v)) w
    (fun v hv => by simp [Function.update_noteq hv])
  simpa using this

theorem le_sum8 (f : Fin 8 → Nat) (w : Fin 8) : f w ≤ sum8 f := by
  unfold sum8
  fin_cases w <;> simp <;> omega

theorem sum8_le_one_unique (f : Fin 8 → Nat) (h : sum8 f ≤ 1) (v w : Fin 8)
    (hv : f v = 1) (hw : f w = 1) : v = w := by
  by_contra hne
  have := sum8_except f (Function.update f v 0) v (fun u hu => by simp [Function.update_noteq hu])
  have h2 := le_sum8 (Function.update f v 0) w
  rw [Function.update_noteq (Ne.symm hne)] at h2
  simp at this
  omega

theorem exclusive_update (pc : Fin 8 → Loc) (w : Fin 8) (p : Loc) :
    sum8 (fun v => (Function.update pc w p v).exclusive.toNat) =
      sum8 (fun v => (pc v).exclusive.toNat) + p.exclusive.toNat - (pc w).exclusive.toNat := by
  have := sum8_update (fun l => l.exclusive.toNat) pc w p
  simp only at this
  omega

theorem ok_init (func : Worker) (iters : Nat) : Bench.init.ok func iters := by
  constructor <;> cases func <;>
    simp [Bench.init, Bench.free, sum8, Loc.exclusive, Bench.appended, Loc.afterPush, Loc.holdsMtx]

theorem ok_step_excl (func : Worker) (iters : Nat) (s t : Bench) (w : Fin 8)
    (h : s.ok func iters) (hm : workerStep func iters s w = some t) :
    t.free func + sum8 (fun v => (t.pc v).exclusive.toNat) = 1 := by
  have hex := h.excl
  have hle := le_sum8 (fun v => (s.pc v).exclusive.toNat) w
  have htake := h.take w
  simp only [workerStep] at hm
  cases func <;>
    simp only [mutex_worker, semaphore_worker, spinlock_worker, spinwait_worker, monitor_worker,
      barrier_worker] at hm <;>
    split at hm <;> rename_i hpc <;>
    (try simp only [Bench.loopTest, Bench.goto, Bench.nextIter, Bench.pushRead,
      Bench.pushWrite] at hm) <;>
    (repeat' split at hm) <;>
    cases hm <;>
    (try simp only [hpc] at hle htake) <;>
    (try simp only [Bench.free] at hex ⊢) <;>
    (try simp only [exclusive_update, hpc]) <;>
    generalize sum8 (fun v => (s.pc v).exclusive.toNat) = n at * <;>
    simp [Loc.exclusive] at * <;>
    (try split at hex) <;>
    (try simp_all) <;>
    (try omega)

theorem exclusive_unique (func : Worker) (iters : Nat) (s : Bench) (h : s.ok func iters)
    (v w : Fin 8) (hv : (s.pc v).exclusive = true) (hw : (s.pc w).exclusive = true) : v = w := by
  apply sum8_le_one_unique (fun u => (s.pc u).exclusive.toNat) _ v w
  · simp [hv]
  · simp [hw]
  · have := h.excl
    omega

theorem ok_step_pos (func : Worker) (iters : Nat) (s t : Bench) (w : Fin 8)
    (h : s.ok func iters) (hm : workerStep func iters s w = some t) :
    ∀ v, t.pc v = .pushWrite → t.pos v = t.bufferSize := by
  have hpos := h.pos
  have huniq := exclusive_unique func iters s h
  simp only [workerStep] at hm
  cases func <;>
    simp only [mutex_worker, semaphore_worker, spinlock_worker, spinwait_worker, monitor_worker,
      barrier_worker] at hm <;>
    split at hm <;> rename_i hpc <;>
    (try simp only [Bench.loopTest, Bench.goto, Bench.nextIter, Bench.pushRead,
      Bench.pushWrite] at hm) <;>
    (repeat' split at hm) <;>
    cases hm <;>
    intro v hv <;>
    by_cases hvw : v = w
  all_goals first
    | exact hpos v hv
    | (subst hvw
       simp_all)
    | (simp only [Function.update_noteq hvw] at hv ⊢
       first
         | exact hpos v hv
         | exact absurd (huniq v w (by rw [hv]; rfl) (by rw [hpc]; rfl)) hvw)

theorem size_frame (s t : Bench) (w : Fin 8)
    (hother : ∀ v, v ≠ w → t.appended v = s.appended v)
    (hw : t.bufferSize + s.appended w = s.bufferSize + t.appended w)
    (hs : s.bufferSize = sum8 (fun v => s.appended v)) :
    t.bufferSize = sum8 (fun v => t.appended v) := by
  have := sum8_except (fun v => t.appended v) (fun v => s.appended v) w hother
  simp only at this
  omega

theorem ok_step_size (func : Worker) (iters : Nat) (s t : Bench) (w : Fin 8)
    (h : s.ok func iters) (hm : workerStep func iters s w = some t) :
    t.bufferSize = sum8 (fun v => t.appended v) := by
  have hpos := h.pos w
  have hsize := h.size
  simp only [workerStep] at hm
  cases func <;>
    simp only [mutex_worker, semaphore_worker, spinlock_worker, spinwait_worker, monitor_worker,
      barrier_worker] at hm <;>
    split at hm <;> rename_i hpc <;>
    (try simp only [Bench.loopTest, Bench.goto, Bench.nextIter, Bench.pushRead,
      Bench.pushWrite] at hm) <;>
    (repeat' split at hm) <;>
    cases hm <;>
    first
      | exact hsize
      | (apply size_frame s _ w _ _ hsize
         · intro v hv
           simp [Bench.appended, Function.update_noteq hv]
         · simp [Bench.appended, hpc, Loc.afterPush] at hpos ⊢
           try omega)

theorem ok_step_iter (func : Worker) (iters : Nat) (s t : Bench) (w : Fin 8)
    (h : s.ok func iters) (hm : workerStep func iters s w = some t) :
    ∀ v, (t.pc v = .loopTest → t.i v ≤ iters) ∧ (t.pc v = .done → t.i v = iters) ∧
      (t.pc v ≠ .loopTest → t.pc v ≠ .done → t.i v < iters) := by
  have hiter := h.iter
  have hw := h.iter w
  simp only [workerStep] at hm
  cases func <;>
    simp only [mutex_worker, semaphore_worker, spinlock_worker, spinwait_worker, monitor_worker,
      barrier_worker] at hm <;>
    split at hm <;> rename_i hpc <;>
    (try simp only [Bench.loopTest, Bench.goto, Bench.nextIter, Bench.pushRead,
      Bench.pushWrite] at hm) <;>
    (repeat' split at hm) <;>
    cases hm <;>
    intro v <;>
    by_cases hvw : v = w
  all_goals first
    | exact hiter v
    | (subst hvw
       simp [hpc] at hw ⊢
       try omega)
    | (simp only [Function.update_noteq hvw]
       exact hiter v)

theorem ok_step_mtx (func : Worker) (iters : Nat) (s t : Bench) (w : Fin 8)
    (h : s.ok func iters) (hm : workerStep func iters s w = some t) :
    (∀ v, (t.pc v).holdsMtx = true → t.monitor_mtx = some v) ∧
    (∀ v, t.pc v = .monTake → t.resource_free = true) := by
  have hmtx := h.mtx
  have htake := h.take
  have hw := h.mtx w
  simp only [workerStep] at hm
  cases func <;>
    simp only [mutex_worker, semaphore_worker, spinlock_worker, spinwait_worker, monitor_worker,
      barrier_worker] at hm <;>
    split at hm <;> rename_i hpc <;>
    (try simp only [Bench.loopTest, Bench.goto, Bench.nextIter, Bench.pushRead,
      Bench.pushWrite] at hm) <;>
    (try rw [hpc] at hw) <;>
    (repeat' split at hm) <;>
    cases hm <;>
    constructor <;>
    intro v hv <;>
    by_cases hvw : v = w
  all_goals first
    | exact hmtx v hv
    | exact htake v hv
    | (subst hvw
       simp_all [Loc.holdsMtx])
    | (simp only [Function.update_noteq hvw] at hv
       first
         | exact hmtx v hv
         | exact htake v hv
         | (have h1 := hmtx v hv
            simp_all [Loc.holdsMtx])
         | (have h1 := hmtx v (by rw [hv]; rfl)
            have h2 := htake v hv
            simp_all [Loc.holdsMtx]))

theorem ok_step (func : Worker) (iters : Nat) (s t : Bench) (w : Fin 8)
    (h : s.ok func iters) (hm : workerStep func iters s w = some t) : t.ok func iters where
  excl := ok_step_excl func iters s t w h hm
  pos := ok_step_pos func iters s t w h hm
  size := ok_step_size func iters s t w h hm
  iter := ok_step_iter func iters s t w h hm
  mtx := (ok_step_mtx func iters s t w h hm).1
  take := (ok_step_mtx func iters s t w h hm).2

theorem reachable_ok (func : Worker) (iters : Nat) (s : Bench)
    (hs : Reached func iters s) : s.ok func iters := by
  induction hs with
  | init => exact ok_init func iters
  | step w _ hst ih => exact ok_step func iters _ _ w ih hst

theorem reachable_of_run (func : Worker) (iters : Nat) (ws : List (Fin 8)) :
    ∀ s t, Reached func iters s → runSchedule func iters s ws = some t → Reached func iters t := by
  induction ws with
  | nil =>
      intro s t hs h
      simp only [runSchedule, Option.some.injEq] at h
      exact h ▸ hs
  | cons w ws ih =>
      intro s t hs h
      simp only [runSchedule] at h
      cases hm : workerStep func iters s w with
      | none => simp [hm] at h
      | some u =>
          rw [hm] at h
          exact ih u t (Reached.step w hs hm) h

theorem runSchedule_append (func : Worker) (n : Nat) (a b : List (Fin 8)) :
    ∀ s, runSchedule func n s (a ++ b) =
      (runSchedule func n s a).bind (fun t => runSchedule func n t b) := by
  induction a with
  | nil => intro s; simp [runSchedule]
  | cons w a ih =>
      intro s
      simp only [List.cons_append, runSchedule]
      cases workerStep func n s w with
      | none => simp
      | some u => simp [ih u]

theorem solo_iteration (func : Worker) (hf : func ≠ .barrier) (n : Nat) (s : Bench) (w : Fin 8)
    (hidle : s.idle) (hpc : s.pc w = .loopTest) (hi : s.i w < n) :
    ∃ t, runSchedule func n s (List.replicate func.bodySteps w) = some t ∧ t.idle ∧
      (∀ v, t.pc v = s.pc v) ∧ (∀ v, t.i v = if v = w then s.i w + 1 else s.i v) := by
  obtain ⟨h1, h2, h3, h4, h5, h6, h7⟩ := hidle
  cases func
  case barrier => exact absurd rfl hf
  all_goals
    refine ⟨_, by
      simp [Worker.bodySteps, List.replicate, runSchedule, workerStep, mutex_worker,
        semaphore_worker, spinlock_worker, spinwait_worker, monitor_worker, Bench.loopTest,
        Bench.goto, Bench.pushRead, Bench.pushWrite, Bench.nextIter, hpc, hi, h1, h2, h3, h4, h5,
        h6, h7]
      rfl, ?_, ?_, ?_⟩
  all_goals first
    | exact ⟨h1, h2, h3, h4, h5, h6, h7⟩
    | (simp only [Bench.idle, h1, h2, h3, h4, h5, h6, h7]
       simp)
    | (intro v
       by_cases hv : v = w
       · subst hv
         simp [hpc]
       · simp [Function.update_noteq hv, hv])

theorem leave_loop (func : Worker) (n : Nat) (s : Bench) (w : Fin 8)
    (hpc : s.pc w = .loopTest) (hi : s.i w = n) :
    workerStep func n s w = some (s.goto w .done) := by
  cases func <;>
    simp [workerStep, mutex_worker, semaphore_worker, spinlock_worker, spinwait_worker,
      monitor_worker, barrier_worker, Bench.loopTest, hpc, hi]

theorem solo_run (func : Worker) (hf : func ≠ .barrier) (n : Nat) (w : Fin 8) :
    ∀ (m : Nat) (s : Bench), s.idle → s.pc w = .loopTest → s.i w + m = n →
      ∃ ws t, runSchedule func n s ws = some t ∧ t.idle ∧ t.pc w = .done ∧
        ∀ v, v ≠ w → t.pc v = s.pc v ∧ t.i v = s.i v := by
  intro m
  induction m with
  | zero =>
      intro s hidle hpc hi
      refine ⟨[w], s.goto w .done, ?_, hidle, ?_, ?_⟩
      · simp [runSchedule, leave_loop func n s w hpc (by omega)]
      · simp [Bench.goto]
      · intro v hv
        simp [Bench.goto, Function.update_noteq hv]
  | succ m ih =>
      intro s hidle hpc hi
      obtain ⟨t, hrun, htidle, htpc, hti⟩ :=
        solo_iteration func hf n s w hidle hpc (by omega)
      obtain ⟨ws, u, hrun2, huidle, hupc, hothers⟩ :=
        ih t htidle (by rw [htpc, hpc]) (by rw [hti]; simp; omega)
      refine ⟨List.replicate func.bodySteps w ++ ws, u, ?_, huidle, hupc, ?_⟩
      · rw [runSchedule_append, hrun]
        exact hrun2
      · intro v hv
        obtain ⟨a, b⟩ := hothers v hv
        rw [a, b, htpc, hti]
        simp [hv]

theorem solo_all (func : Worker) (hf : func ≠ .barrier) (n : Nat) :
    ∀ (L : List (Fin 8)) (s : Bench), L.Nodup → s.idle →
      (∀ w, w ∈ L → s.pc w = .loopTest ∧ s.i w ≤ n) →
      ∃ ws t, runSchedule func n s ws = some t ∧ t.idle ∧ (∀ w, w ∈ L → t.pc w = .done) ∧
        ∀ v, v ∉ L → t.pc v = s.pc v := by
  intro L
  induction L with
  | nil =>
      intro s _ hidle _
      exact ⟨[], s, rfl, hidle, by simp, fun _ _ => rfl⟩
  | cons w L ih =>
      intro s hnd hidle hL
      obtain ⟨hw, hnd2⟩ := List.nodup_cons.mp hnd
      obtain ⟨hpc, hi⟩ := hL w (List.mem_cons_self _ _)
      obtain ⟨ws, t, hrun, htidle, htpc, hothers⟩ :=
        solo_run func hf n w (n - s.i w) s hidle hpc (by omega)
      have hne : ∀ v, v ∈ L → v ≠ w := fun v hv hvw => hw (hvw ▸ hv)
      obtain ⟨ws2, u, hrun2, huidle, hdone, hrest⟩ := ih t hnd2 htidle (by
        intro v hv
        obtain ⟨a, b⟩ := hothers v (hne v hv)
        rw [a, b]
        exact hL v (List.mem_cons_of_mem _ hv))
      refine ⟨ws ++ ws2, u, ?_, huidle, ?_, ?_⟩
      · rw [runSchedule_append, hrun]
        exact hrun2
      · intro v hv
        rcases List.mem_cons.mp hv with rfl | hv
        · rw [hrest _ hw, htpc]
        · exact hdone v hv
      · intro v hv
        have h1 : v ≠ w := fun h => hv (h ▸ List.mem_cons_self _ _)
        have h2 : v ∉ L := fun h => hv (List.mem_cons_of_mem _ h)
        rw [hrest v h2, (hothers v h1).1]

theorem idle_init : Bench.init.idle := by
  simp [Bench.idle, Bench.init]

theorem returning_run_solo (func : Worker) (hf : func ≠ .barrier) (n : Nat) :
    ∃ ws t, runSchedule func n Bench.init ws = some t ∧ t.joined := by
  obtain ⟨ws, t, hrun, -, hdone, -⟩ :=
    solo_all func hf n (List.finRange 8) Bench.init (List.nodup_finRange 8) idle_init
      (fun w _ => ⟨rfl, Nat.zero_le _⟩)
  exact ⟨ws, t, hrun, fun w => hdone w (List.mem_finRange w)⟩


theorem barrier_arrive (n : Nat) (s : Bench) (w : Fin 8) (hidle : s.idle)
    (hpc : s.pc w = .loopTest) (hi : s.i w < n) (ha : s.arrived + 1 ≠ THREAD_COUNT) :
    ∃ t, runSchedule .barrier n s (List.replicate 6 w) = some t ∧ t.idle ∧
      t.arrived = s.arrived + 1 ∧ t.phase = s.phase ∧ t.i = s.i ∧
      t.pc = Function.update s.pc w .barWait ∧
      t.arrivedIn = Function.update s.arrivedIn w s.phase := by
  obtain ⟨h1, h2, h3, h4, h5, h6, h7⟩ := hidle
  refine ⟨_, by
    simp [List.replicate, runSchedule, workerStep, barrier_worker, Bench.loopTest,
      Bench.goto, Bench.pushRead, Bench.pushWrite, Bench.nextIter, hpc, hi, h7, ha]
    rfl, ?_, ?_, ?_, ?_, ?_, ?_⟩
  · exact ⟨h1, h2, h3, h4, h5, h6, rfl⟩
  · rfl
  · rfl
  · rfl
  · simp
  · rfl

theorem barrier_arrive_last (n : Nat) (s : Bench) (w : Fin 8) (hidle : s.idle)
    (hpc : s.pc w = .loopTest) (hi : s.i w < n) (ha : s.arrived + 1 = THREAD_COUNT) :
    ∃ t, runSchedule .barrier n s (List.replicate 6 w) = some t ∧ t.idle ∧
      t.arrived = 0 ∧ t.phase = s.phase + 1 ∧ t.i = Function.update s.i w (s.i w + 1) ∧
      t.pc = s.pc ∧ t.arrivedIn = s.arrivedIn := by
  obtain ⟨h1, h2, h3, h4, h5, h6, h7⟩ := hidle
  refine ⟨_, by
    simp [List.replicate, runSchedule, workerStep, barrier_worker, Bench.loopTest,
      Bench.goto, Bench.pushRead, Bench.pushWrite, Bench.nextIter, hpc, hi, h7, ha]
    rfl, ?_, ?_, ?_, ?_, ?_, ?_⟩
  · exact ⟨h1, h2, h3, h4, h5, h6, rfl⟩
  · rfl
  · rfl
  · rfl
  · simp [← hpc]
  · rfl

theorem arrivals (n k p : Nat) (hk : k < n) :
    ∀ (j : Nat), j ≤ 7 → ∀ s, s.arriving k p 0 →
      ∃ ws t, runSchedule .barrier n s ws = some t ∧ t.arriving k p j := by
  intro j
  induction j with
  | zero => exact fun _ s hs => ⟨[], s, rfl, hs⟩
  | succ j ih =>
      intro hj s hs
      have hj8 : j < 8 := by omega
      obtain ⟨ws, t, hrun, hidle, harr, hph, hall⟩ := ih (by omega) s hs
      have hw := hall ⟨j, hj8⟩
      obtain ⟨u, hrun2, huidle, huarr, huph, hui, hupc, huin⟩ :=
        barrier_arrive n t ⟨j, hj8⟩ hidle (hw.2.2 (le_refl _)) (by rw [hw.1]; exact hk)
          (by rw [harr]; simp only [THREAD_COUNT]; omega)
      refine ⟨ws ++ List.replicate 6 ⟨j, hj8⟩, u, ?_, huidle, by rw [huarr, harr],
        by rw [huph, hph], ?_⟩
      · rw [runSchedule_append, hrun]
        exact hrun2
      · intro v
        have hv := hall v
        rw [hui, hupc, huin]
        by_cases hvj : v = ⟨j, hj8⟩
        · rw [hvj, Function.update_same, Function.update_same]
          exact ⟨hw.1, fun _ => ⟨rfl, hph⟩, fun h => absurd h (by simp)⟩
        · have hne : v.val ≠ j := fun h => hvj (Fin.ext h)
          rw [Function.update_noteq hvj, Function.update_noteq hvj]
          exact ⟨hv.1, fun h => hv.2.1 (by omega), fun h => hv.2.2 (by omega)⟩

theorem barrier_release (n : Nat) (s : Bench) (w : Fin 8) (hpc : s.pc w = .barWait)
    (hph : s.phase ≠ s.arrivedIn w) :
    workerStep .barrier n s w = some (s.nextIter w) := by
  simp [workerStep, barrier_worker, hpc, hph]

theorem departures (n k p : Nat) :
    ∀ (j : Nat), j ≤ 7 → ∀ s, s.leaving k p 0 →
      ∃ ws t, runSchedule .barrier n s ws = some t ∧ t.leaving k p j := by
  intro j
  induction j with
  | zero => exact fun _ s hs => ⟨[], s, rfl, hs⟩
  | succ j ih =>
      intro hj s hs
      have hj8 : j < 8 := by omega
      have hj7 : j < 7 := by omega
      obtain ⟨ws, t, hrun, hidle, harr, hph, hall⟩ := ih (by omega) s hs
      have hw := (hall ⟨j, hj8⟩).2 (le_refl _) hj7
      have hstep := barrier_release n t ⟨j, hj8⟩ hw.1 (by rw [hph, hw.2.1]; omega)
      refine ⟨ws ++ [⟨j, hj8⟩], t.nextIter ⟨j, hj8⟩, ?_, hidle, harr, hph, ?_⟩
      · rw [runSchedule_append, hrun]
        simp [runSchedule, hstep]
      · intro v
        have hv := hall v
        by_cases hvj : v = ⟨j, hj8⟩
        · rw [hvj]
          simp only [Bench.nextIter, Function.update_same]
          exact ⟨fun _ => ⟨trivial, by rw [hw.2.2]⟩, fun h => absurd h (by simp)⟩
        · have hne : v.val ≠ j := fun h => hvj (Fin.ext h)
          simp only [Bench.nextIter, Function.update_noteq hvj]
          exact ⟨fun h => hv.1 (by omega), fun h1 h2 => hv.2 (by omega) h2⟩

theorem barrier_round (n k p : Nat) (hk : k < n) (s : Bench) (hs : s.arriving k p 0) :
    ∃ ws t, runSchedule .barrier n s ws = some t ∧ t.arriving (k + 1) (p + 1) 0 := by
  obtain ⟨ws, t, hrun, hidle, harr, hph, hall⟩ := arrivals n k p hk 7 (le_refl _) s hs
  have h7 := hall 7
  obtain ⟨u, hrun2, huidle, huarr, huph, hui, hupc, huin⟩ :=
    barrier_arrive_last n t 7 hidle (h7.2.2 (by decide)) (by rw [h7.1]; exact hk)
      (by rw [harr]; rfl)
  have hleave : u.leaving k p 0 := by
    refine ⟨huidle, huarr, by rw [huph, hph], ?_⟩
    intro v
    have hv := hall v
    rw [hui, hupc, huin]
    by_cases hv7 : v = 7
    · rw [hv7, Function.update_same, h7.1]
      exact ⟨fun _ => ⟨h7.2.2 (by decide), rfl⟩, fun _ h => absurd h (by decide)⟩
    · have hne : v.val ≠ 7 := fun h => hv7 (Fin.ext h)
      have hlt : v.val < 7 := by omega
      rw [Function.update_noteq hv7]
      exact ⟨fun h => by omega, fun _ _ => ⟨(hv.2.1 hlt).1, (hv.2.1 hlt).2, hv.1⟩⟩
  obtain ⟨ws3, x, hrun3, hxidle, hxarr, hxph, hxall⟩ := departures n k p 7 (le_refl _) u hleave
  refine ⟨ws ++ (List.replicate 6 7 ++ ws3), x, ?_, hxidle, hxarr, hxph, ?_⟩
  · rw [runSchedule_append, hrun]
    simp only [Option.some_bind]
    rw [runSchedule_append, hrun2]
    exact hrun3
  · intro v
    have hv := (hxall v).1 (by omega)
    exact ⟨hv.2, fun h => by omega, fun _ => hv.1⟩

theorem barrier_rounds (n : Nat) :
    ∀ (m k p : Nat) (s : Bench), k + m = n → s.arriving k p 0 →
      ∃ ws t, runSchedule .barrier n s ws = some t ∧ t.arriving n (p + m) 0 := by
  intro m
  induction m with
  | zero =>
      intro k p s hk hs
      have : k = n := by omega
      subst this
      exact ⟨[], s, rfl, hs⟩
  | succ m ih =>
      intro k p s hk hs
      obtain ⟨ws, t, hrun, ht⟩ := barrier_round n k p (by omega) s hs
      obtain ⟨ws2, u, hrun2, hu⟩ := ih (k + 1) (p + 1) t (by omega) ht
      refine ⟨ws ++ ws2, u, ?_, ?_⟩
      · rw [runSchedule_append, hrun]
        exact hrun2
      · have : p + 1 + m = p + (m + 1) := by omega
        rw [← this]
        exact hu

theorem leave_all (func : Worker) (n : Nat) :
    ∀ (L : List (Fin 8)) (s : Bench), L.Nodup →
      (∀ w, w ∈ L → s.pc w = .loopTest ∧ s.i w = n) →
      ∃ ws t, runSchedule func n s ws = some t ∧ (∀ w, w ∈ L → t.pc w = .done) ∧
        ∀ v, v ∉ L → t.pc v = s.pc v := by
  intro L
  induction L with
  | nil =>
      intro s _ _
      exact ⟨[], s, rfl, by simp, fun _ _ => rfl⟩
  | cons w L ih =>
      intro s hnd hL
      obtain ⟨hw, hnd2⟩ := List.nodup_cons.mp hnd
      obtain ⟨hpc, hi⟩ := hL w (List.mem_cons_self _ _)
      have hne : ∀ v, v ∈ L → v ≠ w := fun v hv hvw => hw (hvw ▸ hv)
      obtain ⟨ws2, u, hrun2, hdone, hrest⟩ := ih (s.goto w .done) hnd2 (by
        intro v hv
        simp only [Bench.goto, Function.update_noteq (hne v hv)]
        exact hL v (List.mem_cons_of_mem _ hv))
      refine ⟨w :: ws2, u, ?_, ?_, ?_⟩
      · simp [runSchedule, leave_loop func n s w hpc hi, hrun2]
      · intro v hv
        rcases List.mem_cons.mp hv with rfl | hv
        · rw [hrest _ hw]
          simp [Bench.goto]
        · exact hdone v hv
      · intro v hv
        have h1 : v ≠ w := fun h => hv (h ▸ List.mem_cons_self _ _)
        have h2 : v ∉ L := fun h => hv (List.mem_cons_of_mem _ h)
        rw [hrest v h2]
        simp [Bench.goto, Function.update_noteq h1]

theorem returning_run_barrier (n : Nat) :
    ∃ ws t, runSchedule .barrier n Bench.init ws = some t ∧ t.joined := by
  have h0 : Bench.init.arriving 0 0 0 :=
    ⟨idle_init, rfl, rfl, fun w => ⟨rfl, fun h => absurd h (Nat.not_lt_zero _), fun _ => rfl⟩⟩
  obtain ⟨ws, t, hrun, -, -, -, hall⟩ := barrier_rounds n n 0 0 Bench.init (by omega) h0
  obtain ⟨ws2, u, hrun2, hdone, -⟩ :=
    leave_all .barrier n (List.finRange 8) t (List.nodup_finRange 8)
      (fun w _ => ⟨(hall w).2.2 (Nat.zero_le _), (hall w).1⟩)
  refine ⟨ws ++ ws2, u, ?_, fun w => hdone w (List.mem_finRange w)⟩
  rw [runSchedule_append, hrun]
  exact hrun2

/-- For each of the six workers and every iteration count there is a run of
`run_and_measure` in which all eight workers return. -/
theorem returning_run_exists (func : Worker) (n : Nat) :
    ∃ ws t, runSchedule func n Bench.init ws = some t ∧ t.joined := by
  by_cases hf : func = .barrier
  · subst hf
    exact returning_run_barrier n
  · exact returning_run_solo func hf n

end Primitives
namespace Philosophers

/-! ## The ring wiring -/

theorem rightIndex_eq (N i : Nat) (hi : i < N) :
    rightIndex N i = if i + 1 = N then 0 else i + 1 := by
  unfold rightIndex
  split
  · rename_i h
    rw [h, Nat.mod_self]
  · exact Nat.mod_eq_of_lt (by omega)

theorem ringPred_eq (N f : Nat) (hf : f < N) :
    ringPred N f = if f = 0 then N - 1 else f - 1 := by
  unfold ringPred
  split
  · rename_i h
    subst h
    rw [Nat.zero_add]
    exact Nat.mod_eq_of_lt (by omega)
  · have : f + N - 1 = (f - 1) + N := by omega
    rw [this, Nat.add_mod_right]
    exact Nat.mod_eq_of_lt (by omega)

/-- C12: for every ring size `N ≥ 2` the wiring loop gives philosopher `i` the
left fork `forks[i]` and the right fork `forks[(i + 1) % N]`; a fork `f` is the
left fork of philosopher `f` only and the right fork of the philosopher before
`f` in the ring only; these two are different philosophers, the second has the
first as its right neighbour, and they are the only philosophers that use `f`;
and the left and the right fork of a philosopher differ. For `N = 5` these are
`leftFork` and `rightFork`. -/
theorem ring_wiring (N : Nat) (hN : 2 ≤ N) :
    (wiring N).length = N ∧
    (∀ i, i < N → (wiring N)[i]? = some (i, i, (i + 1) % N)) ∧
    (∀ f, f < N →
      (∀ i, i < N → (leftIndex N i = f ↔ i = f)) ∧
      (∀ i, i < N → (rightIndex N i = f ↔ i = ringPred N f)) ∧
      ringPred N f < N ∧ ringPred N f ≠ f ∧ rightIndex N (ringPred N f) = f ∧
      (∀ i, i < N → (leftIndex N i = f ∨ rightIndex N i = f ↔ i = f ∨ i = ringPred N f))) ∧
    (∀ i, i < N → rightIndex N i < N ∧ leftIndex N i ≠ rightIndex N i) ∧
    (N = NUM_PHILOSOPHERS → ∀ i : Fin 5, (leftFork i).val = leftIndex N i.val ∧
      (rightFork i).val = rightIndex N i.val) := by
  have hright : ∀ f i, f < N → i < N → (rightIndex N i = f ↔ i = ringPred N f) := by
    intro f i hf hi
    rw [rightIndex_eq N i hi, ringPred_eq N f hf]
    split <;> split <;> omega
  have hpred : ∀ f, f < N → ringPred N f < N ∧ ringPred N f ≠ f := by
    intro f hf
    rw [ringPred_eq N f hf]
    split <;> omega
  refine ⟨by simp [wiring], ?_, ?_, ?_, ?_⟩
  · intro i hi
    simp [wiring, hi, leftIndex, rightIndex]
  · intro f hf
    refine ⟨fun i _ => Iff.rfl, fun i hi => hright f i hf hi, (hpred f hf).1, (hpred f hf).2,
      (hright f _ hf (hpred f hf).1).mpr rfl, ?_⟩
    intro i hi
    rw [hright f i hf hi]
    rfl
  · intro i hi
    rw [rightIndex_eq N i hi]
    unfold leftIndex
    split <;> omega
  · intro hN5 i
    subst hN5
    exact ⟨rfl, rfl⟩

theorem ring_wiring_witness :
    2 ≤ 5 ∧
    ((wiring 5).length = 5 ∧
    (∀ i, i < 5 → (wiring 5)[i]? = some (i, i, (i + 1) % 5)) ∧
    (∀ f, f < 5 →
      (∀ i, i < 5 → (leftIndex 5 i = f ↔ i = f)) ∧
      (∀ i, i < 5 → (rightIndex 5 i = f ↔ i = ringPred 5 f)) ∧
      ringPred 5 f < 5 ∧ ringPred 5 f ≠ f ∧ rightIndex 5 (ringPred 5 f) = f ∧
      (∀ i, i < 5 → (leftIndex 5 i = f ∨ rightIndex 5 i = f ↔ i = f ∨ i = ringPred 5 f))) ∧
    (∀ i, i < 5 → rightIndex 5 i < 5 ∧ leftIndex 5 i ≠ rightIndex 5 i) ∧
    (5 = NUM_PHILOSOPHERS → ∀ i : Fin 5, (leftFork i).val = leftIndex 5 i.val ∧
      (rightFork i).val = rightIndex 5 i.val)) :=
  ⟨by decide, ring_wiring 5 (by decide)⟩

end Philosophers
namespace Recruits

/-! ## Recruit filtering -/

theorem fitLoop_iff (records : List (String × String)) :
    fitLoop records = true ↔ ∃ record, record ∈ records ∧ record.2 = "A" := by
  induction records with
  | nil => simp [fitLoop]
  | cons record rest ih =>
    unfold fitLoop
    by_cases h : record.2 = "A"
    · simp only [h, if_true, true_iff]
      exact ⟨record, List.mem_cons_self _ _, h⟩
    · simp only [h, if_false, ih, List.mem_cons]
      constructor
      · rintro ⟨x, hx, hA⟩
        exact ⟨x, Or.inr hx, hA⟩
      · rintro ⟨x, hx | hx, hA⟩
        · exact absurd (hx ▸ hA) h
        · exact ⟨x, hx, hA⟩

/-- C18: `isFitForService` returns true exactly when some doctor record of
the recruit has the category `"A"`, and it returns false for a recruit without
doctor records. -/
theorem isFitForService_iff :
    (∀ r : Recruit,
      r.isFitForService = true ↔ ∃ record, record ∈ r.doctorRecords ∧ record.2 = "A") ∧
    (∀ name birthDate : String, Recruit.isFitForService ⟨name, birthDate, []⟩ = false) :=
  ⟨fun r => fitLoop_iff r.doctorRecords, fun _ _ => rfl⟩

end Recruits
namespace Recruits

/-! ## Chunked filtering against the single loop -/

theorem singleLoop_eq (recruits suitable : List Recruit) :
    singleLoop suitable recruits = suitable ++ fitRecruits recruits := by
  induction recruits generalizing suitable with
  | nil => simp [singleLoop, fitRecruits]
  | cons r rest ih =>
    unfold singleLoop
    by_cases h : r.isFitForService = true
    · simp [h, ih, fitRecruits]
    · simp [h, ih, fitRecruits]

theorem filterRecruitsSingleThread_eq (recruits : List Recruit) :
    filterRecruitsSingleThread recruits = fitRecruits recruits := by
  simp [filterRecruitsSingleThread, singleLoop_eq]

/-- The slice of `l` with the indices from `start` up to `stop`. -/
theorem slice_step (l : List Recruit) (i stop : Nat) (hi : i < stop) (hl : i < l.length) :
    (l.drop i).take (stop - i) = l[i] :: (l.drop (i + 1)).take (stop - (i + 1)) := by
  have h1 : stop - i = (stop - (i + 1)) + 1 := by omega
  rw [h1, List.drop_eq_getElem_cons hl, List.take_succ_cons]

theorem rangeLoop_eq (all : List Recruit) (stop fuel : Nat) :
    ∀ (i : Nat) (acc : List Recruit), stop - i ≤ fuel →
      rangeLoop all stop fuel i acc = acc ++ fitRecruits ((all.drop i).take (stop - i)) := by
  induction fuel with
  | zero =>
    intro i acc h
    have h0 : stop - i = 0 := by omega
    simp [rangeLoop, h0, fitRecruits]
  | succ fuel ih =>
    intro i acc h
    unfold rangeLoop
    by_cases hc : i < stop ∧ i < all.length
    · rw [if_pos hc, List.getElem?_eq_getElem hc.2]
      simp only []
      rw [ih (i + 1) _ (by omega), slice_step all i stop hc.1 hc.2]
      by_cases hf : (all[i]).isFitForService = true
      · simp [hf, fitRecruits]
      · simp [hf, fitRecruits]
    · rw [if_neg hc]
      by_cases h1 : i < stop
      · have h2 : all.length ≤ i := by
          by_contra h3
          exact hc ⟨h1, by omega⟩
        simp [List.drop_eq_nil_of_le h2, fitRecruits]
      · have h0 : stop - i = 0 := by omega
        simp [h0, fitRecruits]

theorem threadLoop_eq (all : List Recruit) (stop fuel : Nat) :
    ∀ (i : Nat) (acc : List Recruit), stop - i ≤ fuel →
      threadLoop all stop fuel i acc = acc ++ fitRecruits ((all.drop i).take (stop - i)) := by
  induction fuel with
  | zero =>
    intro i acc h
    have h0 : stop - i = 0 := by omega
    simp [threadLoop, h0, fitRecruits]
  | succ fuel ih =>
    intro i acc h
    unfold threadLoop
    by_cases hc : i < stop
    · rw [if_pos hc]
      by_cases hl : i < all.length
      · rw [List.getElem?_eq_getElem hl]
        simp only []
        rw [ih (i + 1) _ (by omega), slice_step all i stop hc hl]
        by_cases hf : (all[i]).isFitForService = true
        · simp [hf, fitRecruits]
        · simp [hf, fitRecruits]
      · have h2 : all.length ≤ i := by omega
        rw [List.getElem?_eq_none h2]
        simp [List.drop_eq_nil_of_le h2, fitRecruits]
    · rw [if_neg hc]
      have h0 : stop - i = 0 := by omega
      simp [h0, fitRecruits]

theorem foldl_gather (f : Nat → List Recruit) (order : List Nat) (init : List Recruit) :
    order.foldl (fun acc i => acc ++ f i) init = init ++ gather f order := by
  induction order generalizing init with
  | nil => simp [gather]
  | cons i rest ih => simp [gather, ih]

theorem gather_append (f : Nat → List Recruit) (a b : List Nat) :
    gather f (a ++ b) = gather f a ++ gather f b := by
  induction a with
  | nil => simp [gather]
  | cons i rest ih => simp [gather, ih]

theorem gather_perm (f : Nat → List Recruit) {a b : List Nat} (h : a.Perm b) :
    (gather f a).Perm (gather f b) := by
  induction h with
  | nil => exact List.Perm.refl _
  | cons x _ ih => exact List.Perm.append_left _ ih
  | swap x y l =>
    simp only [gather, ← List.append_assoc]
    exact List.Perm.append_right _ List.perm_append_comm
  | trans _ _ ih1 ih2 => exact ih1.trans ih2

theorem gather_congr (f g : Nat → List Recruit) (order : List Nat)
    (h : ∀ i, i ∈ order → f i = g i) : gather f order = gather g order := by
  induction order with
  | nil => rfl
  | cons i rest ih =>
    simp only [gather]
    rw [h i (List.mem_cons_self _ _), ih fun j hj => h j (List.mem_cons_of_mem _ hj)]

theorem filterRecruitsRange_eq (l : List Recruit) (numThreads i : Nat) :
    filterRecruitsRange l (chunkStart l.length numThreads i) (chunkEnd l.length numThreads i) =
      fitRecruits (chunk l numThreads i) := by
  unfold filterRecruitsRange chunk
  rw [rangeLoop_eq l _ _ _ [] (Nat.le_refl _)]
  rfl

theorem threadResult_eq (l : List Recruit) (numThreads i : Nat) :
    threadResult l numThreads i = fitRecruits (chunk l numThreads i) := by
  unfold threadResult chunk
  rw [threadLoop_eq l _ _ _ [] (Nat.le_refl _)]
  rfl

theorem last_start_le (n T : Nat) : (T - 1) * (n / T) ≤ n := by
  calc (T - 1) * (n / T) ≤ T * (n / T) := Nat.mul_le_mul_right _ (Nat.sub_le _ _)
    _ ≤ n := Nat.mul_div_le n T

theorem fitRecruits_append (a b : List Recruit) :
    fitRecruits (a ++ b) = fitRecruits a ++ fitRecruits b := by
  simp [fitRecruits]

theorem gather_front (l : List Recruit) (T k : Nat) (hk : k ≤ T - 1) :
    gather (fun i => fitRecruits (chunk l T i)) (List.range k) =
      fitRecruits (l.take (k * (l.length / T))) := by
  induction k with
  | zero => simp [gather, fitRecruits]
  | succ k ih =>
    rw [List.range_succ, gather_append, ih (by omega)]
    simp only [gather, List.append_nil]
    have hne : k ≠ T - 1 := by omega
    have hch : chunk l T k = (l.drop (k * (l.length / T))).take (l.length / T) := by
      unfold chunk chunkStart chunkEnd chunkSize
      rw [if_neg hne]
      congr 1
      rw [Nat.succ_mul]
      exact Nat.add_sub_cancel_left _ _
    rw [hch, ← fitRecruits_append, Nat.succ_mul, List.take_add]

theorem gather_all (l : List Recruit) (T : Nat) (hT : 1 ≤ T) :
    gather (fun i => fitRecruits (chunk l T i)) (List.range T) = fitRecruits l := by
  obtain ⟨k, rfl⟩ : ∃ k, T = k + 1 := ⟨T - 1, by omega⟩
  rw [List.range_succ, gather_append, gather_front l (k + 1) k (by omega)]
  simp only [gather, List.append_nil]
  have hch : chunk l (k + 1) k = l.drop (k * (l.length / (k + 1))) := by
    unfold chunk chunkStart chunkEnd chunkSize
    rw [if_pos (by omega)]
    apply List.take_of_length_le
    rw [List.length_drop]
  rw [hch, ← fitRecruits_append, List.take_append_drop]

theorem chunk_cover (n T : Nat) (hT : 1 ≤ T) (j : Nat) (hj : j < n) :
    ∃ i, (i < T ∧ chunkStart n T i ≤ j ∧ j < chunkEnd n T i) ∧
      ∀ k, k < T ∧ chunkStart n T k ≤ j ∧ j < chunkEnd n T k → k = i := by
  unfold chunkStart chunkEnd chunkSize
  by_cases hlast : (T - 1) * (n / T) ≤ j
  · refine ⟨T - 1, ⟨by omega, hlast, by simp [hj]⟩, ?_⟩
    rintro k ⟨hk, -, h2⟩
    by_contra hne
    rw [if_neg hne] at h2
    have : (k + 1) * (n / T) ≤ (T - 1) * (n / T) := Nat.mul_le_mul_right _ (by omega)
    omega
  · have hlt : j < (T - 1) * (n / T) := by omega
    have hc : 0 < n / T := by
      rcases Nat.eq_zero_or_pos (n / T) with h | h
      · rw [h] at hlt
        simp at hlt
      · exact h
    have hdiv : j / (n / T) < T - 1 := (Nat.div_lt_iff_lt_mul hc).mpr hlt
    refine ⟨j / (n / T), ⟨by omega, Nat.div_mul_le_self j _, ?_⟩, ?_⟩
    · rw [if_neg (by omega)]
      rw [Nat.mul_comm]
      exact Nat.lt_mul_div_succ j hc
    · rintro k ⟨hk, h1, h2⟩
      by_cases hkl : k = T - 1
      · rw [hkl] at h1
        omega
      · rw [if_neg hkl] at h2
        symm
        apply Nat.div_eq_of_lt_le
        · exact h1
        · exact h2

theorem chunk_bounds (n T i : Nat) (hi : i < T) :
    chunkStart n T i ≤ chunkEnd n T i ∧ chunkEnd n T i ≤ n := by
  unfold chunkStart chunkEnd chunkSize
  have hle : ∀ k, k ≤ T → k * (n / T) ≤ n := fun k hk =>
    Nat.le_trans (Nat.mul_le_mul_right _ hk) (Nat.mul_div_le n T |> fun h => by
      rw [Nat.mul_comm] at h
      rw [Nat.mul_comm]
      exact h)
  split
  · exact ⟨hle i (by omega), Nat.le_refl _⟩
  · exact ⟨Nat.mul_le_mul_right _ (by omega), hle (i + 1) (by omega)⟩

theorem multi20_eq (recruits : List Recruit) (numThreads : Nat) (order : List Nat) :
    filterRecruitsMultiThread20 recruits numThreads order =
      gather (fun i => fitRecruits (chunk recruits numThreads i)) order := by
  unfold filterRecruitsMultiThread20
  rw [foldl_gather, List.nil_append]
  exact gather_congr _ _ _ fun i _ => filterRecruitsRange_eq recruits numThreads i

theorem multi22_eq (recruits : List Recruit) (numThreads : Nat) (hT : 1 ≤ numThreads) :
    filterRecruitsMultiThread22 recruits numThreads = fitRecruits recruits := by
  unfold filterRecruitsMultiThread22
  split
  · rename_i h
    rw [List.isEmpty_iff] at h
    rw [h]
    rfl
  · rw [List.foldl_map, foldl_gather, List.nil_append, ← gather_all recruits numThreads hT]
    exact gather_congr _ _ _ fun i _ => threadResult_eq recruits numThreads i

/-- C19: for every list of recruits (of a size that fits `int`) and every
thread count `numThreads ≥ 1`, also one above the size of the list, the chunk
bounds stay inside the list and inside `int`, every index lies in the chunk of
exactly one thread, the multi-threaded filter of `ex22.cpp` returns the very
sequence of the single-threaded filter, and the multi-threaded filter of
`ex20.cpp` returns, for every order in which the threads append, a permutation
of it, hence a result of the same length (the check made in `main`); the
single-threaded filter returns the fit recruits in input order. -/
theorem multi_thread_selects_same (recruits : List Recruit) (numThreads : Nat)
    (hT : 1 ≤ numThreads) (hsize : recruits.length < 2 ^ 31) :
    (∀ i, i < numThreads →
      chunkStart recruits.length numThreads i ≤ chunkEnd recruits.length numThreads i ∧
      chunkEnd recruits.length numThreads i < 2 ^ 31) ∧
    (∀ j, j < recruits.length →
      ∃ i, (i < numThreads ∧ chunkStart recruits.length numThreads i ≤ j ∧
          j < chunkEnd recruits.length numThreads i) ∧
        ∀ k, k < numThreads ∧ chunkStart recruits.length numThreads k ≤ j ∧
          j < chunkEnd recruits.length numThreads k → k = i) ∧
    filterRecruitsSingleThread recruits = fitRecruits recruits ∧
    filterRecruitsMultiThread22 recruits numThreads = filterRecruitsSingleThread recruits ∧
    (∀ order : List Nat, order.Perm (List.range numThreads) →
      (filterRecruitsMultiThread20 recruits numThreads order).Perm
        (filterRecruitsSingleThread recruits) ∧
      (filterRecruitsMultiThread20 recruits numThreads order).length =
        (filterRecruitsSingleThread recruits).length) := by
  refine ⟨fun i hi => ?_, fun j hj => chunk_cover _ _ hT j hj,
    filterRecruitsSingleThread_eq recruits, ?_, fun order ho => ?_⟩
  · have h := chunk_bounds recruits.length numThreads i hi
    exact ⟨h.1, Nat.lt_of_le_of_lt h.2 hsize⟩
  · rw [multi22_eq recruits numThreads hT, filterRecruitsSingleThread_eq]
  · have hp : (filterRecruitsMultiThread20 recruits numThreads order).Perm
        (filterRecruitsSingleThread recruits) := by
      rw [multi20_eq, filterRecruitsSingleThread_eq, ← gather_all recruits numThreads hT]
      exact gather_perm _ ho
    exact ⟨hp, hp.length_eq⟩

theorem multi_thread_selects_same_witness :
    1 ≤ 7 ∧ sampleRecruits.length < 2 ^ 31 ∧
    ((∀ i, i < 7 →
      chunkStart sampleRecruits.length 7 i ≤ chunkEnd sampleRecruits.length 7 i ∧
      chunkEnd sampleRecruits.length 7 i < 2 ^ 31) ∧
    (∀ j, j < sampleRecruits.length →
      ∃ i, (i < 7 ∧ chunkStart sampleRecruits.length 7 i ≤ j ∧
          j < chunkEnd sampleRecruits.length 7 i) ∧
        ∀ k, k < 7 ∧ chunkStart sampleRecruits.length 7 k ≤ j ∧
          j < chunkEnd sampleRecruits.length 7 k → k = i) ∧
    filterRecruitsSingleThread sampleRecruits = fitRecruits sampleRecruits ∧
    filterRecruitsMultiThread22 sampleRecruits 7 = filterRecruitsSingleThread sampleRecruits ∧
    (∀ order : List Nat, order.Perm (List.range 7) →
      (filterRecruitsMultiThread20 sampleRecruits 7 order).Perm
        (filterRecruitsSingleThread sampleRecruits) ∧
      (filterRecruitsMultiThread20 sampleRecruits 7 order).length =
        (filterRecruitsSingleThread sampleRecruits).length)) :=
  ⟨by decide, by decide, multi_thread_selects_same sampleRecruits 7 (by decide) (by decide)⟩

/-- The filters of both files on `sampleRecruits`, with four threads and with
more threads than recruits. -/
theorem sample_filters :
    (filterRecruitsSingleThread sampleRecruits).map (fun r => r.name) = ["a", "c", "e"] ∧
    (filterRecruitsMultiThread22 sampleRecruits 4).map (fun r => r.name) = ["a", "c", "e"] ∧
    (filterRecruitsMultiThread22 sampleRecruits 7).map (fun r => r.name) = ["a", "c", "e"] ∧
    (filterRecruitsMultiThread20 sampleRecruits 4 [3, 1, 0, 2]).map (fun r => r.name) =
      ["e", "a", "c"] := by
  refine ⟨?_, ?_, ?_, ?_⟩ <;> decide

end Recruits
namespace Primitives

/-! ## The ranking -/

theorem projected_barrier_eq (t : ℚ) : projected_barrier t = t * 100 := by
  unfold projected_barrier ITERATIONS BARRIER_ITERATIONS
  norm_num

theorem results_names (a b c d e f : ℚ) : (results a b c d e f).map Prod.fst = names := rfl

theorem names_nodup : names.Nodup := by decide

theorem before_false_iff (a b : String × ℚ) : before b a = false ↔ a.2 ≤ b.2 := by
  simp [before]

theorem ranked_sortResults (input : List (String × ℚ)) : Ranked input (sortResults input) := by
  haveI : IsTotal (String × ℚ) (fun a b => before b a = false) :=
    ⟨fun a b => by
      simp only [before_false_iff]
      exact le_total _ _⟩
  haveI : IsTrans (String × ℚ) (fun a b => before b a = false) :=
    ⟨fun a b c => by
      simp only [before_false_iff]
      exact le_trans⟩
  exact ⟨List.perm_insertionSort _ _, List.sorted_insertionSort _ _⟩

/-- The shape of every vector that `sort` may leave. -/
theorem ranked_shape (a b c d e f : ℚ) (out : List (String × ℚ))
    (h : Ranked (results a b c d e f) out) :
    out.length = 6 ∧ (out.map Prod.fst).Nodup ∧
    ∃ first rest, out = first :: rest ∧ (∀ x, x ∈ rest → x.1 ≠ first.1) ∧
      (∀ x, x ∈ rest → first.2 ≤ x.2) := by
  have hlen : out.length = 6 := h.1.length_eq
  have hnd : (out.map Prod.fst).Nodup := by
    have hp : (out.map Prod.fst).Perm names := by
      rw [← results_names a b c d e f]
      exact h.1.map _
    exact hp.nodup_iff.mpr names_nodup
  refine ⟨hlen, hnd, ?_⟩
  match out, h, hlen, hnd with
  | first :: rest, h, _, hnd =>
    refine ⟨first, rest, rfl, ?_, ?_⟩
    · intro x hx hxe
      rw [List.map_cons, List.nodup_cons] at hnd
      exact hnd.1 (hxe ▸ List.mem_map_of_mem Prod.fst hx)
    · intro x hx
      have := (List.pairwise_cons.mp h.2).1 x hx
      exact (before_false_iff _ _).mp this

theorem printed_cons (first : String × ℚ) (rest : List (String × ℚ))
    (hne : ∀ x, x ∈ rest → x.1 ≠ first.1) :
    printed (first :: rest) =
      (first.1, first.2, true) :: rest.map fun x => (x.1, x.2, false) := by
  unfold printed
  rw [List.map_cons]
  congr 1
  · simp
  · apply List.map_congr_left
    intro x hx
    simp [hne x hx]

theorem winners_cons (first : String × ℚ) (rest : List (String × ℚ))
    (hne : ∀ x, x ∈ rest → x.1 ≠ first.1) : winners (first :: rest) = 1 := by
  unfold winners
  rw [printed_cons first rest hne, List.countP_cons_of_pos]
  · rw [List.countP_eq_zero.mpr]
    intro line hl
    rw [List.mem_map] at hl
    obtain ⟨x, -, rfl⟩ := hl
    simp
  · rfl

theorem tieRanking_ranked : Ranked (results 5 5 6 7 8 1) tieRanking := by
  have hr : results 5 5 6 7 8 1 = tieRanking := by
    unfold results tieRanking
    rw [projected_barrier_eq]
    norm_num
  rw [hr]
  refine ⟨List.Perm.refl _, ?_⟩
  simp only [before_false_iff, tieRanking]
  norm_num

/-- C11, counterexample: with the measured times 5, 5, 6, 7, 8 ms and a
barrier time of 1 ms the vector `tieRanking` is a result of the sort, its first
line is flagged ` (Winner)`, and the duration of the winner is not smaller than
that of the second entry; and whatever vector the sort leaves for these times,
some entry other than the winner is not slower than the winner. -/
theorem winner_not_strictly_fastest :
    Ranked (results 5 5 6 7 8 1) tieRanking ∧
    printed tieRanking =
      [("SpinLock", 5, true), ("SpinWait", 5, false), ("Mutex", 6, false),
       ("Semaphore", 7, false), ("Monitor", 8, false), ("Barrier (est)", 100, false)] ∧
    (∃ winner other, tieRanking.head? = some winner ∧ other ∈ tieRanking.tail ∧
      ¬ winner.2 < other.2) ∧
    (∀ out, Ranked (results 5 5 6 7 8 1) out →
      ∃ winner rest other, out = winner :: rest ∧ other ∈ rest ∧ ¬ winner.2 < other.2) := by
  refine ⟨tieRanking_ranked, ?_, ?_, ?_⟩
  · rw [tieRanking, printed_cons _ _ (by
      intro x hx
      simp only [List.mem_cons, List.mem_singleton, List.not_mem_nil, or_false] at hx
      rcases hx with rfl | rfl | rfl | rfl | rfl <;> decide)]
    rfl
  · exact ⟨("SpinLock", 5), ("SpinWait", 5), rfl, List.mem_cons_self _ _, lt_irrefl _⟩
  · intro out h
    obtain ⟨-, -, first, rest, rfl, hne, -⟩ := ranked_shape _ _ _ _ _ _ out h
    have hall : ∀ x, x ∈ first :: rest → (5 : ℚ) ≤ x.2 := by
      intro x hx
      have hx2 : x ∈ tieRanking := tieRanking_ranked.1.symm.subset (h.1.subset hx)
      simp only [tieRanking, List.mem_cons, List.mem_singleton, List.not_mem_nil,
        or_false] at hx2
      rcases hx2 with rfl | rfl | rfl | rfl | rfl | rfl <;> norm_num
    have hmem : ∀ x, x ∈ tieRanking → x ∈ first :: rest := fun x hx =>
      h.1.symm.subset (tieRanking_ranked.1.subset hx)
    have h1 := hmem ("SpinLock", 5) (by simp [tieRanking])
    have h2 := hmem ("SpinWait", 5) (by simp [tieRanking])
    rcases List.mem_cons.mp h1 with e1 | m1
    · rcases List.mem_cons.mp h2 with e2 | m2
      · rw [← e1] at e2
        exact absurd e2 (by decide)
      · refine ⟨first, rest, _, rfl, m2, ?_⟩
        rw [← e1]
        exact lt_irrefl _
    · refine ⟨first, rest, _, rfl, m1, ?_⟩
      exact not_lt.mpr (hall first (List.mem_cons_self _ _))

/-- C11, amended: for every six measured durations and every vector `out`
that the sort may leave, `out` is a rearrangement of the six entries in
ascending order of duration, exactly one line is printed with ` (Winner)`,
namely the first one, and the duration of that entry is smaller than or equal
to the duration of every other entry, of `out` and of the six entries alike
(equal when two entries tie); the insertion sort `sortResults` is one such
vector. -/
theorem ranking_winner_minimal (spinlock spinwait mutex semaphore monitor barrier_time : ℚ)
    (out : List (String × ℚ))
    (h : Ranked (results spinlock spinwait mutex semaphore monitor barrier_time) out) :
    out.Perm (results spinlock spinwait mutex semaphore monitor barrier_time) ∧
    out.Pairwise (fun x y => x.2 ≤ y.2) ∧
    out.length = 6 ∧
    winners out = 1 ∧
    (∃ winner rest, out = winner :: rest ∧
      printed out = (winner.1, winner.2, true) :: rest.map (fun x => (x.1, x.2, false)) ∧
      (∀ x, x ∈ rest → winner.2 ≤ x.2) ∧
      (∀ x, x ∈ results spinlock spinwait mutex semaphore monitor barrier_time →
        winner.2 ≤ x.2)) ∧
    Ranked (results spinlock spinwait mutex semaphore monitor barrier_time)
      (sortResults (results spinlock spinwait mutex semaphore monitor barrier_time)) := by
  obtain ⟨hlen, -, first, rest, rfl, hne, hle⟩ := ranked_shape _ _ _ _ _ _ out h
  refine ⟨h.1, ?_, hlen, winners_cons first rest hne,
    ⟨first, rest, rfl, printed_cons first rest hne, hle, ?_⟩, ranked_sortResults _⟩
  · exact h.2.imp fun hxy => (before_false_iff _ _).mp hxy
  · intro x hx
    rcases List.mem_cons.mp (h.1.symm.subset hx) with rfl | hm
    · exact le_refl _
    · exact hle x hm

theorem ranking_winner_minimal_witness :
    Ranked (results 5 5 6 7 8 1) tieRanking ∧
    (tieRanking.Perm (results 5 5 6 7 8 1) ∧
    tieRanking.Pairwise (fun x y => x.2 ≤ y.2) ∧
    tieRanking.length = 6 ∧
    winners tieRanking = 1 ∧
    (∃ winner rest, tieRanking = winner :: rest ∧
      printed tieRanking = (winner.1, winner.2, true) :: rest.map (fun x => (x.1, x.2, false)) ∧
      (∀ x, x ∈ rest → winner.2 ≤ x.2) ∧
      (∀ x, x ∈ results 5 5 6 7 8 1 → winner.2 ≤ x.2)) ∧
    Ranked (results 5 5 6 7 8 1) (sortResults (results 5 5 6 7 8 1))) :=
  ⟨tieRanking_ranked, ranking_winner_minimal 5 5 6 7 8 1 tieRanking tieRanking_ranked⟩

end Primitives
namespace Primitives

/-! ## The projected barrier time -/

/-- C17: for every measured barrier duration of `t` whole milliseconds in the
range where binary64 is exact (`0 ≤ t` and `t * 100 ≤ 2 ^ 53`), the factor
`static_cast<double>(ITERATIONS) / BARRIER_ITERATIONS` is 100, the value
entered for the barrier is `t * 100`, which is a whole number that binary64
holds without rounding, and the other five entries are the measured durations
as they were returned. -/
theorem barrier_entry_scaled (spinlock spinwait mutex semaphore monitor : ℚ) (t : Int)
    (h0 : 0 ≤ t) (hmax : t * 100 ≤ 2 ^ 53) :
    (ITERATIONS : ℚ) / (BARRIER_ITERATIONS : ℚ) = 100 ∧
    (ITERATIONS : ℚ) = 100 * (BARRIER_ITERATIONS : ℚ) ∧
    projected_barrier t = ((t * 100 : Int) : ℚ) ∧
    exactInDouble t = true ∧ exactInDouble (t * 100) = true ∧
    results spinlock spinwait mutex semaphore monitor t =
      [("SpinLock", spinlock), ("SpinWait", spinwait), ("Mutex", mutex),
       ("Semaphore", semaphore), ("Monitor", monitor),
       ("Barrier (est)", ((t * 100 : Int) : ℚ))] := by
  have hp : projected_barrier t = ((t * 100 : Int) : ℚ) := by
    rw [projected_barrier_eq]
    push_cast
    rfl
  refine ⟨by norm_num [ITERATIONS, BARRIER_ITERATIONS],
    by norm_num [ITERATIONS, BARRIER_ITERATIONS], hp, ?_, ?_, ?_⟩
  · simp only [exactInDouble, decide_eq_true_eq]
    omega
  · simp only [exactInDouble, decide_eq_true_eq]
    omega
  · unfold results
    rw [hp]

theorem barrier_entry_scaled_witness :
    (0 : Int) ≤ 37 ∧ (37 : Int) * 100 ≤ 2 ^ 53 ∧
    ((ITERATIONS : ℚ) / (BARRIER_ITERATIONS : ℚ) = 100 ∧
    (ITERATIONS : ℚ) = 100 * (BARRIER_ITERATIONS : ℚ) ∧
    projected_barrier ((37 : Int) : ℚ) = (((37 : Int) * 100 : Int) : ℚ) ∧
    exactInDouble 37 = true ∧ exactInDouble (37 * 100) = true ∧
    results 5 5 6 7 8 ((37 : Int) : ℚ) =
      [("SpinLock", 5), ("SpinWait", 5), ("Mutex", 6),
       ("Semaphore", 7), ("Monitor", 8),
       ("Barrier (est)", (((37 : Int) * 100 : Int) : ℚ))]) :=
  ⟨by decide, by decide, barrier_entry_scaled 5 5 6 7 8 37 (by decide) (by decide)⟩

end Primitives
namespace Philosophers

/-! ## Version 5: the order of the fork calls -/

theorem agentStep_pc_other (pol : Policy) (s t : State) (j i : Fin 5) (c : Choice)
    (hm : agentStep pol s j c = some t) (hij : i ≠ j) : t.pc i = s.pc i := by
  simp only [agentStep] at hm
  split at hm
  · simp at hm
  · cases pol <;>
      simp only [dineWithDeadlockRisk, dineWithStdLock, dineWithTimeout, dineWithSemaphore,
        dineWithOrdering, dineWithConditionVariable] at hm <;>
      split at hm <;>
      (try simp only [State.loopTest, State.goto, State.lockFork, State.unlockFork,
        State.eat, State.stdLock, State.tryLockFor] at hm) <;>
      (repeat' split at hm) <;>
      cases hm <;>
      simp [Function.update_noteq hij]

/-- The forks philosopher 1 takes and puts down along `oddPassAndHalf` (its
right fork is fork 2, its left fork is fork 1), and those philosopher 0 takes
along `zeroAndTwoEat`, read off the states of the run; the state reached has
philosopher 1 as the owner of both its forks. -/
theorem sample_fork_events :
    forkEvents .ordering 1 State.init oddPassAndHalf =
      [.acquired 2, .acquired 1, .released 1, .released 2, .acquired 2, .acquired 1] ∧
    oddPassEnd.forks 1 = some 1 ∧ oddPassEnd.forks 2 = some 1 ∧
    forkEvents .ordering 0 State.init zeroAndTwoEat = [.acquired 0, .acquired 1] ∧
    forkEvents .ordering 1 State.init zeroAndTwoEat = [] ∧
    forkEvents .ordering 2 State.init zeroAndTwoEat = [.acquired 2, .acquired 3] := by
  refine ⟨?_, ?_, ?_, ?_, ?_, ?_⟩ <;> decide


/-- The fork calls of philosopher 1 along `oddPassAndHalf`, and those of
philosopher 0 along `zeroAndTwoEat`. -/
theorem sample_fork_calls :
    forkCalls .ordering 1 State.init oddPassAndHalf =
      [.lock .right, .lock .left, .unlock .left, .unlock .right, .lock .right, .lock .left] ∧
    oddPassEnd.pc 1 = .eat ∧ oddPassEnd.mealsEaten 1 = 1 ∧
    forkCalls .ordering 0 State.init zeroAndTwoEat = [.lock .left, .lock .right] := by
  refine ⟨?_, ?_, ?_, ?_⟩ <;> decide

end Philosophers
namespace Philosophers

/-! ## Version 6: the forks are held across the decrement -/

theorem eatingCount_step (s t : State) (i : Fin 5) (c : Choice)
    (hm : step .conditionVariable s (.agent i c) = some t) :
    (s.pc i = .cvIncr ∧ t.eatingCount = s.eatingCount + 1) ∨
    (s.pc i = .cvDecr ∧ t.pc i = .cvNotifyUnlock ∧ t.eatingCount = s.eatingCount - 1 ∧
      t.forks = s.forks) ∨
    (s.pc i ≠ .cvDecr ∧ t.eatingCount = s.eatingCount) := by
  simp only [step, agentStep] at hm
  split at hm
  · simp at hm
  · simp only [dineWithConditionVariable] at hm
    split at hm <;> rename_i hpc <;>
      (try simp only [State.loopTest, State.goto, State.lockFork, State.unlockFork,
        State.eat, State.stdLock, State.tryLockFor] at hm) <;>
      (repeat' split at hm) <;>
      cases hm <;>
      simp [hpc]

theorem beforeDecrement_exec :
    exec .conditionVariable State.init eatThenLock = some beforeDecrement := by
  rfl

theorem beforeDecrement_reachable : Reachable .conditionVariable beforeDecrement :=
  reachable_of_exec _ _ _ _ Reachable.init beforeDecrement_exec

/-- C14, counterexample: in the reachable state `beforeDecrement` of version 6
philosopher 0 has eaten and is at `eatingCount--`; its step takes
`eatingCount` from 1 to 0 while philosopher 0 owns its left and its right fork,
before the step and after it. -/
theorem decrement_with_forks_held :
    exec .conditionVariable State.init eatThenLock = some beforeDecrement ∧
    step .conditionVariable beforeDecrement (.agent 0 .run) = some afterDecrement ∧
    beforeDecrement.pc 0 = .cvDecr ∧ beforeDecrement.mealsEaten 0 = 1 ∧
    beforeDecrement.eatingCount = 1 ∧ afterDecrement.eatingCount = 0 ∧
    beforeDecrement.forks (leftFork 0) = some 0 ∧ beforeDecrement.forks (rightFork 0) = some 0 ∧
    afterDecrement.forks (leftFork 0) = some 0 ∧ afterDecrement.forks (rightFork 0) = some 0 := by
  refine ⟨rfl, rfl, ?_, ?_, ?_, ?_, ?_, ?_, ?_, ?_⟩ <;> decide

/-- C14, amended: in every reachable state of version 6, a step of
philosopher `i` that lowers `eatingCount` is made at `eatingCount--`, lowers
it by one and leaves every fork as it is; from the second lock of `cv_mutex`
up to the notification philosopher `i` owns both its forks; and the
notification is followed by `rightFork.unlock()` and then `leftFork.unlock()`:
the forks are put down after the decrement and the notification. -/
theorem decrement_before_release (s : State) (hs : Reachable .conditionVariable s) (i : Fin 5) :
    (∀ c t, step .conditionVariable s (.agent i c) = some t → t.eatingCount < s.eatingCount →
      s.pc i = .cvDecr ∧ t.pc i = .cvNotifyUnlock ∧ t.eatingCount = s.eatingCount - 1 ∧
      t.forks = s.forks) ∧
    (s.pc i = .cvLockAgain ∨ s.pc i = .cvDecr ∨ s.pc i = .cvNotifyUnlock →
      s.forks (leftFork i) = some i ∧ s.forks (rightFork i) = some i) ∧
    (s.pc i = .cvNotifyUnlock →
      ∃ t, step .conditionVariable s (.agent i .run) = some t ∧ t.pc i = .unlockRight ∧
        t.forks = s.forks ∧ t.eatingCount = s.eatingCount) ∧
    (s.pc i = .unlockRight →
      ∃ t, step .conditionVariable s (.agent i .run) = some t ∧ t.pc i = .unlockLeft ∧
        t.forks (rightFork i) = none ∧ t.forks (leftFork i) = some i) ∧
    (s.pc i = .unlockLeft →
      ∃ t, step .conditionVariable s (.agent i .run) = some t ∧ t.pc i = .loopTest ∧
        t.forks (leftFork i) = none) := by
  have hp := reachable_paired _ s hs i
  unfold State.pairedAt at hp
  have hlr := left_ne_right i
  refine ⟨?_, ?_, ?_, ?_, ?_⟩
  · intro c t hm hlt
    rcases eatingCount_step s t i c hm with h | h | h
    · omega
    · exact h
    · omega
  · rintro (h | h | h) <;> rw [h] at hp <;> exact ⟨hp.1 rfl, hp.2.1 rfl⟩
  · intro h
    refine ⟨_, by simp [step, agentStep, dineWithConditionVariable, h, PC.hasOutcomes]; rfl, ?_⟩
    simp
  · intro h
    rw [h] at hp
    refine ⟨_, by simp [step, agentStep, dineWithConditionVariable, h, PC.hasOutcomes]; rfl, ?_⟩
    simp [State.unlockFork, Function.update_noteq hlr, hp.1 rfl]
  · intro h
    refine ⟨_, by simp [step, agentStep, dineWithConditionVariable, h, PC.hasOutcomes]; rfl, ?_⟩
    simp [State.unlockFork]

theorem decrement_before_release_witness :
    Reachable .conditionVariable beforeDecrement ∧
    ((∀ c t, step .conditionVariable beforeDecrement (.agent 0 c) = some t →
      t.eatingCount < beforeDecrement.eatingCount →
      beforeDecrement.pc 0 = .cvDecr ∧ t.pc 0 = .cvNotifyUnlock ∧
      t.eatingCount = beforeDecrement.eatingCount - 1 ∧
      t.forks = beforeDecrement.forks) ∧
    (beforeDecrement.pc 0 = .cvLockAgain ∨ beforeDecrement.pc 0 = .cvDecr ∨
        beforeDecrement.pc 0 = .cvNotifyUnlock →
      beforeDecrement.forks (leftFork 0) = some 0 ∧
      beforeDecrement.forks (rightFork 0) = some 0) ∧
    (beforeDecrement.pc 0 = .cvNotifyUnlock →
      ∃ t, step .conditionVariable beforeDecrement (.agent 0 .run) = some t ∧
        t.pc 0 = .unlockRight ∧
        t.forks = beforeDecrement.forks ∧ t.eatingCount = beforeDecrement.eatingCount) ∧
    (beforeDecrement.pc 0 = .unlockRight →
      ∃ t, step .conditionVariable beforeDecrement (.agent 0 .run) = some t ∧
        t.pc 0 = .unlockLeft ∧
        t.forks (rightFork 0) = none ∧ t.forks (leftFork 0) = some 0) ∧
    (beforeDecrement.pc 0 = .unlockLeft →
      ∃ t, step .conditionVariable beforeDecrement (.agent 0 .run) = some t ∧
        t.pc 0 = .loopTest ∧
        t.forks (leftFork 0) = none)) :=
  ⟨beforeDecrement_reachable, decrement_before_release beforeDecrement beforeDecrement_reachable 0⟩

end Philosophers
namespace Philosophers

/-! ## Version 3: passes that give up leave no trace in the state -/

theorem state_eq (a b : State) (h1 : a.pc = b.pc) (h2 : a.mealsEaten = b.mealsEaten)
    (h3 : a.attempts = b.attempts) (h4 : a.gotForks = b.gotForks) (h5 : a.forks = b.forks)
    (h6 : a.tableMutex = b.tableMutex) (h7 : a.cv_mutex = b.cv_mutex)
    (h8 : a.eatingCount = b.eatingCount) (h9 : a.stopFlag = b.stopFlag)
    (h10 : a.driver = b.driver) : a = b := by
  cases a
  cases b
  simp only [State.mk.injEq]
  exact ⟨h1, h2, h3, h4, h5, h6, h7, h8, h9, h10⟩

theorem starvedOnce_exec : exec .timeout State.init starvedOnceRun = some starvedOnceEnd := by
  rfl

theorem starvedTwice_exec : exec .timeout State.init starvedTwiceRun = some starvedTwiceEnd := by
  rfl

theorem starved_ends_agree : starvedOnceEnd = starvedTwiceEnd := by
  have h1 : ∀ i, starvedOnceEnd.pc i = starvedTwiceEnd.pc i := by decide
  have h2 : ∀ i, starvedOnceEnd.mealsEaten i = starvedTwiceEnd.mealsEaten i := by decide
  have h3 : ∀ i, starvedOnceEnd.attempts i = starvedTwiceEnd.attempts i := by decide
  have h4 : ∀ i, starvedOnceEnd.gotForks i = starvedTwiceEnd.gotForks i := by decide
  have h5 : ∀ i, starvedOnceEnd.forks i = starvedTwiceEnd.forks i := by decide
  exact state_eq _ _ (funext h1) (funext h2) (funext h3) (funext h4) (funext h5)
    (by decide) (by decide) (by decide) (by decide) (by decide)

theorem starved_counts :
    starvedCycles .timeout 0 State.init starvedOnceRun = 1 ∧
    starvedCycles .timeout 0 State.init starvedTwiceRun = 2 := by
  constructor <;> decide

theorem starved_step (s t : State) (i : Fin 5) (c : Choice) (hpc : s.pc i = .starved)
    (hm : step .timeout s (.agent i c) = some t) : t = s.goto i .loopTest := by
  simp only [step, agentStep, hpc, PC.hasOutcomes] at hm
  split at hm
  · simp at hm
  · simp only [dineWithTimeout, hpc, Option.some.injEq] at hm
    exact hm.symm

/-- C15, counterexample: two runs of version 3 that both end with the driver
returned from the join and the statistics; in the first philosopher 0 gives up
one pass, in the second two passes; the two final states are equal in every
component, and the statistics of both report one meal. -/
theorem starved_cycles_leave_no_trace :
    exec .timeout State.init starvedOnceRun = some starvedOnceEnd ∧
    exec .timeout State.init starvedTwiceRun = some starvedTwiceEnd ∧
    starvedOnceEnd.driver = .returned ∧ starvedTwiceEnd.driver = .returned ∧
    starvedCycles .timeout 0 State.init starvedOnceRun = 1 ∧
    starvedCycles .timeout 0 State.init starvedTwiceRun = 2 ∧
    starvedOnceEnd = starvedTwiceEnd ∧
    totalMeals starvedOnceEnd = 1 ∧ totalMeals starvedTwiceEnd = 1 :=
  ⟨starvedOnce_exec, starvedTwice_exec, by decide, by decide, starved_counts.1,
    starved_counts.2, starved_ends_agree, by decide, by decide⟩

/-- C15, amended: under version 3 a pass that gives up is counted nowhere.
The move that ends it changes the location of that philosopher and nothing
else; the state after a run gives the number of meals of every philosopher
(the number of `eat()` calls it completed), which is what the statistics
report; and no function of the state gives the number of passes that gave
up. -/
theorem starved_cycles_not_counted :
    (∀ (s t : State) (i : Fin 5) (c : Choice), s.pc i = .starved →
      step .timeout s (.agent i c) = some t →
      t = s.goto i .loopTest ∧ t.mealsEaten = s.mealsEaten ∧ totalMeals t = totalMeals s) ∧
    (∀ (moves : List Move) (t : State) (i : Fin 5),
      exec .timeout State.init moves = some t →
      t.mealsEaten i = eatsCompleted .timeout i State.init moves) ∧
    ¬ ∃ f : State → Nat, ∀ (moves : List Move) (t : State),
      exec .timeout State.init moves = some t →
      f t = starvedCycles .timeout 0 State.init moves := by
  refine ⟨?_, ?_, ?_⟩
  · intro s t i c hpc hm
    have h := starved_step s t i c hpc hm
    subst h
    exact ⟨rfl, rfl, rfl⟩
  · intro moves t i h
    have := exec_meals .timeout i moves State.init t h
    simpa [State.init] using this
  · rintro ⟨f, hf⟩
    have h1 := hf _ _ starvedOnce_exec
    have h2 := hf _ _ starvedTwice_exec
    rw [starved_counts.1] at h1
    rw [starved_counts.2, ← starved_ends_agree, h1] at h2
    exact absurd h2 (by decide)

/-- The state `aboutToStarve` is reachable and philosopher 0 is at the branch
that gives up there. -/
theorem aboutToStarve_sample :
    exec .timeout State.init (neighbourEats ++ (starvedCycle 0).take 15) = some aboutToStarve ∧
    aboutToStarve.pc 0 = .starved ∧ aboutToStarve.attempts 0 = 3 ∧
    aboutToStarve.forks (leftFork 0) = some 4 := by
  refine ⟨rfl, ?_, ?_, ?_⟩ <;> decide

end Philosophers
namespace Philosophers

/-! ## Pairing of acquisitions and releases, all versions -/

theorem tableOwned_step (pol : Policy) (s t : State) (m : Move) (h : s.tableOwned pol)
    (hm : step pol s m = some t) : t.tableOwned pol := by
  cases m with
  | driver =>
      obtain ⟨e1, -, -, -, -, e2, -⟩ := driverStep_frame s t hm
      unfold State.tableOwned
      rw [e1, e2]
      exact h
  | agent j c =>
      simp only [step, agentStep] at hm
      split at hm
      · simp at hm
      · have hj := h j
        cases pol <;>
          simp only [dineWithDeadlockRisk, dineWithStdLock, dineWithTimeout, dineWithSemaphore,
            dineWithOrdering, dineWithConditionVariable] at hm <;>
          split at hm <;> rename_i hpc <;>
          (try simp only [State.loopTest, State.goto, State.lockFork, State.unlockFork,
            State.eat, State.stdLock, State.tryLockFor] at hm) <;>
          (try rw [hpc] at hj) <;>
          (repeat' split at hm) <;>
          cases hm <;>
          intro i hi <;>
          by_cases hij : i = j
        all_goals first
          | (subst hij
             simp_all [PC.holdsTable])
          | (have hi1 := h i
             simp_all [PC.holdsTable, Function.update_noteq hij])

theorem reachable_tableOwned (pol : Policy) (s : State) (hs : Reachable pol s) :
    s.tableOwned pol :=
  reachable_invariant pol (fun s => s.tableOwned pol)
    (by intro j hj; simp [State.init] at hj) (fun s m t h hm => tableOwned_step pol s t m h hm) s hs

theorem cvOwned_step (pol : Policy) (s t : State) (m : Move) (h : s.cvOwned pol)
    (hm : step pol s m = some t) : t.cvOwned pol := by
  cases m with
  | driver =>
      obtain ⟨e1, -, -, -, -, -, e2, -⟩ := driverStep_frame s t hm
      unfold State.cvOwned
      rw [e1, e2]
      exact h
  | agent j c =>
      simp only [step, agentStep] at hm
      split at hm
      · simp at hm
      · have hj := h j
        cases pol <;>
          simp only [dineWithDeadlockRisk, dineWithStdLock, dineWithTimeout, dineWithSemaphore,
            dineWithOrdering, dineWithConditionVariable] at hm <;>
          split at hm <;> rename_i hpc <;>
          (try simp only [State.loopTest, State.goto, State.lockFork, State.unlockFork,
            State.eat, State.stdLock, State.tryLockFor] at hm) <;>
          (try rw [hpc] at hj) <;>
          (repeat' split at hm) <;>
          cases hm <;>
          intro i hi <;>
          by_cases hij : i = j
        all_goals first
          | (subst hij
             simp_all [PC.holdsCv])
          | (have hi1 := h i
             simp_all [PC.holdsCv, Function.update_noteq hij])

theorem reachable_cvOwned (pol : Policy) (s : State) (hs : Reachable pol s) :
    s.cvOwned pol :=
  reachable_invariant pol (fun s => s.cvOwned pol)
    (by intro j hj; simp [State.init] at hj) (fun s m t h hm => cvOwned_step pol s t m h hm) s hs

theorem reachable_tableOk (s : State) (hs : Reachable .semaphore s) : s.tableOk :=
  reachable_invariant .semaphore (fun s => s.tableOk) tableOk_init
    (fun s m t h hm => tableOk_step s t m h hm) s hs

/-- Whatever a step of philosopher `j` unlocks was owned by `j`, given that
`j` owns the forks its location says it has locked. -/
theorem step_releases_own (pol : Policy) (s t : State) (j : Fin 5) (c : Choice)
    (hp : s.pairedAt pol j) (htab : s.pc j = .unlockTable → s.tableMutex = some j)
    (hcv : (s.pc j).holdsCv = true → s.cv_mutex = some j)
    (hm : step pol s (.agent j c) = some t) :
    (∀ f, t.forks f = none → s.forks f = none ∨ s.forks f = some j) ∧
    (t.tableMutex = none → s.tableMutex = none ∨ s.tableMutex = some j) ∧
    (t.cv_mutex = none → s.cv_mutex = none ∨ s.cv_mutex = some j) := by
  simp only [step, agentStep] at hm
  split at hm
  · simp at hm
  · unfold State.pairedAt at hp
    cases pol <;>
      simp only [dineWithDeadlockRisk, dineWithStdLock, dineWithTimeout, dineWithSemaphore,
        dineWithOrdering, dineWithConditionVariable] at hm <;>
      split at hm <;> rename_i hpc <;>
      (try simp only [State.loopTest, State.goto, State.lockFork, State.unlockFork,
        State.eat, State.stdLock, State.tryLockFor] at hm) <;>
      (try rw [hpc] at hp htab hcv) <;>
      (repeat' split at hm) <;>
      cases hm <;>
      refine ⟨fun f hf => ?_, fun hf => ?_, fun hf => ?_⟩
    all_goals first
      | (left; exact hf)
      | (right; exact htab rfl)
      | (right; exact hcv rfl)
      | (simp at hf
         done)
      | (simp only [Function.update_apply] at hf
         split at hf
         · first
           | (simp at hf
              done)
           | (rename_i hfg
              subst hfg
              right
              first
                | assumption
                | exact hp.1 rfl
                | exact hp.2.1 rfl)
         · left
           exact hf)

/-- No philosopher owns a fork at a location where it has locked none. -/
theorem owns_none (pol : Policy) (s : State) (ho : s.owned pol) (i : Fin 5)
    (hl : holdsLeftAt pol i (s.pc i) (s.gotForks i) = false)
    (hr : holdsRightAt pol i (s.pc i) (s.gotForks i) = false) (hstd : s.pc i ≠ .stdLock) :
    ∀ f, s.forks f ≠ some i := by
  intro f hf
  rcases ho f i hf with ⟨-, h | h⟩ | ⟨-, h | h⟩
  · rw [hl] at h
    cases h
  · exact hstd h
  · rw [hr] at h
    cases h
  · exact hstd h

theorem holdingLeftOnly_exec : exec .timeout State.init failedRightTry = some holdingLeftOnly := by
  rfl

theorem holdingLeftOnly_reachable : Reachable .timeout holdingLeftOnly :=
  reachable_of_exec _ _ _ _ Reachable.init holdingLeftOnly_exec

/-- C16: in every reachable state of every version, for every philosopher
`i`: at a `unlock()` call on a fork, on the table lock or at the end of a
block that holds `cv_mutex`, philosopher `i` owns that mutex (at the
`leftFork.unlock()` of a failed attempt of version 3 it owns the left fork and
not the right one); every mutex that a step of `i` leaves unlocked was
unlocked before or owned by `i`; after a failed attempt of version 3 and at
the top of the loop `i` owns no fork; and at the top of the loop it owns
neither the table lock nor `cv_mutex` and is not counted in `eatingCount`. -/
theorem locks_correctly_paired (pol : Policy) (s : State) (hs : Reachable pol s) (i : Fin 5) :
    (s.pc i = .unlockLeft → s.forks (leftFork i) = some i) ∧
    (s.pc i = .unlockRight → s.forks (rightFork i) = some i) ∧
    (s.pc i = .giveBackLeft →
      s.forks (leftFork i) = some i ∧ s.forks (rightFork i) ≠ some i) ∧
    (s.pc i = .unlockTable → s.tableMutex = some i) ∧
    (s.pc i = .cvTest ∨ s.pc i = .cvUnlock ∨ s.pc i = .cvNotifyUnlock →
      s.cv_mutex = some i) ∧
    (∀ c t, step pol s (.agent i c) = some t →
      (∀ f, t.forks f = none → s.forks f = none ∨ s.forks f = some i) ∧
      (t.tableMutex = none → s.tableMutex = none ∨ s.tableMutex = some i) ∧
      (t.cv_mutex = none → s.cv_mutex = none ∨ s.cv_mutex = some i)) ∧
    (s.pc i = .tryLeft ∨ s.pc i = .countFailure ∨ s.pc i = .backoff ∨ s.pc i = .starved →
      ∀ f, s.forks f ≠ some i) ∧
    (s.pc i = .loopTest ∨ s.pc i = .think ∨ s.pc i = .done →
      (∀ f, s.forks f ≠ some i) ∧ s.tableMutex ≠ some i ∧ s.cv_mutex ≠ some i ∧
      (s.pc i).admitted = false) := by
  obtain ⟨hpa, ho⟩ := reachable_paired_owned pol s hs
  have hp := hpa i
  unfold State.pairedAt at hp
  have hw := reachable_wellPlaced pol s hs i
  have htO := reachable_tableOwned pol s hs i
  have hcO := reachable_cvOwned pol s hs i
  have htab : s.pc i = .unlockTable → s.tableMutex = some i := by
    intro h
    rw [h] at hw
    cases pol <;> simp [Policy.locations] at hw
    exact reachable_tableOk s hs i (by rw [h]; rfl)
  have hcv : (s.pc i).holdsCv = true → s.cv_mutex = some i := by
    intro h
    cases pol
    case conditionVariable => exact (reachable_cvOk s hs).1 i h
    all_goals
      exfalso
      revert h hw
      generalize s.pc i = p
      cases p <;> simp [Policy.locations, PC.holdsCv]
  refine ⟨?_, ?_, ?_, htab, ?_, ?_, ?_, ?_⟩
  · intro h
    rw [h] at hp
    exact hp.1 (by cases pol <;> rfl)
  · intro h
    rw [h] at hp
    exact hp.2.1 (by cases pol <;> rfl)
  · intro h
    rw [h] at hw hp
    cases pol <;> simp [Policy.locations] at hw
    refine ⟨hp.1 rfl, ?_⟩
    intro hf
    rcases ho _ i hf with ⟨e, -⟩ | ⟨-, h2 | h2⟩
    · exact left_ne_right i e.symm
    · rw [h] at h2
      simp [holdsRightAt] at h2
    · rw [h] at h2
      cases h2
  · rintro (h | h | h) <;> exact hcv (by rw [h]; rfl)
  · intro c t hm
    exact step_releases_own pol s t i c (hpa i) htab hcv hm
  · intro h
    apply owns_none pol s ho i
    · rcases h with h | h | h | h <;> rw [h] at hw ⊢ <;> cases pol <;>
        simp [Policy.locations, holdsLeftAt] at hw ⊢
    · rcases h with h | h | h | h <;> rw [h] at hw ⊢ <;> cases pol <;>
        simp [Policy.locations, holdsRightAt] at hw ⊢
    · rcases h with h | h | h | h <;> rw [h] <;> simp
  · intro h
    refine ⟨owns_none pol s ho i ?_ ?_ ?_, ?_, ?_, ?_⟩
    · rcases h with h | h | h <;> rw [h] <;> cases pol <;> rfl
    · rcases h with h | h | h <;> rw [h] <;> cases pol <;> rfl
    · rcases h with h | h | h <;> rw [h] <;> simp
    · intro ht
      have := (htO ht).2
      rcases h with h | h | h <;> rw [h] at this <;> cases this
    · intro ht
      have := (hcO ht).2
      rcases h with h | h | h <;> rw [h] at this <;> cases this
    · rcases h with h | h | h <;> rw [h] <;> rfl

theorem locks_correctly_paired_witness :
    Reachable .timeout holdingLeftOnly ∧
    ((holdingLeftOnly.pc 0 = .unlockLeft → holdingLeftOnly.forks (leftFork 0) = some 0) ∧
    (holdingLeftOnly.pc 0 = .unlockRight → holdingLeftOnly.forks (rightFork 0) = some 0) ∧
    (holdingLeftOnly.pc 0 = .giveBackLeft →
      holdingLeftOnly.forks (leftFork 0) = some 0 ∧
      holdingLeftOnly.forks (rightFork 0) ≠ some 0) ∧
    (holdingLeftOnly.pc 0 = .unlockTable → holdingLeftOnly.tableMutex = some 0) ∧
    (holdingLeftOnly.pc 0 = .cvTest ∨ holdingLeftOnly.pc 0 = .cvUnlock ∨
        holdingLeftOnly.pc 0 = .cvNotifyUnlock →
      holdingLeftOnly.cv_mutex = some 0) ∧
    (∀ c t, step .timeout holdingLeftOnly (.agent 0 c) = some t →
      (∀ f, t.forks f = none →
        holdingLeftOnly.forks f = none ∨ holdingLeftOnly.forks f = some 0) ∧
      (t.tableMutex = none →
        holdingLeftOnly.tableMutex = none ∨ holdingLeftOnly.tableMutex = some 0) ∧
      (t.cv_mutex = none →
        holdingLeftOnly.cv_mutex = none ∨ holdingLeftOnly.cv_mutex = some 0)) ∧
    (holdingLeftOnly.pc 0 = .tryLeft ∨ holdingLeftOnly.pc 0 = .countFailure ∨
        holdingLeftOnly.pc 0 = .backoff ∨ holdingLeftOnly.pc 0 = .starved →
      ∀ f, holdingLeftOnly.forks f ≠ some 0) ∧
    (holdingLeftOnly.pc 0 = .loopTest ∨ holdingLeftOnly.pc 0 = .think ∨
        holdingLeftOnly.pc 0 = .done →
      (∀ f, holdingLeftOnly.forks f ≠ some 0) ∧ holdingLeftOnly.tableMutex ≠ some 0 ∧
      holdingLeftOnly.cv_mutex ≠ some 0 ∧
      (holdingLeftOnly.pc 0).admitted = false)) :=
  ⟨holdingLeftOnly_reachable, locks_correctly_paired .timeout holdingLeftOnly
    holdingLeftOnly_reachable 0⟩

/-- The state `holdingLeftOnly`: philosopher 0 is at the `leftFork.unlock()`
of a failed attempt and owns fork 0; fork 1 is owned by philosopher 1, which
eats; the step of philosopher 0 unlocks fork 0. -/
theorem holdingLeftOnly_sample :
    holdingLeftOnly.pc 0 = .giveBackLeft ∧ holdingLeftOnly.pc 1 = .eat ∧
    holdingLeftOnly.forks 0 = some 0 ∧ holdingLeftOnly.forks 1 = some 1 ∧
    ((step .timeout holdingLeftOnly (.agent 0 .run)).map fun t => (t.pc 0, t.forks 0)) =
      some (.countFailure, none) := by
  refine ⟨?_, ?_, ?_, ?_, ?_⟩ <;> decide

end Philosophers
namespace Philosophers

/-! ## The stop flag -/

theorem agentStep_stopFlag (pol : Policy) (s t : State) (j : Fin 5) (c : Choice)
    (hm : agentStep pol s j c = some t) : t.stopFlag = s.stopFlag := by
  simp only [agentStep] at hm
  split at hm
  · simp at hm
  · cases pol <;>
      simp only [dineWithDeadlockRisk, dineWithStdLock, dineWithTimeout, dineWithSemaphore,
        dineWithOrdering, dineWithConditionVariable] at hm <;>
      split at hm <;>
      (try simp only [State.loopTest, State.goto, State.lockFork, State.unlockFork,
        State.eat, State.stdLock, State.tryLockFor] at hm) <;>
      (repeat' split at hm) <;>
      cases hm <;>
      rfl

theorem driverStep_stopFlag (s t : State) (hm : driverStep s = some t) :
    (s.driver = .sleeping ∧ t.stopFlag = true) ∨
    (s.driver ≠ .sleeping ∧ t.stopFlag = s.stopFlag) := by
  simp only [driverStep] at hm
  split at hm <;> rename_i hd
  · simp only [Option.some.injEq] at hm
    subst hm
    exact Or.inl ⟨hd, rfl⟩
  · split at hm
    · split at hm
      · simp only [Option.some.injEq] at hm
        subst hm
        exact Or.inr ⟨by simp [hd], rfl⟩
      · simp at hm
    · simp at hm
  · simp only [Option.some.injEq] at hm
    subst hm
    exact Or.inr ⟨by simp [hd], rfl⟩
  · simp at hm

theorem step_stopFlag (pol : Policy) (s t : State) (m : Move) (hm : step pol s m = some t)
    (hstop : s.stopFlag = true) : t.stopFlag = true := by
  cases m with
  | driver =>
      rcases driverStep_stopFlag s t hm with h | h
      · exact h.2
      · rw [h.2, hstop]
  | agent j c => rw [agentStep_stopFlag pol s t j c hm, hstop]

/-- Once `stopFlag` is set, a step does not raise the number of meals eaten
plus the number of meals still within reach. -/
theorem budget_step (pol : Policy) (s t : State) (m : Move) (i : Fin 5)
    (hstop : s.stopFlag = true) (hm : step pol s m = some t) :
    t.mealsEaten i + (t.pc i).mealBudget ≤ s.mealsEaten i + (s.pc i).mealBudget := by
  cases m with
  | driver =>
      obtain ⟨h1, -, -, h2, -⟩ := driverStep_frame s t hm
      rw [h1, h2]
  | agent j c =>
      by_cases hij : i = j
      · subst hij
        simp only [step, agentStep] at hm
        split at hm
        · simp at hm
        · cases pol <;>
            simp only [dineWithDeadlockRisk, dineWithStdLock, dineWithTimeout, dineWithSemaphore,
              dineWithOrdering, dineWithConditionVariable] at hm <;>
            split at hm <;> rename_i hpc <;>
            (try simp only [State.loopTest, State.goto, State.lockFork, State.unlockFork,
              State.eat, State.stdLock, State.tryLockFor] at hm) <;>
            (repeat' split at hm) <;>
            cases hm <;>
            simp [hpc, hstop, PC.mealBudget]
      · have h1 := agentStep_pc_other pol s t j i c hm hij
        have h2 := step_meals pol s t (.agent j c) i hm
        simp only [completesEat, Ne.symm hij, decide_False, Bool.false_and, Bool.toNat_false,
          Nat.add_zero] at h2
        rw [h1, h2]

theorem budget_exec (pol : Policy) (i : Fin 5) (ms : List Move) :
    ∀ s t, s.stopFlag = true → exec pol s ms = some t →
      t.stopFlag = true ∧
      t.mealsEaten i + (t.pc i).mealBudget ≤ s.mealsEaten i + (s.pc i).mealBudget := by
  induction ms with
  | nil =>
      intro s t hs h
      simp only [exec, Option.some.injEq] at h
      subst h
      exact ⟨hs, Nat.le_refl _⟩
  | cons m ms ih =>
      intro s t hs h
      simp only [exec] at h
      cases hm : step pol s m with
      | none => simp [hm] at h
      | some u =>
          rw [hm] at h
          have h1 := budget_step pol s u m i hs hm
          obtain ⟨h2, h3⟩ := ih u t (step_stopFlag pol s u m hm hs) h
          exact ⟨h2, Nat.le_trans h3 h1⟩

theorem mealBudget_le_one (p : PC) : p.mealBudget ≤ 1 := by
  cases p <;> simp [PC.mealBudget]

/-- C20: in every version a step that changes `stopFlag` is the step of the
driver that ends its sleep, and it sets the flag to true. Once the flag is
set it stays set along every schedule, and a philosopher completes at most one
further `eat()`: its meal counter grows by at most one, and not at all if the
philosopher was at the loop test or had left the loop when the flag was set,
where its next step leaves the loop. -/
theorem stop_flag_one_more_meal (pol : Policy) (s t : State) (moves : List Move) (i : Fin 5)
    (hstop : s.stopFlag = true) (he : exec pol s moves = some t) :
    (∀ (u v : State) (m : Move), step pol u m = some v → v.stopFlag ≠ u.stopFlag →
      m = .driver ∧ u.driver = .sleeping ∧ v.stopFlag = true) ∧
    t.stopFlag = true ∧
    t.mealsEaten i = s.mealsEaten i + eatsCompleted pol i s moves ∧
    eatsCompleted pol i s moves ≤ 1 ∧
    t.mealsEaten i ≤ s.mealsEaten i + 1 ∧
    (s.pc i = .loopTest ∨ s.pc i = .done → t.mealsEaten i = s.mealsEaten i) ∧
    (s.pc i = .loopTest → ∀ c u, step pol s (.agent i c) = some u → u.pc i = .done) := by
  obtain ⟨h1, h2⟩ := budget_exec pol i moves s t hstop he
  have h3 := exec_meals pol i moves s t he
  have h4 := mealBudget_le_one (s.pc i)
  refine ⟨?_, h1, h3, by omega, by omega, ?_, ?_⟩
  · intro u v m hm hne
    cases m with
    | driver =>
        rcases driverStep_stopFlag u v hm with h | h
        · exact ⟨rfl, h.1, h.2⟩
        · exact absurd h.2 hne
    | agent j c => exact absurd (agentStep_stopFlag pol u v j c hm) hne
  · intro h
    have h5 : (s.pc i).mealBudget = 0 := by
      rcases h with h | h <;> rw [h] <;> rfl
    omega
  · intro hpc c u hm
    simp only [step, agentStep] at hm
    split at hm
    · simp at hm
    · cases pol <;>
        simp only [dineWithDeadlockRisk, dineWithStdLock, dineWithTimeout, dineWithSemaphore,
          dineWithOrdering, dineWithConditionVariable, hpc, State.loopTest, State.goto, hstop,
          if_true, Option.some.injEq] at hm <;>
        subst hm <;>
        simp

theorem lastMeal_exec : exec .semaphore stoppedHungry lastMeal = some lastMealEnd := by
  rfl

theorem stop_flag_one_more_meal_witness :
    stoppedHungry.stopFlag = true ∧ exec .semaphore stoppedHungry lastMeal = some lastMealEnd ∧
    ((∀ (u v : State) (m : Move), step .semaphore u m = some v → v.stopFlag ≠ u.stopFlag →
      m = .driver ∧ u.driver = .sleeping ∧ v.stopFlag = true) ∧
    lastMealEnd.stopFlag = true ∧
    lastMealEnd.mealsEaten 0 =
      stoppedHungry.mealsEaten 0 + eatsCompleted .semaphore 0 stoppedHungry lastMeal ∧
    eatsCompleted .semaphore 0 stoppedHungry lastMeal ≤ 1 ∧
    lastMealEnd.mealsEaten 0 ≤ stoppedHungry.mealsEaten 0 + 1 ∧
    (stoppedHungry.pc 0 = .loopTest ∨ stoppedHungry.pc 0 = .done →
      lastMealEnd.mealsEaten 0 = stoppedHungry.mealsEaten 0) ∧
    (stoppedHungry.pc 0 = .loopTest →
      ∀ c u, step .semaphore stoppedHungry (.agent 0 c) = some u → u.pc 0 = .done)) :=
  ⟨by decide, lastMeal_exec,
    stop_flag_one_more_meal .semaphore stoppedHungry lastMealEnd lastMeal 0 (by decide)
      lastMeal_exec⟩

/-- The run `stopWhileHungry` followed by `lastMeal`: the flag is set while
philosopher 0 is past the loop test, and philosopher 0 eats once more and then
leaves its loop. -/
theorem lastMeal_sample :
    exec .semaphore State.init stopWhileHungry = some stoppedHungry ∧
    stoppedHungry.pc 0 = .lockTable ∧ stoppedHungry.mealsEaten 0 = 0 ∧
    lastMealEnd.mealsEaten 0 = 1 ∧ lastMealEnd.pc 0 = .done := by
  refine ⟨rfl, ?_, ?_, ?_, ?_⟩ <;> decide

end Philosophers
namespace Primitives

/-! ## One worker at a time appends -/

set_option maxHeartbeats 1000000 in
theorem owners_step_monitor (func : Worker) (iters : Nat) (s t : Bench) (w : Fin 8)
    (h1 : ∀ v, s.monitor_mtx = some v → func = .monitor ∧ (s.pc v).holdsMtx = true)
    (hm : workerStep func iters s w = some t) :
    ∀ v, t.monitor_mtx = some v → func = .monitor ∧ (t.pc v).holdsMtx = true := by
  have hw1 := h1 w
  simp only [workerStep] at hm
  cases func <;>
    simp only [mutex_worker, semaphore_worker, spinlock_worker, spinwait_worker, monitor_worker,
      barrier_worker] at hm <;>
    split at hm <;> rename_i hpc <;>
    (try simp only [Bench.loopTest, Bench.goto, Bench.nextIter, Bench.pushRead,
      Bench.pushWrite] at hm) <;>
    (try rw [hpc] at hw1) <;>
    (repeat' split at hm) <;>
    cases hm <;>
    intro v hv <;>
    by_cases hvw : v = w
  all_goals first
    | (subst hvw
       simp_all [Loc.holdsMtx])
    | (have e1 := h1 v
       simp_all [Loc.holdsMtx, Function.update_noteq hvw])

theorem owners_step_mutex (iters : Nat) (s t : Bench) (w : Fin 8)
    (huniq : ∀ v, (s.pc v).exclusive = true → (s.pc w).exclusive = true → v = w)
    (h2 : ∀ v, (s.pc v).exclusive = true → s.buffer_mutex = some v)
    (hm : workerStep .mutex iters s w = some t) :
    ∀ v, (t.pc v).exclusive = true → t.buffer_mutex = some v := by
  have hw2 := h2 w
  simp only [workerStep, mutex_worker] at hm
  split at hm <;> rename_i hpc <;>
    (try simp only [Bench.loopTest, Bench.goto, Bench.nextIter, Bench.pushRead,
      Bench.pushWrite] at hm) <;>
    (try rw [hpc] at hw2 huniq) <;>
    (repeat' split at hm) <;>
    cases hm <;>
    intro v hv <;>
    by_cases hvw : v = w
  all_goals first
    | (subst hvw
       simp_all [Loc.exclusive])
    | (have e2 := h2 v
       have e3 := huniq v
       simp_all [Loc.exclusive, Function.update_noteq hvw])

theorem owners_step_barrier (iters : Nat) (s t : Bench) (w : Fin 8)
    (huniq : ∀ v, (s.pc v).exclusive = true → (s.pc w).exclusive = true → v = w)
    (h3 : ∀ v, (s.pc v).exclusive = true → s.barrier_mutex_internal = some v)
    (hm : workerStep .barrier iters s w = some t) :
    ∀ v, (t.pc v).exclusive = true → t.barrier_mutex_internal = some v := by
  have hw3 := h3 w
  simp only [workerStep, barrier_worker] at hm
  split at hm <;> rename_i hpc <;>
    (try simp only [Bench.loopTest, Bench.goto, Bench.nextIter, Bench.pushRead,
      Bench.pushWrite] at hm) <;>
    (try rw [hpc] at hw3 huniq) <;>
    (repeat' split at hm) <;>
    cases hm <;>
    intro v hv <;>
    by_cases hvw : v = w
  all_goals first
    | (subst hvw
       simp_all [Loc.exclusive])
    | (have e2 := h3 v
       have e3 := huniq v
       simp_all [Loc.exclusive, Function.update_noteq hvw])

theorem owners_init (func : Worker) : Bench.init.owners func := by
  refine ⟨?_, ?_, ?_⟩ <;> simp [Bench.init, Loc.exclusive]

theorem reachable_owners (func : Worker) (iters : Nat) (s : Bench)
    (hs : Reached func iters s) : s.owners func := by
  induction hs with
  | init => exact owners_init func
  | @step s t w hr hst ih =>
      have hok := reachable_ok func iters s hr
      have huniq : ∀ v, (s.pc v).exclusive = true → (s.pc w).exclusive = true → v = w :=
        fun v hv hw => exclusive_unique func iters s hok v w hv hw
      refine ⟨owners_step_monitor func iters s t w ih.1 hst, ?_, ?_⟩
      · intro hf
        subst hf
        exact owners_step_mutex iters s t w huniq (ih.2.1 rfl) hst
      · intro hf
        subst hf
        exact owners_step_barrier iters s t w huniq (ih.2.2 rfl) hst

theorem sum8_mono (f g : Fin 8 → Nat) (h : ∀ w, f w ≤ g w) : sum8 f ≤ sum8 g := by
  have h0 := h 0
  have h1 := h 1
  have h2 := h 2
  have h3 := h 3
  have h4 := h 4
  have h5 := h 5
  have h6 := h 6
  have h7 := h 7
  unfold sum8
  omega

theorem appending_exclusive (p : Loc) (h : p.appending = true) : p.exclusive = true := by
  cases p <;> simp [Loc.appending] at h <;> rfl

theorem appending_not_holdsMtx (p : Loc) (h : p.appending = true) : p.holdsMtx = false := by
  cases p <;> simp [Loc.appending] at h <;> rfl

/-- C21: for each of the six workers, in every reachable state of a run at
most one worker is inside `shared_buffer.push_back`; the semaphore counter is
at most 1; and while a worker appends the primitive of the run is taken: the
spinlock flag is set, `busy_flag` is true, `buffer_mutex` is owned by that
worker, the semaphore counter is 0, `resource_free` is false while that worker
does not own `monitor_mtx`, and in the barrier run `barrier_mutex_internal`
is owned by that worker. -/
theorem one_worker_appends (func : Worker) (iters : Nat) (s : Bench)
    (hs : Reached func iters s) :
    (∀ v w, (s.pc v).appending = true → (s.pc w).appending = true → v = w) ∧
    sum8 (fun w => (s.pc w).appending.toNat) ≤ 1 ∧
    (func = .semaphore → s.sem ≤ 1) ∧
    (∀ w, (s.pc w).appending = true →
      s.free func = 0 ∧
      (func = .spinlock → s.spinlock = true) ∧
      (func = .spinwait → s.busy_flag = true) ∧
      (func = .mutex → s.buffer_mutex = some w) ∧
      (func = .semaphore → s.sem = 0) ∧
      (func = .monitor → s.resource_free = false ∧ s.monitor_mtx ≠ some w) ∧
      (func = .barrier → s.barrier_mutex_internal = some w)) := by
  have hok := reachable_ok func iters s hs
  have how := reachable_owners func iters s hs
  have hex := hok.excl
  refine ⟨?_, ?_, ?_, ?_⟩
  · intro v w hv hw
    exact exclusive_unique func iters s hok v w (appending_exclusive _ hv)
      (appending_exclusive _ hw)
  · have hle : sum8 (fun w => (s.pc w).appending.toNat) ≤
        sum8 (fun w => (s.pc w).exclusive.toNat) := by
      apply sum8_mono
      intro w
      cases h : (s.pc w).appending
      · simp
      · simp [appending_exclusive _ h]
    omega
  · intro hf
    subst hf
    simp only [Bench.free] at hex
    omega
  · intro w hw
    have hle := le_sum8 (fun v => (s.pc v).exclusive.toNat) w
    simp only [appending_exclusive _ hw, Bool.toNat_true] at hle
    have hfree : s.free func = 0 := by omega
    refine ⟨hfree, ?_, ?_, ?_, ?_, ?_, ?_⟩
    · intro hf
      subst hf
      simpa [Bench.free] using hfree
    · intro hf
      subst hf
      simpa [Bench.free] using hfree
    · intro hf
      exact how.2.1 hf w (appending_exclusive _ hw)
    · intro hf
      subst hf
      simpa [Bench.free] using hfree
    · intro hf
      subst hf
      refine ⟨by simpa [Bench.free] using hfree, ?_⟩
      intro hm
      have := (how.1 w hm).2
      rw [appending_not_holdsMtx _ hw] at this
      cases this
    · intro hf
      exact how.2.2 hf w (appending_exclusive _ hw)

theorem monitorDemo_reached : Reached .monitor 1 monitorDemo :=
  reachable_of_run .monitor 1 monitorContended Bench.init monitorDemo Reached.init rfl

theorem one_worker_appends_witness :
    Reached .monitor 1 monitorDemo ∧
    ((∀ v w, (monitorDemo.pc v).appending = true → (monitorDemo.pc w).appending = true →
      v = w) ∧
    sum8 (fun w => (monitorDemo.pc w).appending.toNat) ≤ 1 ∧
    (Worker.monitor = .semaphore → monitorDemo.sem ≤ 1) ∧
    (∀ w, (monitorDemo.pc w).appending = true →
      monitorDemo.free .monitor = 0 ∧
      (Worker.monitor = .spinlock → monitorDemo.spinlock = true) ∧
      (Worker.monitor = .spinwait → monitorDemo.busy_flag = true) ∧
      (Worker.monitor = .mutex → monitorDemo.buffer_mutex = some w) ∧
      (Worker.monitor = .semaphore → monitorDemo.sem = 0) ∧
      (Worker.monitor = .monitor →
        monitorDemo.resource_free = false ∧ monitorDemo.monitor_mtx ≠ some w) ∧
      (Worker.monitor = .barrier → monitorDemo.barrier_mutex_internal = some w))) :=
  ⟨monitorDemo_reached, one_worker_appends .monitor 1 monitorDemo monitorDemo_reached⟩

/-- The state `monitorDemo`: worker 0 is inside `push_back` with `monitor_mtx`
released and `resource_free` false; worker 1 has found the resource taken
and waits. -/
theorem monitorDemo_sample :
    monitorDemo.pc 0 = .pushRead ∧ monitorDemo.pc 1 = .monWait ∧
    monitorDemo.resource_free = false ∧ monitorDemo.monitor_mtx = none ∧
    sum8 (fun w => (monitorDemo.pc w).appending.toNat) = 1 := by
  refine ⟨?_, ?_, ?_, ?_, ?_⟩ <;> decide

end Primitives
namespace Philosophers

/-! ## Version 3: when a cycle gives up -/

theorem attemptsOk_init : State.init.attemptsOk := by
  intro i
  simp [State.init, PC.inAttempt]

set_option maxHeartbeats 1000000 in
theorem attemptsOk_step (s t : State) (m : Move) (h : s.attemptsOk)
    (hm : step .timeout s m = some t) : t.attemptsOk := by
  cases m with
  | driver =>
      obtain ⟨e1, -, e2, -, e3, -⟩ := driverStep_frame s t hm
      have hst := driverStep_stopFlag s t hm
      intro i
      obtain ⟨h1, h2, h3, h4⟩ := h i
      rw [e1, e2, e3]
      refine ⟨h1, h2, ?_, ?_⟩
      · intro hp
        rcases hst with hst | hst
        · exact Or.inr (Or.inr hst.2)
        · rw [hst.2]
          exact h3 hp
      · intro hp
        rcases hst with hst | hst
        · exact Or.inr hst.2
        · rw [hst.2]
          exact h4 hp
  | agent j c =>
      simp only [step, agentStep] at hm
      split at hm
      · simp at hm
      · have hj := h j
        simp only [dineWithTimeout] at hm
        split at hm <;> rename_i hpc <;>
          (try simp only [State.loopTest, State.goto, State.lockFork, State.unlockFork,
            State.eat, State.tryLockFor] at hm) <;>
          (try rw [hpc] at hj) <;>
          (repeat' split at hm) <;>
          cases hm <;>
          intro i <;>
          by_cases hij : i = j
        all_goals first
          | (subst hij
             simp_all [PC.inAttempt]
             done)
          | (subst hij
             simp_all [PC.inAttempt]
             omega)
          | (subst hij
             cases hg : s.gotForks i <;> cases hst : s.stopFlag <;>
               (simp_all [PC.inAttempt]
                try omega))
          | (have hi := h i
             simp_all [PC.inAttempt, Function.update_noteq hij])

theorem reachable_attemptsOk (s : State) (hs : Reachable .timeout s) : s.attemptsOk :=
  reachable_invariant .timeout State.attemptsOk attemptsOk_init
    (fun s m t h hm => attemptsOk_step s t m h hm) s hs

/-- The inner loop for any readings of the stop flag: it ends within three
passes, either right after the first attempt that obtains both forks, or
without the forks after `j` failed attempts, where `j = 3` or the stop flag
was read as true at the loop test that followed them. -/
theorem attemptLoop_any (env : Env) (f m : Nat) :
    (∃ k c, k < 3 ∧ FailedSoFar m k c ∧ env.both k = true ∧
      (∀ i, i < k → env.both i = false) ∧ (∀ i, i ≤ k → env.stop i = false) ∧
      attemptLoop env (f + 3)
        { gotForks := false, attempts := 0, mealsEaten := m, trace := [.think] } =
        some (attemptBody env c)) ∨
    (∃ j c, j ≤ 3 ∧ FailedSoFar m j c ∧
      (∀ i, i < j → env.both i = false ∧ env.stop i = false) ∧
      (j = 3 ∨ env.stop j = true) ∧
      attemptLoop env (f + 3)
        { gotForks := false, attempts := 0, mealsEaten := m, trace := [.think] } = some c) := by
  have I0 := failedSoFar_start m
  have next : ∀ (j fuel : Nat) (c : Locals), FailedSoFar m j c → j < 3 → env.stop j = false →
      attemptLoop env (fuel + 1) c = attemptLoop env fuel (attemptBody env c) := by
    intro j fuel c h hj hs
    exact attemptLoop_continue env fuel c h.got (h.att ▸ hs) (h.att ▸ hj)
  have won : ∀ (j fuel : Nat) (c : Locals), FailedSoFar m j c → env.both j = true → j < 3 →
      attemptLoop env fuel (attemptBody env c) = some (attemptBody env c) := by
    intro j fuel c h hb hj
    exact attemptLoop_exit env fuel _ (Or.inl (failedSoFar_success env m j c h hj hb).1)
  have halt : ∀ (j fuel : Nat) (c : Locals), FailedSoFar m j c → env.stop j = true →
      attemptLoop env fuel c = some c := by
    intro j fuel c h hs
    exact attemptLoop_exit env fuel c (Or.inr (Or.inl (h.att ▸ hs)))
  cases hs0 : env.stop 0
  swap
  · right
    exact ⟨0, _, by omega, I0, fun i hi => absurd hi (by omega), Or.inr hs0, halt 0 _ _ I0 hs0⟩
  cases hb0 : env.both 0
  swap
  · left
    refine ⟨0, _, by omega, I0, hb0, fun i hi => absurd hi (by omega), ?_, ?_⟩
    · intro i hi
      interval_cases i
      exact hs0
    · rw [next 0 _ _ I0 (by omega) hs0]
      exact won 0 _ _ I0 hb0 (by omega)
  have I1 := failedSoFar_fail env m 0 _ I0 (by omega) hb0
  cases hs1 : env.stop 1
  swap
  · right
    refine ⟨1, _, by omega, I1, ?_, Or.inr hs1, ?_⟩
    · intro i hi
      interval_cases i
      exact ⟨hb0, hs0⟩
    · rw [next 0 _ _ I0 (by omega) hs0]
      exact halt 1 _ _ I1 hs1
  cases hb1 : env.both 1
  swap
  · left
    refine ⟨1, _, by omega, I1, hb1, ?_, ?_, ?_⟩
    · intro i hi
      interval_cases i
      exact hb0
    · intro i hi
      interval_cases i
      · exact hs0
      · exact hs1
    · rw [next 0 _ _ I0 (by omega) hs0, next 1 _ _ I1 (by omega) hs1]
      exact won 1 _ _ I1 hb1 (by omega)
  have I2 := failedSoFar_fail env m 1 _ I1 (by omega) hb1
  cases hs2 : env.stop 2
  swap
  · right
    refine ⟨2, _, by omega, I2, ?_, Or.inr hs2, ?_⟩
    · intro i hi
      interval_cases i
      · exact ⟨hb0, hs0⟩
      · exact ⟨hb1, hs1⟩
    · rw [next 0 _ _ I0 (by omega) hs0, next 1 _ _ I1 (by omega) hs1]
      exact halt 2 _ _ I2 hs2
  cases hb2 : env.both 2
  swap
  · left
    refine ⟨2, _, by omega, I2, hb2, ?_, ?_, ?_⟩
    · intro i hi
      interval_cases i
      · exact hb0
      · exact hb1
    · intro i hi
      interval_cases i
      · exact hs0
      · exact hs1
      · exact hs2
    · rw [next 0 _ _ I0 (by omega) hs0, next 1 _ _ I1 (by omega) hs1,
        next 2 _ _ I2 (by omega) hs2]
      exact won 2 _ _ I2 hb2 (by omega)
  have I3 := failedSoFar_fail env m 2 _ I2 (by omega) hb2
  right
  refine ⟨3, _, by omega, I3, ?_, Or.inl rfl, ?_⟩
  · intro i hi
    interval_cases i
    · exact ⟨hb0, hs0⟩
    · exact ⟨hb1, hs1⟩
    · exact ⟨hb2, hs2⟩
  · rw [next 0 _ _ I0 (by omega) hs0, next 1 _ _ I1 (by omega) hs1,
      next 2 _ _ I2 (by omega) hs2]
    exact attemptLoop_exit env f _ (Or.inr (Or.inr (by rw [I3.att])))

theorem starvedUntried_exec : exec .timeout State.init stopDuringCycle = some starvedUntried := by
  rfl

theorem starvedUntried_reachable : Reachable .timeout starvedUntried :=
  reachable_of_exec _ _ _ _ Reachable.init starvedUntried_exec

/-- C22, counterexample: when `stopFlag` is set after philosopher 0 has passed
the outer loop test, the inner loop is left at its first test and the cycle
takes the branch with the starvation message without any attempt, though both
forks are free; and when the flag is set during the first backoff sleep the
starvation message follows one failed attempt. -/
theorem starved_without_three_attempts :
    exec .timeout State.init stopDuringCycle = some starvedUntried ∧
    starvedUntried.pc 0 = .starved ∧ starvedUntried.attempts 0 = 0 ∧
    starvedUntried.forks (leftFork 0) = none ∧ starvedUntried.forks (rightFork 0) = none ∧
    starvedCycles .timeout 0 State.init (stopDuringCycle ++ [.agent 0 .run]) = 1 ∧
    (timeoutCycle stoppedAtOnce 3 0).map (fun r => r.trace) = some [.think, .starvedMsg] ∧
    (timeoutCycle stoppedAtOnce 3 0).map (fun r => attemptsMade r.trace) = some 0 ∧
    (timeoutCycle stoppedAfterOne 3 0).map (fun r => r.trace) =
      some [.think, .attemptMsg 1, .tryLeft false, .waitMsg, .backoffSleep, .starvedMsg] ∧
    (timeoutCycle stoppedAfterOne 3 0).map (fun r => attemptsMade r.trace) = some 1 := by
  refine ⟨rfl, ?_, ?_, ?_, ?_, ?_, ?_, ?_, ?_, ?_⟩ <;> decide

/-- C22, amended: under version 3 a cycle prints the starvation message only
when every attempt it has made has failed to obtain both forks, and it has
made 3 attempts or fewer, down to none, with `stopFlag` read as true at the
test of the inner loop that followed them; with `stopFlag` false throughout
the cycle that is after 3 failed attempts. The same holds in every reachable
state of the interleaved run: at the branch that prints the message
`gotForks` is false and `attempts` is 3, or below 3 with `stopFlag` set. -/
theorem starved_only_after_failures (env : Env) (fuel meals : Nat) (hfuel : 3 ≤ fuel)
    (s : State) (hs : Reachable .timeout s) (i : Fin 5) :
    (∃ r, timeoutCycle env fuel meals = some r ∧ r.trace.count .starvedMsg ≤ 1 ∧
      (r.trace.count .starvedMsg = 1 →
        r.gotForks = false ∧ r.mealsEaten = meals ∧ r.trace.count .eat = 0 ∧
        r.attempts = attemptsMade r.trace ∧ attemptsMade r.trace ≤ 3 ∧
        (∀ k, k < attemptsMade r.trace → env.both k = false ∧ env.stop k = false) ∧
        (attemptsMade r.trace = 3 ∨ env.stop (attemptsMade r.trace) = true)) ∧
      ((∀ k, env.stop k = false) → r.trace.count .starvedMsg = 1 →
        attemptsMade r.trace = 3)) ∧
    (s.pc i = .starved →
      s.gotForks i = false ∧ s.attempts i ≤ 3 ∧ (s.attempts i = 3 ∨ s.stopFlag = true)) := by
  constructor
  · obtain ⟨f, rfl⟩ : ∃ f, fuel = f + 3 := ⟨fuel - 3, by omega⟩
    rcases attemptLoop_any env f meals with
      ⟨k, c, hk, hI, hb, -, -, hloop⟩ | ⟨j, c, hj, hI, hfail, hend, hloop⟩
    · obtain ⟨hg, -, -, -, -, -, hstarved, -⟩ := failedSoFar_success env meals k c hI hk hb
      refine ⟨_, by rw [timeoutCycle, hloop]; rfl, ?_⟩
      simp only [hg, if_true]
      have e0 : ((attemptBody env c).trace ++
          [Event.eat, Event.unlockRight, Event.unlockLeft, Event.putDownMsg]).count
            Event.starvedMsg = 0 := by
        simp [List.count_cons, hstarved]
      rw [e0]
      refine ⟨by omega, fun h => absurd h (by omega), fun _ h => absurd h (by omega)⟩
    · refine ⟨_, by rw [timeoutCycle, hloop]; rfl, ?_⟩
      simp only [hI.got, Bool.false_eq_true, if_false]
      have h1 := hI.made
      have e0 : (c.trace ++ [Event.starvedMsg]).count Event.starvedMsg = 1 := by
        simp [List.count_cons, hI.noStarved]
      have e1 : attemptsMade (c.trace ++ [Event.starvedMsg]) = j := by
        simp [attemptsMade, List.countP_cons] at h1 ⊢
        omega
      rw [e0, e1]
      refine ⟨Nat.le_refl _, fun _ => ⟨trivial, hI.meals, ?_, hI.att, hj, hfail, hend⟩, ?_⟩
      · simp [List.count_cons, hI.noEat]
      · intro hstop _
        rcases hend with h | h
        · exact h
        · rw [hstop j] at h
          cases h
  · intro hpc
    have hp := (reachable_paired .timeout s hs i).2.2 (by rw [hpc]; rfl)
    obtain ⟨h1, -, -, h4⟩ := reachable_attemptsOk s hs i
    exact ⟨hp, h1, h4 hpc⟩

theorem starved_only_after_failures_witness :
    3 ≤ 3 ∧ Reachable .timeout starvedUntried ∧
    ((∃ r, timeoutCycle stoppedAfterOne 3 0 = some r ∧ r.trace.count .starvedMsg ≤ 1 ∧
      (r.trace.count .starvedMsg = 1 →
        r.gotForks = false ∧ r.mealsEaten = 0 ∧ r.trace.count .eat = 0 ∧
        r.attempts = attemptsMade r.trace ∧ attemptsMade r.trace ≤ 3 ∧
        (∀ k, k < attemptsMade r.trace →
          stoppedAfterOne.both k = false ∧ stoppedAfterOne.stop k = false) ∧
        (attemptsMade r.trace = 3 ∨ stoppedAfterOne.stop (attemptsMade r.trace) = true)) ∧
      ((∀ k, stoppedAfterOne.stop k = false) → r.trace.count .starvedMsg = 1 →
        attemptsMade r.trace = 3)) ∧
    (starvedUntried.pc 0 = .starved →
      starvedUntried.gotForks 0 = false ∧ starvedUntried.attempts 0 ≤ 3 ∧
      (starvedUntried.attempts 0 = 3 ∨ starvedUntried.stopFlag = true))) :=
  ⟨by decide, starvedUntried_reachable,
    starved_only_after_failures stoppedAfterOne 3 0 (by decide) starvedUntried
      starvedUntried_reachable 0⟩

end Philosophers
